import Mathlib

/-!
Shallow embedding of `src/ADS_set.h`: an ordered-set container backed by a
B+ tree with order parameter `N` (template parameter `size_t N`, default 3).
Keys are modelled as `Int` (the element type is an opaque strictly ordered
type; `key_compare` is `<`, `key_equal` is `=`).  A node's `values` array
together with `node_size` is modelled as the list of live values; the
`children` array of an internal node as the list of live children.  The
doubly linked leaf chain (`left_neighbour`/`right_neighbour`) is modelled by
the in-order sequence of leaves of the tree (`Node.leaves`), which is exactly
the sequence the chain traverses.
-/

set_option linter.unusedVariables false
set_option linter.unnecessarySimpa false

/-- `InsertMsg` (ADS_set.h lines 35-39). -/
inductive InsertMsg where
  | SUCCESS
  | EXISTS
  | SPLIT
deriving DecidableEq, Repr

/-- `EraseMsg` (lines 41-45). -/
inductive EraseMsg where
  | SUCCESS
  | NOT_EXISTENT
  | MERGE
deriving DecidableEq, Repr

/-- `MergeDirection` (lines 47-50). -/
inductive MergeDirection where
  | LEFT
  | RIGHT
deriving DecidableEq, Repr

/-- A tree node: `ExternalNode` (lines 85-190) holds the stored keys,
`InternalNode` (lines 192-545) holds separator values and children. -/
inductive Node where
  | ext (values : List Int)
  | intl (values : List Int) (children : List Node)
deriving Repr

/-- `node_size` (line 61): the number of live entries of the `values` array. -/
def Node.size : Node → Nat
  | .ext vs => vs.length
  | .intl vs _ => vs.length

/-- `max_size = N * 2` (line 58). -/
def maxSize (N : Nat) : Nat := N * 2

/-- `min_size = N` (line 59). -/
def minSize (N : Nat) : Nat := N

mutual
/-- All keys stored in the subtree, in leaf order (data lives only in leaves). -/
def Node.keys : Node → List Int
  | .ext vs => vs
  | .intl _ cs => keysList cs
/-- Concatenated keys of a list of subtrees. -/
def keysList : List Node → List Int
  | [] => []
  | c :: cs => c.keys ++ keysList cs
end

mutual
/-- The in-order sequence of leaves of the subtree: the leaf chain restricted
to this subtree (the `right_neighbour` chain visits exactly this sequence). -/
def Node.leaves : Node → List (List Int)
  | .ext vs => [vs]
  | .intl _ cs => leavesList cs
/-- Concatenated leaf sequences of a list of subtrees. -/
def leavesList : List Node → List (List Int)
  | [] => []
  | c :: cs => c.leaves ++ leavesList cs
end

/-- The loop of `ExternalNode::find_pos` (lines 113-125): binary search over
the live values; returns the index holding `elem`, or `-1`. -/
def findPosAux (vs : List Int) (elem : Int) (low high : Int) : Int :=
  if h : low ≤ high then
    let mid : Int := low + (high - low) / 2
    if vs.getD mid.toNat 0 = elem then mid
    else if vs.getD mid.toNat 0 < elem then findPosAux vs elem (mid + 1) high
    else findPosAux vs elem low (mid - 1)
  else -1
termination_by (high + 1 - low).toNat
decreasing_by
  · have h0 : (0 : Int) ≤ (high - low) / 2 := Int.ediv_nonneg (by omega) (by norm_num)
    have h1 : (high - low) / 2 ≤ high - low := Int.ediv_le_self _ (by omega)
    omega
  · have h0 : (0 : Int) ≤ (high - low) / 2 := Int.ediv_nonneg (by omega) (by norm_num)
    have h1 : (high - low) / 2 ≤ high - low := Int.ediv_le_self _ (by omega)
    omega

/-- `ExternalNode::find_pos` (lines 109-128). -/
def extFindPos (vs : List Int) (elem : Int) : Int :=
  if vs.length = 0 then -1 else findPosAux vs elem 0 ((vs.length : Int) - 1)

/-- The insertion-position scan of `ExternalNode::add_elem` (lines 145-150):
the first index whose value is greater than `elem` (else `node_size`). -/
def extInsertPos (vs : List Int) (elem : Int) : Nat :=
  match vs with
  | [] => 0
  | v :: rest => if elem < v then 0 else extInsertPos rest elem + 1

/-- `ExternalNode::add_elem` (lines 141-159). -/
def extAddElem (N : Nat) (vs : List Int) (elem : Int) : List Int × InsertMsg :=
  if extFindPos vs elem ≠ -1 then (vs, .EXISTS)
  else
    let vs2 := vs.insertIdx (extInsertPos vs elem) elem
    if vs2.length > maxSize N then (vs2, .SPLIT) else (vs2, .SUCCESS)

/-- `ExternalNode::remove_elem` (lines 161-174). -/
def extRemoveElem (N : Nat) (vs : List Int) (elem : Int) : List Int × EraseMsg :=
  let i := extFindPos vs elem
  if i = -1 then (vs, .NOT_EXISTENT)
  else
    let vs2 := vs.eraseIdx i.toNat
    if vs2.length < minSize N then (vs2, .MERGE) else (vs2, .SUCCESS)

/-- `InternalNode::find_pos` (lines 209-218): the first index whose separator
is greater than `elem`, else `node_size`. -/
def intFindPos (vs : List Int) (elem : Int) : Nat :=
  match vs with
  | [] => 0
  | v :: rest => if elem < v then 0 else intFindPos rest elem + 1

/-- `InternalNode::split(pos)` (lines 243-306), acting on the parent's
separators `vs` and children `cs`; the child at `pos` holds `2N+1` values.
For a leaf child the upper values from index `node_size / 2` on move to a new
right leaf, the left leaf is truncated (`node_size /= 2`), the new leaf is
spliced into the leaf chain right after the left leaf (lines 261-264, which
the in-order leaf sequence reflects), and `right.values[0]` becomes the new
separator at `pos`.  For an internal child the median separator is promoted. -/
def splitAt (vs : List Int) (cs : List Node) (pos : Nat) : List Int × List Node :=
  match cs.getD pos (.ext []) with
  | .ext cvs =>
      -- lines 248-255: right part gets values[e + m/2] for e = 0 .. m/2
      let m := cvs.length
      let rightVals := (cvs.drop (m / 2)).take (m / 2 + 1)
      -- line 258: left part truncated to m/2 values
      let leftVals := cvs.take (m / 2)
      -- lines 266-273: shift separators/children right of pos, insert
      -- right.values[0] at pos and the new leaf at pos+1
      (vs.insertIdx pos (rightVals.getD 0 0),
       (cs.set pos (.ext leftVals)).insertIdx (pos + 1) (.ext rightVals))
  | .intl cvs ccs =>
      -- line 279: promoted key values[m/2]
      let m := cvs.length
      let newKey := cvs.getD (m / 2) 0
      -- lines 281-291: right part gets values[i + m/2 + 1] for i < m/2 and
      -- children[i + m/2 + 1] for i ≤ m/2
      let rightVals := (cvs.drop (m / 2 + 1)).take (m / 2)
      let rightChildren := (ccs.drop (m / 2 + 1)).take (m / 2 + 1)
      -- line 294: left part truncated to m/2 values (m/2 + 1 children)
      let leftVals := cvs.take (m / 2)
      let leftChildren := ccs.take (m / 2 + 1)
      -- lines 296-303: insert promoted key at pos, new node at pos+1
      (vs.insertIdx pos newKey,
       (cs.set pos (.intl leftVals leftChildren)).insertIdx (pos + 1)
         (.intl rightVals rightChildren))

/-- The direction choice of `InternalNode::merge` (lines 324-329). -/
def mergeDir (vs : List Int) (cs : List Node) (pos : Nat) : MergeDirection :=
  if pos = vs.length ∨
      (pos ≠ 0 ∧ (cs.getD (pos - 1) (.ext [])).size < (cs.getD (pos + 1) (.ext [])).size) then
    .LEFT
  else
    .RIGHT

/-- Condition of the redistribute-from-the-right-sibling branches
(line 332-333 for leaves, 359-360 for internal children). -/
def canStealRight (N : Nat) (vs : List Int) (cs : List Node) (pos : Nat) : Prop :=
  (pos = 0 ∨ (mergeDir vs cs pos = .LEFT ∧ pos < vs.length)) ∧
    (cs.getD (pos + 1) (.ext [])).size > minSize N

/-- Condition of the redistribute-from-the-left-sibling branches
(line 345-346 for leaves, 381-382 for internal children). -/
def canStealLeft (N : Nat) (vs : List Int) (cs : List Node) (pos : Nat) : Prop :=
  (pos = vs.length ∨ (mergeDir vs cs pos = .RIGHT ∧ pos > 0)) ∧
    (cs.getD (pos - 1) (.ext [])).size > minSize N

instance (N : Nat) (vs : List Int) (cs : List Node) (pos : Nat) :
    Decidable (canStealRight N vs cs pos) := by
  unfold canStealRight; infer_instance

instance (N : Nat) (vs : List Int) (cs : List Node) (pos : Nat) :
    Decidable (canStealLeft N vs cs pos) := by
  unfold canStealLeft; infer_instance

/-- Redistribution from the right sibling, leaf case (lines 334-343): move
`sibling.values[0]` to the end of the underfull leaf, shift the sibling left,
and set the parent separator at `pos` to the sibling's new first value. -/
def stealRightExt (vs : List Int) (cs : List Node) (pos : Nat) : List Int × List Node :=
  match cs.getD pos (.ext []), cs.getD (pos + 1) (.ext []) with
  | .ext cvs, .ext rvs =>
      (vs.set pos ((rvs.drop 1).getD 0 0),
       (cs.set pos (.ext (cvs ++ [rvs.getD 0 0]))).set (pos + 1) (.ext (rvs.drop 1)))
  | _, _ => (vs, cs)

/-- Redistribution from the left sibling, leaf case (lines 347-356): shift the
underfull leaf right, move the left sibling's last value into position 0, and
set the parent separator at `pos - 1` to the underfull leaf's new first value. -/
def stealLeftExt (vs : List Int) (cs : List Node) (pos : Nat) : List Int × List Node :=
  match cs.getD (pos - 1) (.ext []), cs.getD pos (.ext []) with
  | .ext lvs, .ext cvs =>
      (vs.set (pos - 1) (lvs.getD (lvs.length - 1) 0),
       (cs.set pos (.ext (lvs.getD (lvs.length - 1) 0 :: cvs))).set (pos - 1)
         (.ext (lvs.take (lvs.length - 1))))
  | _, _ => (vs, cs)

/-- Redistribution from the right sibling, internal case (lines 361-379):
pull the parent separator at `pos` down to the end of the underfull node,
pull the sibling's first child across, promote the sibling's first separator
into the parent at `pos`, and shift the sibling left. -/
def stealRightInt (vs : List Int) (cs : List Node) (pos : Nat) : List Int × List Node :=
  match cs.getD pos (.ext []), cs.getD (pos + 1) (.ext []) with
  | .intl cvs ccs, .intl rvs rcs =>
      (vs.set pos (rvs.getD 0 0),
       (cs.set pos (.intl (cvs ++ [vs.getD pos 0]) (ccs ++ [rcs.getD 0 (.ext [])]))).set
         (pos + 1) (.intl (rvs.drop 1) (rcs.drop 1)))
  | _, _ => (vs, cs)

/-- Redistribution from the left sibling, internal case (lines 383-401):
shift the underfull node right, pull the parent separator at `pos - 1` down as
its first value and the left sibling's last child across as its first child,
and promote the left sibling's last separator into the parent at `pos - 1`. -/
def stealLeftInt (vs : List Int) (cs : List Node) (pos : Nat) : List Int × List Node :=
  match cs.getD (pos - 1) (.ext []), cs.getD pos (.ext []) with
  | .intl lvs lcs, .intl cvs ccs =>
      (vs.set (pos - 1) (lvs.getD (lvs.length - 1) 0),
       (cs.set pos (.intl (vs.getD (pos - 1) 0 :: cvs)
           (lcs.getD (lcs.length - 1) (.ext []) :: ccs))).set (pos - 1)
         (.intl (lvs.take (lvs.length - 1)) (lcs.take (lcs.length - 1))))
  | _, _ => (vs, cs)

/-- The fuse of `merge` in direction LEFT (lines 409-460), without the final
recovery step: the child at `pos` is merged into the child at `pos - 1`
(leaves: concatenate values and bridge the leaf chain, lines 414-428;
internal: concatenate with the parent separator at `pos - 1` pulled down
between the runs, lines 430-443).  The parent reorganisation (lines 454-460)
shifts `values[j-1] ← values[j]` only for `j < node_size - 1`, so for
`pos < node_size` the last kept separator slot keeps its old value instead of
receiving `values[node_size - 1]`. -/
def fuseLeft (vs : List Int) (cs : List Node) (pos : Nat) : List Int × List Node :=
  let merged : Node :=
    match cs.getD (pos - 1) (.ext []), cs.getD pos (.ext []) with
    | .ext lvs, .ext cvs => .ext (lvs ++ cvs)
    | .intl lvs lcs, .intl cvs ccs => .intl (lvs ++ vs.getD (pos - 1) 0 :: cvs) (lcs ++ ccs)
    | l, _ => l
  ((if pos = vs.length then vs.eraseIdx (pos - 1)
    else (vs.eraseIdx (pos - 1)).set (vs.length - 2) (vs.getD (vs.length - 2) 0)),
   (cs.set (pos - 1) merged).eraseIdx pos)

/-- The fuse of `merge` in direction RIGHT (lines 468-520), without the final
recovery step: the child at `pos + 1` is merged into the child at `pos`
(leaves lines 473-487, internal lines 488-503), then the parent separator at
`pos` and the child pointer at `pos + 1` are removed (lines 514-520). -/
def fuseRight (vs : List Int) (cs : List Node) (pos : Nat) : List Int × List Node :=
  let merged : Node :=
    match cs.getD pos (.ext []), cs.getD (pos + 1) (.ext []) with
    | .ext cvs, .ext rvs => .ext (cvs ++ rvs)
    | .intl cvs ccs, .intl rvs rcs => .intl (cvs ++ vs.getD pos 0 :: rvs) (ccs ++ rcs)
    | c, _ => c
  (vs.eraseIdx pos, (cs.set pos merged).eraseIdx (pos + 1))

/-- `InternalNode::merge(pos)` (lines 323-526), acting on the parent's
separators `vs` and children `cs`.  First a redistribution is attempted
(right sibling first, then left sibling); otherwise the nodes are fused in
the chosen direction and, should the fused child exceed `max_size`, the
recovery `split` at its position runs (lines 461-465, 521-524). -/
def mergeAt (N : Nat) (vs : List Int) (cs : List Node) (pos : Nat) : List Int × List Node :=
  match cs.getD pos (.ext []) with
  | .ext _ =>
      if canStealRight N vs cs pos then stealRightExt vs cs pos
      else if canStealLeft N vs cs pos then stealLeftExt vs cs pos
      else
        match mergeDir vs cs pos with
        | .LEFT =>
            let r := fuseLeft vs cs pos
            if (r.2.getD (pos - 1) (.ext [])).size > maxSize N then splitAt r.1 r.2 (pos - 1)
            else r
        | .RIGHT =>
            let r := fuseRight vs cs pos
            if (r.2.getD pos (.ext [])).size > maxSize N then splitAt r.1 r.2 pos
            else r
  | .intl _ _ =>
      if canStealRight N vs cs pos then stealRightInt vs cs pos
      else if canStealLeft N vs cs pos then stealLeftInt vs cs pos
      else
        match mergeDir vs cs pos with
        | .LEFT =>
            let r := fuseLeft vs cs pos
            if (r.2.getD (pos - 1) (.ext [])).size > maxSize N then splitAt r.1 r.2 (pos - 1)
            else r
        | .RIGHT =>
            let r := fuseRight vs cs pos
            if (r.2.getD pos (.ext [])).size > maxSize N then splitAt r.1 r.2 pos
            else r

mutual
/-- `Node::add_elem` (lines 141-159 and 228-241): leaves do a guarded sorted
insert; internal nodes descend into the child chosen by `find_pos`, split it
when it reports SPLIT, and report SPLIT themselves when now oversize. -/
def addElem (N : Nat) : Node → Int → Node × InsertMsg
  | .ext vs, k =>
      let r := extAddElem N vs k
      (.ext r.1, r.2)
  | .intl vs cs, k =>
      let pos := intFindPos vs k
      let r := addChild N cs pos k
      match r.2 with
      | .SPLIT =>
          let s := splitAt vs r.1 pos
          (.intl s.1 s.2, if s.1.length ≤ maxSize N then .SUCCESS else .SPLIT)
      | msg => (.intl vs r.1, msg)
/-- `children[pos]->add_elem(elem)` (line 233): apply `addElem` to the child
at index `pos` (in-range in every reachable tree). -/
def addChild (N : Nat) : List Node → Nat → Int → List Node × InsertMsg
  | [], _, _ => ([], .EXISTS)
  | c :: cs, 0, k =>
      let r := addElem N c k
      (r.1 :: cs, r.2)
  | c :: cs, pos + 1, k =>
      let r := addChild N cs pos k
      (c :: r.1, r.2)
end

mutual
/-- `Node::remove_elem` (lines 161-174 and 308-321): leaves do a guarded
removal; internal nodes descend into the child chosen by `find_pos`, merge at
its position when it reports MERGE, and report MERGE themselves when now
undersize. -/
def removeElem (N : Nat) : Node → Int → Node × EraseMsg
  | .ext vs, k =>
      let r := extRemoveElem N vs k
      (.ext r.1, r.2)
  | .intl vs cs, k =>
      let pos := intFindPos vs k
      let r := removeChild N cs pos k
      match r.2 with
      | .MERGE =>
          let m := mergeAt N vs r.1 pos
          (.intl m.1 m.2, if m.1.length ≥ minSize N then .SUCCESS else .MERGE)
      | msg => (.intl vs r.1, msg)
/-- `children[pos]->remove_elem(elem)` (line 313): apply `removeElem` to the
child at index `pos` (in-range in every reachable tree). -/
def removeChild (N : Nat) : List Node → Nat → Int → List Node × EraseMsg
  | [], _, _ => ([], .NOT_EXISTENT)
  | c :: cs, 0, k =>
      let r := removeElem N c k
      (r.1 :: cs, r.2)
  | c :: cs, pos + 1, k =>
      let r := removeChild N cs pos k
      (c :: r.1, r.2)
end

mutual
/-- `Node::count` (lines 102-107, 220-222). -/
def countNode : Node → Int → Bool
  | .ext vs, k => extFindPos vs k ≠ -1
  | .intl vs cs, k => countChild cs (intFindPos vs k) k
/-- `children[find_pos(key)]->count(key)` (line 221). -/
def countChild : List Node → Nat → Int → Bool
  | [], _, _ => false
  | c :: _, 0, k => countNode c k
  | _ :: cs, pos + 1, k => countChild cs pos k
end

/-- The container state: element counter `sz` and the owned `root`
(lines 547-549); the cached `left_leaf` pointer always aliases the leftmost
leaf of `root`, i.e. the head of `Node.leaves`. -/
structure BSet where
  sz : Nat
  root : Node
deriving Repr

/-- The default constructor (lines 552-554): an empty leaf as root. -/
def BSet.empty : BSet := ⟨0, .ext []⟩

/-- `ADS_set::insert(key)` (lines 603-622): dispatch to the root; on SPLIT
wrap the root in a fresh internal node and split at index 0; count a new
element on SUCCESS or SPLIT.  The `Bool` is the `inserted` component of the
returned pair. -/
def insertKey (N : Nat) (s : BSet) (k : Int) : BSet × Bool :=
  match h : addElem N s.root k with
  | (t, .EXISTS) => (⟨s.sz, t⟩, false)
  | (t, .SUCCESS) => (⟨s.sz + 1, t⟩, true)
  | (t, .SPLIT) =>
      let r := splitAt [] [t] 0
      (⟨s.sz + 1, .intl r.1 r.2⟩, true)

/-- `ADS_set::erase(key)` (lines 638-656): dispatch to the root; on MERGE,
when the root is an internal node with zero separators, replace it by its
lone child (freeing the former root only); decrement `sz` and return 1 on
SUCCESS or MERGE, return 0 on NOT_EXISTENT. -/
def eraseKey (N : Nat) (s : BSet) (k : Int) : Nat × BSet :=
  match removeElem N s.root k with
  | (t, .SUCCESS) => (1, ⟨s.sz - 1, t⟩)
  | (t, .NOT_EXISTENT) => (0, ⟨s.sz, t⟩)
  | (t, .MERGE) =>
      match t with
      | .intl [] cs => (1, ⟨s.sz - 1, cs.getD 0 (.ext [])⟩)
      | t2 => (1, ⟨s.sz - 1, t2⟩)

/-- `ADS_set::clear` (lines 631-636). -/
def clearSet (s : BSet) : BSet := BSet.empty

/-- `ADS_set::count` (lines 658-663). -/
def countKey (s : BSet) (k : Int) : Nat := if countNode s.root k then 1 else 0

/-- Range insertion `insert(first, last)` (lines 624-629), also the
iterator-range constructor (lines 562-567). -/
def insertList (N : Nat) (s : BSet) (ks : List Int) : BSet :=
  ks.foldl (fun t k => (insertKey N t k).1) s

/-- Iterator state (lines 724-731): a current leaf plus an index, end being
the `(nullptr, 0)` sentinel.  The current leaf and the leaves still reachable
through `right_neighbour` links are modelled as a suffix of the leaf chain;
`chain = []` is the end sentinel. -/
structure Iter where
  chain : List (List Int)
  idx : Nat
deriving Repr

/-- `Iterator::operator++` (lines 741-750): advance the index; at the end of
the current leaf move to its right neighbour and reset the index. -/
def Iter.next : Iter → Iter
  | ⟨[], i⟩ => ⟨[], i⟩
  | ⟨l :: rest, i⟩ => if i + 1 ≥ l.length then ⟨rest, 0⟩ else ⟨l :: rest, i + 1⟩

/-- `ADS_set::begin` (lines 675-680): the end sentinel when empty, else the
cached leftmost leaf (the head of the leaf chain) at index 0. -/
def beginIter (s : BSet) : Iter :=
  if s.sz = 0 then ⟨[], 0⟩ else ⟨s.root.leaves, 0⟩

/-- Repeated dereference-and-advance from an iterator until `end` is reached:
the sequence of keys a `begin()..end()` loop visits (`*it` is
`current_node->values[current_element]`, line 733-735). -/
def iterToList : Iter → List Int
  | ⟨[], _⟩ => []
  | ⟨l :: rest, i⟩ => l.getD i 0 :: iterToList (Iter.next ⟨l :: rest, i⟩)
termination_by it => (it.chain.map List.length).sum + it.chain.length - min it.idx (it.chain.headD []).length
decreasing_by
  simp only [Iter.next]
  split
  · simp only [List.map_cons, List.sum_cons, List.length_cons, List.headD_cons]
    omega
  · simp only [List.map_cons, List.sum_cons, List.length_cons, List.headD_cons]
    omega

/-- `ADS_set::operator=(const ADS_set &other)` applied to the container
itself (lines 577-581): `clear()` runs first, then the bulk insert iterates
`other.begin()..other.end()` — but `other` aliases the cleared container, so
the iterated range is that of the already-cleared tree. -/
def selfAssign (N : Nat) (s : BSet) : BSet :=
  let c := clearSet s
  insertList N c (iterToList (beginIter c))

/-! ### Well-formedness predicates -/

/-- Bounds for a stored key: at least the inclusive lower bound, strictly
below the exclusive upper bound (spec invariant I2). -/
def OKey (lb ub : Option Int) (k : Int) : Prop :=
  (∀ a ∈ lb, a ≤ k) ∧ ∀ b ∈ ub, k < b

/-- Bounds for a separator: strictly inside the window. -/
def OSep (lb ub : Option Int) (s : Int) : Prop :=
  (∀ a ∈ lb, a < s) ∧ ∀ b ∈ ub, s < b

mutual
/-- Routing/ordering invariant of a subtree within a key window
(spec invariants L1, L2, I1, I2). -/
def Ordered : Option Int → Option Int → Node → Prop
  | lb, ub, .ext vs => List.Sorted (· < ·) vs ∧ ∀ k ∈ vs, OKey lb ub k
  | lb, ub, .intl vs cs => OrdSeq lb ub vs cs
/-- Ordering of an alternating child/separator sequence within a window:
each separator strictly grows, each child lives between its separators. -/
def OrdSeq : Option Int → Option Int → List Int → List Node → Prop
  | lb, ub, [], [c] => Ordered lb ub c
  | _, _, [], [] => False
  | _, _, [], _ :: _ :: _ => False
  | lb, ub, s :: vs, c :: cs => OSep lb ub s ∧ Ordered lb (some s) c ∧ OrdSeq (some s) ub vs cs
  | _, _, _ :: _, [] => False
end

/-- Balance invariant (spec T1/P2): all leaves at the same depth, and an
internal node has one more child than separators.  `Bal 0` is a leaf. -/
inductive Bal : Nat → Node → Prop where
  | ext (vs : List Int) : Bal 0 (.ext vs)
  | intl (h : Nat) (vs : List Int) (cs : List Node) :
      cs.length = vs.length + 1 → (∀ c ∈ cs, Bal h c) → Bal (h + 1) (.intl vs cs)

/-- Fill invariant for a non-root subtree (spec P1, L3, I3): the node and all
its descendants hold between `N` and `2N` values. -/
inductive FillB (N : Nat) : Node → Prop where
  | ext (vs : List Int) : N ≤ vs.length → vs.length ≤ 2 * N → FillB N (.ext vs)
  | intl (vs : List Int) (cs : List Node) : N ≤ vs.length → vs.length ≤ 2 * N →
      (∀ c ∈ cs, FillB N c) → FillB N (.intl vs cs)

/-- Prefix version of `OrdSeq`: pairs of (separator, child) consumed from the
left of an internal node, ending with running lower bound `mb`. -/
def OrdSeqL : Option Int → Option Int → Option Int → List Int → List Node → Prop
  | lb, _, mb, [], [] => mb = lb
  | _, _, _, [], _ :: _ => False
  | _, _, _, _ :: _, [] => False
  | lb, ub, mb, s :: vs, c :: cs => OSep lb ub s ∧ Ordered lb (some s) c ∧ OrdSeqL (some s) ub mb vs cs

/-- Structural induction for `Node` with a membership hypothesis for the
children of an internal node. -/
theorem Node.indOn {P : Node → Prop} (hext : ∀ vs, P (.ext vs))
    (hintl : ∀ vs cs, (∀ c ∈ cs, P c) → P (.intl vs cs)) : ∀ t, P t
  | .ext vs => hext vs
  | .intl vs cs => hintl vs cs (fun c hc => Node.indOn hext hintl c)
termination_by t => sizeOf t
decreasing_by
  have := List.sizeOf_lt_of_mem hc
  simp only [Node.intl.sizeOf_spec]
  omega

/-! ### Basic facts about keys, leaves and the predicates -/

theorem keysList_append (A B : List Node) : keysList (A ++ B) = keysList A ++ keysList B := by
  induction A with
  | nil => simp [keysList]
  | cons c A ih => simp [keysList, ih]

theorem leavesList_append (A B : List Node) :
    leavesList (A ++ B) = leavesList A ++ leavesList B := by
  induction A with
  | nil => simp [leavesList]
  | cons c A ih => simp [leavesList, ih]

theorem keys_eq_join_leaves : ∀ t : Node, t.keys = t.leaves.flatten := by
  refine Node.indOn (fun vs => by simp [Node.keys, Node.leaves]) (fun vs cs ih => ?_)
  simp only [Node.keys, Node.leaves]
  induction cs with
  | nil => simp [keysList, leavesList]
  | cons c cs ihl =>
      simp only [keysList, leavesList, List.flatten_append]
      rw [ih c (by simp), ihl (fun d hd => ih d (by simp [hd]))]

theorem ordSeq_length : ∀ (vs : List Int) (cs : List Node) (lb ub : Option Int),
    OrdSeq lb ub vs cs → cs.length = vs.length + 1 := by
  intro vs
  induction vs with
  | nil => intro cs lb ub h; match cs with
      | [] => exact absurd h (by simp [OrdSeq])
      | [c] => simp
      | c :: d :: cs => exact absurd h (by simp [OrdSeq])
  | cons s vs ih => intro cs lb ub h; match cs with
      | [] => exact absurd h (by simp [OrdSeq])
      | c :: cs =>
          rw [OrdSeq] at h
          simp [ih cs (some s) ub h.2.2]

theorem ordSeqL_length : ∀ (vs : List Int) (cs : List Node) (lb ub mb : Option Int),
    OrdSeqL lb ub mb vs cs → cs.length = vs.length := by
  intro vs
  induction vs with
  | nil => intro cs lb ub mb h; match cs with
      | [] => simp
      | c :: cs => exact absurd h (by simp [OrdSeqL])
  | cons s vs ih => intro cs lb ub mb h; match cs with
      | [] => exact absurd h (by simp [OrdSeqL])
      | c :: cs =>
          rw [OrdSeqL] at h
          simp [ih cs (some s) ub mb h.2.2]

/-- Composing a consumed prefix with a tail sequence. -/
theorem ordSeqL_comp : ∀ (V1 : List Int) (C1 : List Node) (lb ub mb : Option Int)
    (V2 : List Int) (C2 : List Node),
    OrdSeqL lb ub mb V1 C1 → OrdSeq mb ub V2 C2 → OrdSeq lb ub (V1 ++ V2) (C1 ++ C2) := by
  intro V1
  induction V1 with
  | nil => intro C1 lb ub mb V2 C2 h1 h2; match C1 with
      | [] => rw [OrdSeqL] at h1; subst h1; simpa using h2
      | c :: cs => exact absurd h1 (by simp [OrdSeqL])
  | cons s V1 ih => intro C1 lb ub mb V2 C2 h1 h2; match C1 with
      | [] => exact absurd h1 (by simp [OrdSeqL])
      | c :: C1 =>
          rw [OrdSeqL] at h1
          rw [List.cons_append, List.cons_append, OrdSeq]
          exact ⟨h1.1, h1.2.1, ih C1 (some s) ub mb V2 C2 h1.2.2 h2⟩

/-- Decomposing an ordered sequence at a position. -/
theorem ordSeq_decomp : ∀ (pos : Nat) (vs : List Int) (cs : List Node) (lb ub : Option Int),
    OrdSeq lb ub vs cs → pos ≤ vs.length →
    ∃ mb, OrdSeqL lb ub mb (vs.take pos) (cs.take pos) ∧
      OrdSeq mb ub (vs.drop pos) (cs.drop pos) := by
  intro pos
  induction pos with
  | zero => intro vs cs lb ub h _; exact ⟨lb, by simp [OrdSeqL], by simpa using h⟩
  | succ pos ih =>
      intro vs cs lb ub h hle
      match vs, cs with
      | [], _ => simp at hle
      | s :: vs, [] => exact absurd h (by simp [OrdSeq])
      | s :: vs, c :: cs =>
          rw [OrdSeq] at h
          obtain ⟨mb, h1, h2⟩ := ih vs cs (some s) ub h.2.2 (by simpa using hle)
          exact ⟨mb, by rw [List.take_succ_cons, List.take_succ_cons, OrdSeqL]
                        exact ⟨h.1, h.2.1, h1⟩, by simpa using h2⟩

/-! ### Bound weakening -/

/-- `lb2` is a weaker (smaller) lower bound than `lb`. -/
def lbW (lb2 lb : Option Int) : Prop :=
  lb2 = none ∨ ∃ a2 a, lb2 = some a2 ∧ lb = some a ∧ a2 ≤ a

/-- `ub2` is a weaker (larger) upper bound than `ub`. -/
def ubW (ub ub2 : Option Int) : Prop :=
  ub2 = none ∨ ∃ b b2, ub = some b ∧ ub2 = some b2 ∧ b ≤ b2

theorem lbW_refl (lb : Option Int) : lbW lb lb := by
  cases lb with
  | none => exact Or.inl rfl
  | some a => exact Or.inr ⟨a, a, rfl, rfl, le_refl a⟩

theorem ubW_refl (ub : Option Int) : ubW ub ub := by
  cases ub with
  | none => exact Or.inl rfl
  | some b => exact Or.inr ⟨b, b, rfl, rfl, le_refl b⟩

theorem okey_w {lb ub lb2 ub2 : Option Int} {k : Int} (h : OKey lb ub k)
    (hl : lbW lb2 lb) (hu : ubW ub ub2) : OKey lb2 ub2 k := by
  constructor
  · intro a ha
    rcases hl with h2 | ⟨a2, a3, h2, h3, h4⟩
    · simp [h2] at ha
    · simp [h2] at ha; subst ha; exact le_trans h4 (h.1 a3 (by simp [h3]))
  · intro b hb
    rcases hu with h2 | ⟨b2, b3, h2, h3, h4⟩
    · simp [h2] at hb
    · simp [h3] at hb; subst hb; exact lt_of_lt_of_le (h.2 b2 (by simp [h2])) h4

theorem osep_w {lb ub lb2 ub2 : Option Int} {s : Int} (h : OSep lb ub s)
    (hl : lbW lb2 lb) (hu : ubW ub ub2) : OSep lb2 ub2 s := by
  constructor
  · intro a ha
    rcases hl with h2 | ⟨a2, a3, h2, h3, h4⟩
    · simp [h2] at ha
    · simp [h2] at ha; subst ha; exact lt_of_le_of_lt h4 (h.1 a3 (by simp [h3]))
  · intro b hb
    rcases hu with h2 | ⟨b2, b3, h2, h3, h4⟩
    · simp [h2] at hb
    · simp [h3] at hb; subst hb; exact lt_of_lt_of_le (h.2 b2 (by simp [h2])) h4

theorem ordered_weaken : ∀ (hgt : Nat) (t : Node) (lb ub lb2 ub2 : Option Int),
    Bal hgt t → Ordered lb ub t → lbW lb2 lb → ubW ub ub2 → Ordered lb2 ub2 t := by
  intro hgt
  induction hgt with
  | zero =>
      intro t lb ub lb2 ub2 hb ho hl hu
      cases hb with
      | ext vs =>
          rw [Ordered] at ho ⊢
          exact ⟨ho.1, fun k hk => okey_w (ho.2 k hk) hl hu⟩
  | succ h ih =>
      intro t lb ub lb2 ub2 hb ho hl hu
      cases hb with
      | intl h vs cs hlen hc =>
          rw [Ordered] at ho ⊢
          clear hlen
          induction vs generalizing lb lb2 cs with
          | nil =>
              match cs with
              | [] => exact absurd ho (by rw [OrdSeq]; simp)
              | [c] =>
                  rw [OrdSeq] at ho ⊢
                  exact ih c lb ub lb2 ub2 (hc c (by simp)) ho hl hu
              | c :: d :: cs => exact absurd ho (by rw [OrdSeq]; simp)
          | cons s vs ihv =>
              match cs with
              | [] => exact absurd ho (by rw [OrdSeq]; simp)
              | c :: cs =>
                  rw [OrdSeq] at ho ⊢
                  refine ⟨osep_w ho.1 hl hu, ?_, ?_⟩
                  · exact ih c lb (some s) lb2 (some s) (hc c (by simp)) ho.2.1 hl (ubW_refl _)
                  · exact ihv (some s) (some s) (lbW_refl _) cs (fun d hd => hc d (by simp [hd]))
                      ho.2.2

theorem ordSeq_weaken_ub {hgt : Nat} {vs : List Int} {cs : List Node} {lb ub ub2 : Option Int}
    (hc : ∀ c ∈ cs, Bal hgt c) (ho : OrdSeq lb ub vs cs) (hu : ubW ub ub2) :
    OrdSeq lb ub2 vs cs := by
  have h : Ordered lb ub (.intl vs cs) := by rw [Ordered]; exact ho
  have h2 := ordered_weaken (hgt + 1) (.intl vs cs) lb ub lb ub2
    (Bal.intl hgt vs cs (ordSeq_length vs cs lb ub ho) hc) h (lbW_refl _) hu
  rw [Ordered] at h2
  exact h2

/-! ### List surgery at a known prefix length -/

theorem set_append_length {α : Type} (C1 : List α) (x y : α) (C2 : List α) :
    (C1 ++ x :: C2).set C1.length y = C1 ++ y :: C2 := by
  induction C1 with
  | nil => simp
  | cons a C1 ih => simp [ih]

theorem insertIdx_append_length {α : Type} (C1 C2 : List α) (y : α) :
    (C1 ++ C2).insertIdx C1.length y = C1 ++ y :: C2 := by
  induction C1 with
  | nil => simp
  | cons a C1 ih => simpa [List.insertIdx_succ_cons] using ih

theorem eraseIdx_append_length {α : Type} (C1 : List α) (x : α) (C2 : List α) :
    (C1 ++ x :: C2).eraseIdx C1.length = C1 ++ C2 := by
  induction C1 with
  | nil => simp
  | cons a C1 ih => simp [ih]

theorem getD_append_length {α : Type} (C1 : List α) (x : α) (C2 : List α) (d : α) :
    (C1 ++ x :: C2).getD C1.length d = x := by
  induction C1 with
  | nil => simp
  | cons a C1 ih => simpa using ih

theorem getD_append_length_succ {α : Type} (C1 : List α) (x y : α) (C2 : List α) (d : α) :
    (C1 ++ x :: y :: C2).getD (C1.length + 1) d = y := by
  have h := getD_append_length (C1 ++ [x]) y C2 d
  simpa using h

theorem set_append_length_succ {α : Type} (C1 : List α) (x y z : α) (C2 : List α) :
    (C1 ++ x :: y :: C2).set (C1.length + 1) z = C1 ++ x :: z :: C2 := by
  have h := set_append_length (C1 ++ [x]) y z C2
  simpa using h

theorem eraseIdx_append_length_succ {α : Type} (C1 : List α) (x y : α) (C2 : List α) :
    (C1 ++ x :: y :: C2).eraseIdx (C1.length + 1) = C1 ++ x :: C2 := by
  have h := eraseIdx_append_length (C1 ++ [x]) y C2
  simpa using h

/-! ### Sorted insertion -/

/-- Sorted insertion into a list: the abstract effect of the shift-and-place
loop of `ExternalNode::add_elem` (lines 145-154). -/
def insort (k : Int) : List Int → List Int
  | [] => [k]
  | x :: xs => if k < x then k :: x :: xs else x :: insort k xs

theorem insort_perm (k : Int) : ∀ l : List Int, (insort k l).Perm (k :: l) := by
  intro l
  induction l with
  | nil => simp [insort]
  | cons x xs ih =>
      rw [insort]
      split
      · exact List.Perm.refl _
      · exact List.Perm.trans (List.Perm.cons x ih) (List.Perm.swap k x xs)

theorem length_insort (k : Int) (l : List Int) : (insort k l).length = l.length + 1 := by
  simpa using (insort_perm k l).length_eq

theorem mem_insort {a k : Int} {l : List Int} : a ∈ insort k l ↔ a = k ∨ a ∈ l := by
  rw [(insort_perm k l).mem_iff]
  simp

theorem insort_sorted {k : Int} : ∀ {l : List Int}, List.Sorted (· < ·) l → k ∉ l →
    List.Sorted (· < ·) (insort k l) := by
  intro l
  induction l with
  | nil => intro _ _; simp [insort, List.Sorted]
  | cons x xs ih =>
      intro hs hk
      rw [insort]
      split
      · rename_i hlt
        refine List.Pairwise.cons ?_ hs
        intro b hb
        rcases List.mem_cons.mp hb with h | h
        · exact h ▸ hlt
        · exact lt_trans hlt (List.rel_of_sorted_cons hs b h)
      · rename_i hnlt
        have hxk : x < k := by
          rcases lt_trichotomy x k with h | h | h
          · exact h
          · exact absurd (h ▸ List.mem_cons_self x xs) hk
          · exact absurd h hnlt
        refine List.Pairwise.cons ?_ (ih (List.sorted_cons.mp hs).2 (fun h => hk (by simp [h])))
        intro b hb
        rcases mem_insort.mp hb with h | h
        · exact h ▸ hxk
        · exact (List.sorted_cons.mp hs).1 b h

theorem insort_append_left {k : Int} : ∀ (A B : List Int), (∀ a ∈ A, ¬ k < a) →
    insort k (A ++ B) = A ++ insort k B := by
  intro A B h
  induction A with
  | nil => simp
  | cons a A ih =>
      rw [List.cons_append, insort, if_neg (h a (by simp))]
      rw [ih (fun x hx => h x (by simp [hx]))]
      simp

theorem insort_of_forall_lt {k : Int} {B : List Int} (h : ∀ b ∈ B, k < b) :
    insort k B = k :: B := by
  cases B with
  | nil => simp [insort]
  | cons b B => rw [insort, if_pos (h b (by simp))]

theorem extInsertPos_insort (k : Int) : ∀ vs : List Int,
    vs.insertIdx (extInsertPos vs k) k = insort k vs := by
  intro vs
  induction vs with
  | nil => simp [extInsertPos, insort]
  | cons v rest ih =>
      rw [extInsertPos, insort]
      split
      · simp
      · rw [List.insertIdx_succ_cons, ih]

theorem intFindPos_le_length (vs : List Int) (k : Int) : intFindPos vs k ≤ vs.length := by
  induction vs with
  | nil => simp [intFindPos]
  | cons v rest ih =>
      rw [intFindPos]
      split
      · simp
      · simpa using ih

theorem intFindPos_take {k : Int} : ∀ (vs : List Int), ∀ s ∈ vs.take (intFindPos vs k), s ≤ k := by
  intro vs
  induction vs with
  | nil => simp
  | cons v rest ih =>
      rw [intFindPos]
      split
      · simp
      · rename_i h
        intro s hs
        rw [List.take_succ_cons] at hs
        rcases List.mem_cons.mp hs with h2 | h2
        · subst h2; omega
        · exact ih s h2

theorem intFindPos_drop {k : Int} : ∀ (vs : List Int) (s : Int) (vs2 : List Int),
    vs.drop (intFindPos vs k) = s :: vs2 → k < s := by
  intro vs
  induction vs with
  | nil => intro s vs2 h; simp at h
  | cons v rest ih =>
      intro s vs2 h
      rw [intFindPos] at h
      split at h
      · rename_i hlt
        rw [List.drop_zero] at h
        cases h
        exact hlt
      · rw [List.drop_succ_cons] at h
        exact ih s vs2 h

/-! ### Binary search correctness -/

theorem sorted_getD_lt {vs : List Int} (hs : List.Sorted (· < ·) vs) {i j : Nat}
    (hij : i < j) (hj : j < vs.length) : vs.getD i 0 < vs.getD j 0 := by
  rw [List.getD_eq_getElem vs 0 (lt_trans hij hj), List.getD_eq_getElem vs 0 hj]
  exact List.pairwise_iff_getElem.mp hs i j (lt_trans hij hj) hj hij

theorem findPosAux_spec : ∀ (n : Nat) (vs : List Int) (k : Int) (low high : Int),
    (high + 1 - low).toNat ≤ n →
    List.Sorted (· < ·) vs →
    0 ≤ low → high < (vs.length : Int) →
    (∀ j : Nat, j < vs.length → (j : Int) < low → vs.getD j 0 < k) →
    (∀ j : Nat, j < vs.length → high < (j : Int) → k < vs.getD j 0) →
    (findPosAux vs k low high = -1 → k ∉ vs) ∧
    (findPosAux vs k low high ≠ -1 →
      0 ≤ findPosAux vs k low high ∧ (findPosAux vs k low high).toNat < vs.length ∧
        vs.getD (findPosAux vs k low high).toNat 0 = k) := by
  intro n
  induction n with
  | zero =>
      intro vs k low high hn hs hl hh hlo hhi
      have hgt : ¬ low ≤ high := by omega
      rw [findPosAux, dif_neg hgt]
      constructor
      · intro _ hmem
        obtain ⟨j, hj, hje⟩ := List.mem_iff_getElem.mp hmem
        have hj2 : vs.getD j 0 = k := by rw [List.getD_eq_getElem vs 0 hj]; exact hje
        by_cases hc : (j : Int) < low
        · exact absurd hj2 (ne_of_lt (hlo j hj hc))
        · exact absurd hj2 (ne_of_gt (hhi j hj (by omega)))
      · intro h; exact absurd rfl h
  | succ n ih =>
      intro vs k low high hn hs hl hh hlo hhi
      by_cases hlh : low ≤ high
      · have heq : findPosAux vs k low high =
            (if vs.getD (low + (high - low) / 2).toNat 0 = k then low + (high - low) / 2
             else if vs.getD (low + (high - low) / 2).toNat 0 < k then
               findPosAux vs k (low + (high - low) / 2 + 1) high
             else findPosAux vs k low (low + (high - low) / 2 - 1)) := by
          rw [findPosAux, dif_pos hlh]
        have hm0 : (0 : Int) ≤ (high - low) / 2 := Int.ediv_nonneg (by omega) (by norm_num)
        have hm1 : (high - low) / 2 ≤ high - low := Int.ediv_le_self _ (by omega)
        set mid : Int := low + (high - low) / 2 with hmdef
        have hmlo : low ≤ mid := by omega
        have hmhi : mid ≤ high := by omega
        have hmlen : mid.toNat < vs.length := by omega
        by_cases h1 : vs.getD mid.toNat 0 = k
        · rw [heq, if_pos h1]
          refine ⟨fun h => absurd h (by omega), fun _ => ⟨by omega, hmlen, h1⟩⟩
        · rw [heq, if_neg h1]
          by_cases h2 : vs.getD mid.toNat 0 < k
          · rw [if_pos h2]
            refine ih vs k (mid + 1) high (by omega) hs (by omega) hh ?_ hhi
            intro j hj hjlt
            by_cases hje : j = mid.toNat
            · exact hje ▸ h2
            · exact lt_trans (sorted_getD_lt hs (show j < mid.toNat by omega) hmlen) h2
          · rw [if_neg h2]
            have h3 : k < vs.getD mid.toNat 0 := by omega
            refine ih vs k low (mid - 1) (by omega) hs hl (by omega) hlo ?_
            intro j hj hjgt
            by_cases hje : j = mid.toNat
            · exact hje ▸ h3
            · exact lt_trans h3 (sorted_getD_lt hs (show mid.toNat < j by omega) hj)
      · rw [findPosAux, dif_neg hlh]
        constructor
        · intro _ hmem
          obtain ⟨j, hj, hje⟩ := List.mem_iff_getElem.mp hmem
          have hj2 : vs.getD j 0 = k := by rw [List.getD_eq_getElem vs 0 hj]; exact hje
          by_cases hc : (j : Int) < low
          · exact absurd hj2 (ne_of_lt (hlo j hj hc))
          · exact absurd hj2 (ne_of_gt (hhi j hj (by omega)))
        · intro h; exact absurd rfl h

theorem extFindPos_spec (vs : List Int) (k : Int) (hs : List.Sorted (· < ·) vs) :
    (extFindPos vs k = -1 → k ∉ vs) ∧
    (extFindPos vs k ≠ -1 →
      0 ≤ extFindPos vs k ∧ (extFindPos vs k).toNat < vs.length ∧
        vs.getD (extFindPos vs k).toNat 0 = k) := by
  rw [extFindPos]
  by_cases h0 : vs.length = 0
  · rw [if_pos h0]
    refine ⟨fun _ hmem => ?_, fun h => absurd rfl h⟩
    rw [List.length_eq_zero] at h0
    simp [h0] at hmem
  · rw [if_neg h0]
    exact findPosAux_spec ((vs.length : Int) - 1 + 1 - 0).toNat vs k 0 ((vs.length : Int) - 1)
      (by omega) hs (by omega) (by omega) (fun j _ hj => by omega)
      (fun j hj hgt => by omega)

theorem extFindPos_neg1_iff {vs : List Int} {k : Int} (hs : List.Sorted (· < ·) vs) :
    extFindPos vs k = -1 ↔ k ∉ vs := by
  constructor
  · exact (extFindPos_spec vs k hs).1
  · intro hmem
    by_contra h
    obtain ⟨_, hlen, hval⟩ := (extFindPos_spec vs k hs).2 h
    exact hmem (by rw [← hval]; rw [List.getD_eq_getElem vs 0 hlen]; exact List.getElem_mem _)

/-! ### Leaf operation specs -/

theorem extAddElem_mem {N : Nat} {vs : List Int} {k : Int} (hs : List.Sorted (· < ·) vs)
    (hmem : k ∈ vs) : extAddElem N vs k = (vs, .EXISTS) := by
  rw [extAddElem, if_pos]
  intro h
  exact (extFindPos_neg1_iff hs).mp h hmem

theorem extAddElem_not_mem {N : Nat} {vs : List Int} {k : Int} (hs : List.Sorted (· < ·) vs)
    (hmem : k ∉ vs) :
    extAddElem N vs k =
      (insort k vs, if vs.length + 1 > 2 * N then .SPLIT else .SUCCESS) := by
  rw [extAddElem, if_neg (by simp [(extFindPos_neg1_iff hs).mpr hmem])]
  simp only [extInsertPos_insort, maxSize, length_insort]
  by_cases h : vs.length + 1 > 2 * N
  · rw [if_pos (by omega), if_pos h]
  · rw [if_neg (by omega), if_neg h]

theorem eraseIdx_sorted_eq_erase {k : Int} : ∀ (vs : List Int) (i : Nat),
    List.Sorted (· < ·) vs → i < vs.length → vs.getD i 0 = k →
    vs.eraseIdx i = vs.erase k := by
  intro vs
  induction vs with
  | nil => intro i _ h; simp at h
  | cons x xs ih =>
      intro i hs hi hval
      cases i with
      | zero =>
          simp only [List.getD_cons_zero] at hval
          subst hval
          simp [List.eraseIdx, List.erase_cons_head]
      | succ i =>
          simp only [List.getD_cons_succ] at hval
          have hk : k ∈ xs := by
            rw [← hval, List.getD_eq_getElem xs 0 (by simpa using hi)]
            exact List.getElem_mem _
          have hxk : x ≠ k := ne_of_lt (List.rel_of_sorted_cons hs k hk)
          rw [List.eraseIdx_cons_succ, List.erase_cons_tail]
          · rw [ih i (List.sorted_cons.mp hs).2 (by simpa using hi) hval]
          · simp [hxk]

theorem extRemoveElem_not_mem {N : Nat} {vs : List Int} {k : Int}
    (hs : List.Sorted (· < ·) vs) (hmem : k ∉ vs) :
    extRemoveElem N vs k = (vs, .NOT_EXISTENT) := by
  rw [extRemoveElem]
  simp only [if_pos ((extFindPos_neg1_iff hs).mpr hmem)]

theorem extRemoveElem_mem {N : Nat} {vs : List Int} {k : Int}
    (hs : List.Sorted (· < ·) vs) (hmem : k ∈ vs) :
    extRemoveElem N vs k =
      (vs.erase k, if vs.length - 1 < N then .MERGE else .SUCCESS) := by
  have hne : extFindPos vs k ≠ -1 := fun h => (extFindPos_neg1_iff hs).mp h hmem
  obtain ⟨hpos, hlen, hval⟩ := (extFindPos_spec vs k hs).2 hne
  rw [extRemoveElem]
  simp only [if_neg hne]
  rw [eraseIdx_sorted_eq_erase vs (extFindPos vs k).toNat hs hlen hval]
  rw [minSize, List.length_erase_of_mem hmem]
  by_cases h : vs.length - 1 < N
  · rw [if_pos h, if_pos h]
  · rw [if_neg h, if_neg h]

theorem sorted_nodup {vs : List Int} (hs : List.Sorted (· < ·) vs) : vs.Nodup :=
  hs.imp ne_of_lt

theorem sorted_erase {vs : List Int} (k : Int) (hs : List.Sorted (· < ·) vs) :
    List.Sorted (· < ·) (vs.erase k) :=
  List.Pairwise.sublist (List.erase_sublist k vs) hs

theorem mem_of_mem_erase {vs : List Int} {a k : Int} (h : a ∈ vs.erase k) : a ∈ vs :=
  (List.erase_sublist k vs).subset h

/-! ### Keys of an ordered subtree -/

theorem ordered_keys : ∀ (hgt : Nat) (t : Node) (lb ub : Option Int),
    Bal hgt t → Ordered lb ub t →
    List.Sorted (· < ·) t.keys ∧ ∀ x ∈ t.keys, OKey lb ub x := by
  intro hgt
  induction hgt with
  | zero =>
      intro t lb ub hb ho
      cases hb with
      | ext vs => rw [Ordered] at ho; simpa [Node.keys] using ho
  | succ h ih =>
      intro t lb ub hb ho
      cases hb with
      | intl h vs cs hlen hc =>
          rw [Ordered] at ho
          simp only [Node.keys]
          clear hlen
          induction vs generalizing lb cs with
          | nil =>
              match cs with
              | [] => exact absurd ho (by rw [OrdSeq]; simp)
              | [c] =>
                  rw [OrdSeq] at ho
                  have := ih c lb ub (hc c (by simp)) ho
                  simpa [keysList] using this
              | c :: d :: cs => exact absurd ho (by rw [OrdSeq]; simp)
          | cons s vs ihv =>
              match cs with
              | [] => exact absurd ho (by rw [OrdSeq]; simp)
              | c :: cs =>
                  rw [OrdSeq] at ho
                  obtain ⟨hsep, hoc, hrest⟩ := ho
                  have h1 := ih c lb (some s) (hc c (by simp)) hoc
                  have h2 := ihv (some s) cs (fun d hd => hc d (by simp [hd])) hrest
                  rw [keysList]
                  constructor
                  · refine List.pairwise_append.mpr ⟨h1.1, h2.1, fun x hx y hy => ?_⟩
                    have hxu : x < s := (h1.2 x hx).2 s (by simp)
                    have hyl : s ≤ y := (h2.2 y hy).1 s (by simp)
                    omega
                  · intro x hx
                    rcases List.mem_append.mp hx with hx | hx
                    · refine okey_w (h1.2 x hx) (lbW_refl _) ?_
                      cases ub with
                      | none => exact Or.inl rfl
                      | some b => exact Or.inr ⟨s, b, rfl, rfl, le_of_lt (hsep.2 b (by simp))⟩
                    · refine okey_w (h2.2 x hx) ?_ (ubW_refl _)
                      cases lb with
                      | none => exact Or.inl rfl
                      | some a => exact Or.inr ⟨a, s, rfl, rfl, le_of_lt (hsep.1 a (by simp))⟩

/-- A node in the transient oversize state right before a split: `2N+1`
values, all strict descendants within fill bounds. -/
def Over (N : Nat) : Node → Prop
  | .ext vs => vs.length = 2 * N + 1
  | .intl vs cs => vs.length = 2 * N + 1 ∧ ∀ c ∈ cs, FillB N c

theorem ordSeqL_le_mb : ∀ (V : List Int) (C : List Node) (lb ub mb : Option Int),
    OrdSeqL lb ub mb V C → ∀ s ∈ V, ∃ a, mb = some a ∧ s ≤ a := by
  intro V
  induction V with
  | nil => intro C lb ub mb h s hs; simp at hs
  | cons s0 V ih =>
      intro C lb ub mb h s hs
      match C with
      | [] => exact absurd h (by rw [OrdSeqL]; simp)
      | c :: C =>
          rw [OrdSeqL] at h
          rcases List.mem_cons.mp hs with he | hm
          · subst he
            match V, C with
            | [], [] =>
                rw [OrdSeqL] at h
                exact ⟨s, h.2.2.symm ▸ rfl, le_refl s⟩
            | s1 :: V, [] => exact absurd h.2.2 (by rw [OrdSeqL]; simp)
            | [], c1 :: C => exact absurd h.2.2 (by rw [OrdSeqL]; simp)
            | s1 :: V, c1 :: C =>
                obtain ⟨a, ha, hle⟩ := ih (c1 :: C) (some s) ub mb h.2.2 s1 (by simp)
                have hs1 : s < s1 := by
                  have := h.2.2
                  rw [OrdSeqL] at this
                  exact this.1.1 s (by simp)
                exact ⟨a, ha, by omega⟩
          · exact ih C (some s0) ub mb h.2.2 s hm

theorem ordSeqL_shrink_ub : ∀ (V : List Int) (C : List Node) (lb ub mb : Option Int) (m : Int),
    OrdSeqL lb ub mb V C → (∀ a ∈ mb, a < m) → OrdSeqL lb (some m) mb V C := by
  intro V
  induction V with
  | nil =>
      intro C lb ub mb m h hm
      match C with
      | [] => rw [OrdSeqL] at h ⊢; exact h
      | c :: C => exact absurd h (by rw [OrdSeqL]; simp)
  | cons s V ih =>
      intro C lb ub mb m h hm
      match C with
      | [] => exact absurd h (by rw [OrdSeqL]; simp)
      | c :: C =>
          rw [OrdSeqL] at h ⊢
          obtain ⟨a, ha, hle⟩ := ordSeqL_le_mb (s :: V) (c :: C) lb ub mb h s (by simp)
          have hsm : s < m := lt_of_le_of_lt hle (hm a ha)
          exact ⟨⟨h.1.1, fun b hb => by simp at hb; omega⟩, h.2.1,
            ih C (some s) ub mb m h.2.2 hm⟩

/-! ### The split lemma -/

/-- The bound that sits immediately to the right of the first child of a
sequence: the first separator, else the enclosing upper bound. -/
def hdBound (V2 : List Int) (ub : Option Int) : Option Int :=
  match V2 with
  | [] => ub
  | s :: _ => some s

theorem ordSeq_head_ordered {mb ub : Option Int} {V2 : List Int} {c : Node} {C2 : List Node}
    (h : OrdSeq mb ub V2 (c :: C2)) : Ordered mb (hdBound V2 ub) c := by
  cases V2 with
  | nil =>
      match C2 with
      | [] => rw [OrdSeq] at h; exact h
      | d :: C2 => exact absurd h (by rw [OrdSeq]; simp)
  | cons s V2 =>
      rw [OrdSeq] at h
      exact h.2.1

theorem ordSeqL_mb_bound : ∀ (V : List Int) (C : List Node) (lb ub mb : Option Int),
    OrdSeqL lb ub mb V C → V ≠ [] → ∀ a ∈ lb, ∀ b ∈ mb, a < b := by
  intro V
  induction V with
  | nil => intro C lb ub mb h hne; exact absurd rfl hne
  | cons s V ih =>
      intro C lb ub mb h hne a ha b hb
      match C with
      | [] => exact absurd h (by rw [OrdSeqL]; simp)
      | c :: C =>
          rw [OrdSeqL] at h
          have has : a < s := h.1.1 a ha
          cases V with
          | nil =>
              match C with
              | [] =>
                  rw [OrdSeqL] at h
                  have : mb = some s := h.2.2
                  rw [this] at hb
                  simp at hb
                  omega
              | c2 :: C => exact absurd h.2.2 (by rw [OrdSeqL]; simp)
          | cons s2 V =>
              have := ih C (some s) ub mb h.2.2 (by simp) s (by simp) b hb
              omega

/-- Reassembling an ordered sequence after replacing the child at a position
by two children and a new separator between them. -/
theorem ordSeq_split_assemble {lb ub mb : Option Int} {V1 V2 : List Int} {C1 C2 : List Node}
    {c l r : Node} {m : Int}
    (hL : OrdSeqL lb ub mb V1 C1) (hR : OrdSeq mb ub V2 (c :: C2))
    (hl : Ordered mb (some m) l) (hr : Ordered (some m) (hdBound V2 ub) r)
    (hmb : ∀ a ∈ mb, a < m) (hub : ∀ b ∈ hdBound V2 ub, m < b) :
    OrdSeq lb ub (V1 ++ m :: V2) (C1 ++ l :: r :: C2) := by
  refine ordSeqL_comp V1 C1 lb ub mb (m :: V2) (l :: r :: C2) hL ?_
  cases V2 with
  | nil =>
      match C2 with
      | [] =>
          rw [OrdSeq]
          refine ⟨⟨hmb, fun b hb => hub b (by simpa [hdBound] using hb)⟩, hl, ?_⟩
          rw [OrdSeq]
          exact hr
      | d :: C2 => exact absurd hR (by rw [OrdSeq]; simp)
  | cons s V2 =>
      rw [OrdSeq] at hR
      obtain ⟨hsep, hoc, hrest⟩ := hR
      rw [OrdSeq]
      refine ⟨⟨hmb, fun b hb => lt_trans (hub s (by simp [hdBound])) (hsep.2 b hb)⟩, hl, ?_⟩
      rw [OrdSeq]
      exact ⟨⟨fun a ha => by simp at ha; exact ha ▸ hub s (by simp [hdBound]), hsep.2⟩,
        hr, hrest⟩

theorem sorted_take {vs : List Int} (n : Nat) (hs : List.Sorted (· < ·) vs) :
    List.Sorted (· < ·) (vs.take n) :=
  List.Pairwise.sublist (List.take_sublist n vs) hs

theorem sorted_drop {vs : List Int} (n : Nat) (hs : List.Sorted (· < ·) vs) :
    List.Sorted (· < ·) (vs.drop n) :=
  List.Pairwise.sublist (List.drop_sublist n vs) hs

theorem ordSeq_nil_children (vs : List Int) (lb ub : Option Int) : ¬ OrdSeq lb ub vs [] := by
  intro h
  cases vs with
  | nil => rw [OrdSeq] at h; exact h
  | cons s vs => rw [OrdSeq] at h; exact h

/-- Full specification of `InternalNode::split` at a position holding an
oversize child: the shape of the result, preservation of ordering, balance,
fill of the two halves, and preservation of the stored keys. -/
theorem splitAt_spec {N : Nat} (hN : 1 ≤ N) {hgt : Nat} {lb ub mb : Option Int}
    {V1 V2 : List Int} {C1 C2 : List Node} {c : Node}
    (hL : OrdSeqL lb ub mb V1 C1) (hR : OrdSeq mb ub V2 (c :: C2))
    (hover : Over N c) (hbal : Bal hgt c) :
    ∃ l r m, splitAt (V1 ++ V2) (C1 ++ c :: C2) C1.length = (V1 ++ m :: V2, C1 ++ l :: r :: C2) ∧
      OrdSeq lb ub (V1 ++ m :: V2) (C1 ++ l :: r :: C2) ∧
      Bal hgt l ∧ Bal hgt r ∧ FillB N l ∧ FillB N r ∧
      l.keys ++ r.keys = c.keys := by
  have hlen1 : V1.length = C1.length := (ordSeqL_length V1 C1 lb ub mb hL).symm
  have hoc : Ordered mb (hdBound V2 ub) c := ordSeq_head_ordered hR
  have hget : (C1 ++ c :: C2).getD C1.length (.ext []) = c := getD_append_length C1 c C2 _
  cases c with
  | ext cvs =>
      rw [Ordered] at hoc
      obtain ⟨hcs, hcb⟩ := hoc
      have hcl : cvs.length = 2 * N + 1 := hover
      have hd2 : cvs.length / 2 = N := by omega
      have hNlt : N < cvs.length := by omega
      have htake_eq : (cvs.drop N).take (N + 1) = cvs.drop N :=
        List.take_of_length_le (by rw [List.length_drop]; omega)
      have hm : (cvs.drop N).getD 0 0 = cvs.getD N 0 := by
        rw [List.getD_eq_getElem _ 0 (by rw [List.length_drop]; omega),
          List.getD_eq_getElem _ 0 hNlt, List.getElem_drop]
        simp
      set m : Int := cvs.getD N 0 with hmdef
      have hmmem : m ∈ cvs := by
        rw [hmdef, List.getD_eq_getElem _ 0 hNlt]; exact List.getElem_mem _
      have hmbm : ∀ a ∈ mb, a < m := by
        intro a ha
        have h0 : cvs.getD 0 0 ∈ cvs := by
          rw [List.getD_eq_getElem _ 0 (by omega)]; exact List.getElem_mem _
        have h1 : a ≤ cvs.getD 0 0 := (hcb _ h0).1 a ha
        have h2 : cvs.getD 0 0 < m := hmdef ▸ sorted_getD_lt hcs (by omega) hNlt
        omega
      have hml : ∀ x ∈ cvs.take N, x < m := by
        intro x hx
        obtain ⟨j, hj, hje⟩ := List.mem_iff_getElem.mp hx
        have hjN : j < N := by rw [List.length_take] at hj; omega
        rw [List.getElem_take] at hje
        subst hje
        have h2 := sorted_getD_lt hcs hjN hNlt
        rw [List.getD_eq_getElem _ 0 (by omega)] at h2
        exact h2
      have hmr : ∀ x ∈ cvs.drop N, m ≤ x := by
        intro x hx
        obtain ⟨j, hj, hje⟩ := List.mem_iff_getElem.mp hx
        have hjlen : N + j < cvs.length := by rw [List.length_drop] at hj; omega
        rw [List.getElem_drop] at hje
        subst hje
        rcases Nat.eq_zero_or_pos j with hj0 | hj0
        · subst hj0
          rw [hmdef, List.getD_eq_getElem _ 0 hNlt]
          simp
        · have h2 := sorted_getD_lt hcs (show N < N + j by omega) hjlen
          rw [List.getD_eq_getElem _ 0 hNlt, List.getD_eq_getElem _ 0 hjlen] at h2
          rw [hmdef, List.getD_eq_getElem _ 0 hNlt]
          omega
      refine ⟨.ext (cvs.take N), .ext (cvs.drop N), m, ?_, ?_, ?_, ?_, ?_, ?_, ?_⟩
      · rw [splitAt, hget]
        simp only [htake_eq, hm, hd2, ← hmdef]
        rw [← hlen1, insertIdx_append_length V1 V2 m, hlen1]
        rw [set_append_length C1 _ _ C2]
        rw [show C1 ++ Node.ext (cvs.take N) :: C2 = (C1 ++ [Node.ext (cvs.take N)]) ++ C2 by simp,
          show C1.length + 1 = (C1 ++ [Node.ext (cvs.take N)]).length by simp,
          insertIdx_append_length]
        simp
      · refine ordSeq_split_assemble hL hR ?_ ?_ hmbm ?_
        · rw [Ordered]
          exact ⟨sorted_take N hcs, fun x hx =>
            ⟨fun a ha => (hcb x (List.take_subset N cvs hx)).1 a ha,
             fun b hb => by simp at hb; exact hb ▸ hml x hx⟩⟩
        · rw [Ordered]
          exact ⟨sorted_drop N hcs, fun x hx =>
            ⟨fun a ha => by simp at ha; exact ha ▸ hmr x hx,
             fun b hb => (hcb x (List.drop_subset N cvs hx)).2 b hb⟩⟩
        · exact fun b hb => (hcb m hmmem).2 b hb
      · cases hbal; exact Bal.ext _
      · cases hbal; exact Bal.ext _
      · exact FillB.ext _ (by rw [List.length_take]; omega) (by rw [List.length_take]; omega)
      · exact FillB.ext _ (by rw [List.length_drop]; omega) (by rw [List.length_drop]; omega)
      · simp [Node.keys]
  | intl cvs ccs =>
      rw [Ordered] at hoc
      obtain ⟨hcl, hcfill⟩ := hover
      have hccl : ccs.length = cvs.length + 1 := ordSeq_length cvs ccs _ _ hoc
      have hd2 : cvs.length / 2 = N := by omega
      have hNlt : N < cvs.length := by omega
      obtain ⟨mb2, hLc, hRc⟩ := ordSeq_decomp N cvs ccs mb (hdBound V2 ub) hoc (by omega)
      have hdropv : cvs.drop N = cvs[N] :: cvs.drop (N + 1) := List.drop_eq_getElem_cons hNlt
      have hNcc : N < ccs.length := by omega
      have hdropc : ccs.drop N = ccs[N] :: ccs.drop (N + 1) :=
        List.drop_eq_getElem_cons hNcc
      rw [hdropv, hdropc, OrdSeq] at hRc
      obtain ⟨hsepm, hcN, hrseq⟩ := hRc
      have hmg : cvs.getD N 0 = cvs[N] := List.getD_eq_getElem cvs 0 hNlt
      set m : Int := cvs[N] with hmdef
      have hrv_eq : (cvs.drop (N + 1)).take N = cvs.drop (N + 1) :=
        List.take_of_length_le (by rw [List.length_drop]; omega)
      have hrc_eq : (ccs.drop (N + 1)).take (N + 1) = ccs.drop (N + 1) :=
        List.take_of_length_le (by rw [List.length_drop]; omega)
      have htakeN1 : ccs.take (N + 1) = ccs.take N ++ [ccs[N]] := by
        rw [List.take_succ]
        congr 1
        rw [List.getElem?_eq_getElem (by omega)]
        simp
      have hmbm : ∀ a ∈ mb, a < m := by
        intro a ha
        have hne : cvs.take N ≠ [] := by
          intro h
          have := congrArg List.length h
          rw [List.length_take] at this
          simp only [List.length_nil] at this
          omega
        obtain ⟨b0, hb0⟩ : ∃ b0, mb2 = some b0 := by
          obtain ⟨s0, hs0⟩ : ∃ s0, s0 ∈ cvs.take N := by
            match h : cvs.take N with
            | [] => exact absurd h hne
            | s :: _ => exact ⟨s, by simp⟩
          obtain ⟨a2, ha2, _⟩ := ordSeqL_le_mb _ _ _ _ _ hLc s0 hs0
          exact ⟨a2, ha2⟩
        have h1 := ordSeqL_mb_bound _ _ _ _ _ hLc hne a ha b0 (by simp [hb0])
        have h2 := hsepm.1 b0 (by simp [hb0])
        omega
      refine ⟨.intl (cvs.take N) (ccs.take (N + 1)),
        .intl (cvs.drop (N + 1)) (ccs.drop (N + 1)), m, ?_, ?_, ?_, ?_, ?_, ?_, ?_⟩
      · rw [splitAt, hget]
        simp only [hd2, hmg, hrv_eq, hrc_eq, ← hmdef]
        rw [← hlen1, insertIdx_append_length V1 V2 m, hlen1]
        rw [set_append_length C1 _ _ C2]
        rw [show C1 ++ Node.intl (cvs.take N) (ccs.take (N + 1)) :: C2 =
          (C1 ++ [Node.intl (cvs.take N) (ccs.take (N + 1))]) ++ C2 by simp,
          show C1.length + 1 = (C1 ++ [Node.intl (cvs.take N) (ccs.take (N + 1))]).length by simp,
          insertIdx_append_length]
        simp
      · refine ordSeq_split_assemble hL hR ?_ ?_ hmbm hsepm.2
        · rw [Ordered, htakeN1]
          have hcomp := ordSeqL_comp (cvs.take N) (ccs.take N) mb (some m) mb2 []
            [ccs[N]] (ordSeqL_shrink_ub _ _ _ _ _ m hLc hsepm.1)
            (by rw [OrdSeq]; exact hcN)
          simpa using hcomp
        · rw [Ordered]
          exact hrseq
      · cases hbal with
        | intl h vs cs hlen hc =>
            refine Bal.intl h _ _ (by rw [List.length_take, List.length_take]; omega) ?_
            exact fun d hd => hc d (List.take_subset _ _ hd)
      · cases hbal with
        | intl h vs cs hlen hc =>
            refine Bal.intl h _ _ (by rw [List.length_drop, List.length_drop]; omega) ?_
            exact fun d hd => hc d (List.drop_subset _ _ hd)
      · exact FillB.intl _ _ (by rw [List.length_take]; omega) (by rw [List.length_take]; omega)
          (fun d hd => hcfill d (List.take_subset _ _ hd))
      · exact FillB.intl _ _ (by rw [List.length_drop]; omega) (by rw [List.length_drop]; omega)
          (fun d hd => hcfill d (List.drop_subset _ _ hd))
      · simp only [Node.keys]
        rw [← keysList_append, ← List.take_append_drop (N + 1) ccs]
        rw [List.take_append_drop]

/-! ### Toward the insert master lemma -/

/-- The children of a node (all of them, for an internal node) satisfy the
non-root fill invariant; trivial for leaves. -/
def ChildrenFill (N : Nat) : Node → Prop
  | .ext _ => True
  | .intl _ cs => ∀ c ∈ cs, FillB N c

theorem fillB_size {N : Nat} {c : Node} (h : FillB N c) :
    N ≤ c.size ∧ c.size ≤ 2 * N := by
  cases h with
  | ext vs h1 h2 => exact ⟨h1, h2⟩
  | intl vs cs h1 h2 _ => exact ⟨h1, h2⟩

theorem fillB_childrenFill {N : Nat} {c : Node} (h : FillB N c) : ChildrenFill N c := by
  cases h with
  | ext vs h1 h2 => rw [ChildrenFill]; trivial
  | intl vs cs h1 h2 h3 => rw [ChildrenFill]; exact h3

theorem fillB_of_parts {N : Nat} {c : Node} (h1 : N ≤ c.size) (h2 : c.size ≤ 2 * N)
    (h3 : ChildrenFill N c) : FillB N c := by
  cases c with
  | ext vs => exact FillB.ext vs h1 h2
  | intl vs cs => exact FillB.intl vs cs h1 h2 (by rw [ChildrenFill] at h3; exact h3)

theorem insort_append_right {k : Int} : ∀ (A B : List Int), (∀ b ∈ B, k < b) →
    insort k (A ++ B) = insort k A ++ B := by
  intro A B h
  induction A with
  | nil => simp [insort, insort_of_forall_lt h]
  | cons a A ih =>
      rw [List.cons_append, insort, insort]
      split
      · simp
      · rw [ih]; simp

/-- Replacing the first child of a tail sequence by one ordered in the same
window. -/
theorem ordSeq_set_head {lb ub : Option Int} {V : List Int} {c c2 : Node} {C : List Node}
    (h : OrdSeq lb ub V (c :: C)) (hc : Ordered lb (hdBound V ub) c2) :
    OrdSeq lb ub V (c2 :: C) := by
  cases V with
  | nil =>
      match C with
      | [] => rw [OrdSeq] at h ⊢; exact hc
      | d :: C => exact absurd h (by rw [OrdSeq]; simp)
  | cons s V =>
      rw [OrdSeq] at h ⊢
      exact ⟨h.1, hc, h.2.2⟩

theorem ordSeqL_mb_cases : ∀ (V : List Int) (C : List Node) (lb ub mb : Option Int),
    OrdSeqL lb ub mb V C → mb = lb ∨ ∃ a, mb = some a ∧ a ∈ V := by
  intro V
  induction V with
  | nil =>
      intro C lb ub mb h
      match C with
      | [] => rw [OrdSeqL] at h; exact Or.inl h
      | c :: C => exact absurd h (by rw [OrdSeqL]; simp)
  | cons s V ih =>
      intro C lb ub mb h
      match C with
      | [] => exact absurd h (by rw [OrdSeqL]; simp)
      | c :: C =>
          rw [OrdSeqL] at h
          rcases ih C (some s) ub mb h.2.2 with h2 | ⟨a, ha, hm⟩
          · exact Or.inr ⟨s, h2, by simp⟩
          · exact Or.inr ⟨a, ha, by simp [hm]⟩

/-- Keys stored under a consumed prefix all lie strictly below the running
bound. -/
theorem ordSeqL_keys_ub (hgt : Nat) : ∀ (V : List Int) (C : List Node) (lb ub mb : Option Int),
    OrdSeqL lb ub mb V C → (∀ c ∈ C, Bal hgt c) →
    ∀ x ∈ keysList C, ∀ b ∈ mb, x < b := by
  intro V
  induction V with
  | nil =>
      intro C lb ub mb h hb x hx
      match C with
      | [] => rw [keysList] at hx; simp at hx
      | c :: C => exact absurd h (by rw [OrdSeqL]; simp)
  | cons s V ih =>
      intro C lb ub mb h hb x hx b hbm
      match C with
      | [] => exact absurd h (by rw [OrdSeqL]; simp)
      | c :: C =>
          rw [OrdSeqL] at h
          rw [keysList] at hx
          rcases List.mem_append.mp hx with hx | hx
          · have hck := (ordered_keys hgt c lb (some s) (hb c (by simp)) h.2.1).2 x hx
            have hxs : x < s := hck.2 s (by simp)
            obtain ⟨a2, ha2, hle⟩ := ordSeqL_le_mb (s :: V) (c :: C) lb ub mb
              (by rw [OrdSeqL]; exact h) s (by simp)
            rw [ha2] at hbm
            simp at hbm
            omega
          · exact ih C (some s) ub mb h.2.2 (fun d hd => hb d (by simp [hd])) x hx b hbm

/-- Keys stored under a tail sequence beyond its first child lie at or above
the first separator. -/
theorem ordSeq_tail_keys_lb (hgt : Nat) {lb ub : Option Int} {s : Int} {V : List Int}
    {c : Node} {C : List Node}
    (h : OrdSeq lb ub (s :: V) (c :: C)) (hb : ∀ d ∈ C, Bal hgt d) :
    ∀ y ∈ keysList C, s ≤ y := by
  rw [OrdSeq] at h
  intro y hy
  have h2 : Ordered (some s) ub (.intl V C) := by rw [Ordered]; exact h.2.2
  have hbal : Bal (hgt + 1) (.intl V C) :=
    Bal.intl hgt V C (ordSeq_length V C (some s) ub h.2.2) hb
  have := (ordered_keys (hgt + 1) (.intl V C) (some s) ub hbal h2).2 y (by
    simpa [Node.keys] using hy)
  exact this.1 s (by simp)

/-- `addChild` at an in-range position is `addElem` on that child. -/
theorem addChild_eq (N : Nat) (k : Int) : ∀ (C1 : List Node) (c : Node) (C2 : List Node),
    addChild N (C1 ++ c :: C2) C1.length k =
      (C1 ++ (addElem N c k).1 :: C2, (addElem N c k).2) := by
  intro C1
  induction C1 with
  | nil => intro c C2; simp [addChild]
  | cons a C1 ih => intro c C2; simp [addChild, ih]

/-- Master specification of `Node::add_elem`: behaviour of `addElem` on a
balanced, ordered subtree whose children satisfy the fill invariant.
EXISTS reports a duplicate and leaves the tree untouched; SUCCESS inserts the
key; SPLIT inserts the key and leaves the node itself oversize. -/
theorem addElem_spec (N : Nat) (hN : 1 ≤ N) :
    ∀ (hgt : Nat) (t : Node) (k : Int) (lb ub : Option Int),
    Bal hgt t → Ordered lb ub t → OKey lb ub k →
    t.size ≤ 2 * N → ChildrenFill N t →
    ∀ r msg, addElem N t k = (r, msg) →
      (msg = .EXISTS → r = t ∧ k ∈ t.keys) ∧
      (msg = .SUCCESS → k ∉ t.keys ∧ r.keys = insort k t.keys ∧
        Bal hgt r ∧ Ordered lb ub r ∧
        r.size ≤ 2 * N ∧ t.size ≤ r.size ∧ ChildrenFill N r) ∧
      (msg = .SPLIT → k ∉ t.keys ∧ r.keys = insort k t.keys ∧
        Bal hgt r ∧ Ordered lb ub r ∧ Over N r) := by
  intro hgt
  induction hgt with
  | zero =>
      intro t k lb ub hb ho hk hsz hcf r msg heval
      cases hb with
      | ext vs =>
      rw [Ordered] at ho
      rw [Node.size] at hsz
      by_cases hmem : k ∈ vs
      · rw [addElem] at heval
        rw [extAddElem_mem (N := N) ho.1 hmem] at heval
        simp only at heval
        injection heval with hr hm
        subst hm
        refine ⟨fun _ => ⟨hr.symm, by simpa [Node.keys] using hmem⟩,
          fun hx => absurd hx (by decide), fun hx => absurd hx (by decide)⟩
      · have hosort : Ordered lb ub (.ext (insort k vs)) := by
          rw [Ordered]
          refine ⟨insort_sorted ho.1 hmem, fun x hx => ?_⟩
          rcases mem_insort.mp hx with he2 | hm2
          · exact he2 ▸ hk
          · exact ho.2 x hm2
        rw [addElem] at heval
        rw [extAddElem_not_mem (N := N) ho.1 hmem] at heval
        by_cases hsplit : vs.length + 1 > 2 * N
        · rw [if_pos hsplit] at heval
          simp only at heval
          injection heval with hr hm
          subst hm
          replace hr : r = .ext (insort k vs) := hr.symm
          refine ⟨fun hx => absurd hx (by decide), fun hx => absurd hx (by decide), fun _ => ?_⟩
          subst hr
          refine ⟨by simpa [Node.keys] using hmem, by simp [Node.keys], Bal.ext _, hosort, ?_⟩
          rw [Over, length_insort]
          omega
        · rw [if_neg hsplit] at heval
          simp only at heval
          injection heval with hr hm
          subst hm
          replace hr : r = .ext (insort k vs) := hr.symm
          refine ⟨fun hx => absurd hx (by decide), fun _ => ?_, fun hx => absurd hx (by decide)⟩
          subst hr
          refine ⟨by simpa [Node.keys] using hmem, by simp [Node.keys], Bal.ext _, hosort, ?_, ?_, ?_⟩
          · rw [Node.size, length_insort]; omega
          · rw [Node.size, Node.size, length_insort]; omega
          · rw [ChildrenFill]; trivial
  | succ h ih =>
      intro t k lb ub hb ho hk hsz hcf r msg heval
      cases hb with
      | intl h vs cs hlen hc =>
      rw [Ordered] at ho
      rw [ChildrenFill] at hcf
      rw [Node.size] at hsz
      have hpos : intFindPos vs k ≤ vs.length := intFindPos_le_length vs k
      have hposc : intFindPos vs k < cs.length := by omega
      obtain ⟨mb, hL, hR⟩ := ordSeq_decomp (intFindPos vs k) vs cs lb ub ho hpos
      have hdropc : cs.drop (intFindPos vs k) =
          cs[intFindPos vs k] :: cs.drop (intFindPos vs k + 1) :=
        List.drop_eq_getElem_cons hposc
      rw [hdropc] at hR
      have hvs_eq : vs = vs.take (intFindPos vs k) ++ vs.drop (intFindPos vs k) :=
        (List.take_append_drop _ vs).symm
      have hcs_eq : cs = cs.take (intFindPos vs k) ++
          cs[intFindPos vs k] :: cs.drop (intFindPos vs k + 1) := by
        conv_lhs => rw [← List.take_append_drop (intFindPos vs k) cs]
        rw [hdropc]
      have hC1len : (cs.take (intFindPos vs k)).length = intFindPos vs k := by
        rw [List.length_take]; omega
      have hV1len : (vs.take (intFindPos vs k)).length = intFindPos vs k := by
        rw [List.length_take]; omega
      have hcmem : cs[intFindPos vs k] ∈ cs := List.getElem_mem _
      have hfc : FillB N cs[intFindPos vs k] := hcf _ hcmem
      have hoc : Ordered mb (hdBound (vs.drop (intFindPos vs k)) ub) cs[intFindPos vs k] :=
        ordSeq_head_ordered hR
      have hkc : OKey mb (hdBound (vs.drop (intFindPos vs k)) ub) k := by
        constructor
        · intro a ha
          rcases ordSeqL_mb_cases _ _ _ _ _ hL with hmb | ⟨a2, ha2, hamem⟩
          · rw [hmb] at ha; exact hk.1 a ha
          · rw [ha2] at ha
            simp at ha
            subst ha
            exact intFindPos_take vs a2 hamem
        · intro b hb
          cases hV2 : vs.drop (intFindPos vs k) with
          | nil => rw [hV2] at hb; rw [hdBound] at hb; exact hk.2 b hb
          | cons s V2x =>
              rw [hV2] at hb
              rw [hdBound] at hb
              simp at hb
              exact hb ▸ intFindPos_drop vs s V2x hV2
      have hpre : ∀ x ∈ keysList (cs.take (intFindPos vs k)), x < k := by
        intro x hx
        have hC1ne : cs.take (intFindPos vs k) ≠ [] := by
          intro h0; rw [h0, keysList] at hx; simp at hx
        have hV1ne : vs.take (intFindPos vs k) ≠ [] := by
          intro h0
          have h1 := ordSeqL_length _ _ _ _ _ hL
          rw [h0] at h1
          simp only [List.length_nil] at h1
          exact hC1ne (List.eq_nil_of_length_eq_zero h1)
        obtain ⟨s0, hs0⟩ : ∃ s0, s0 ∈ vs.take (intFindPos vs k) := by
          match h0 : vs.take (intFindPos vs k) with
          | [] => exact absurd h0 hV1ne
          | s :: _ => exact ⟨s, by simp⟩
        obtain ⟨a, ha, hsa⟩ := ordSeqL_le_mb _ _ _ _ _ hL s0 hs0
        have hak : a ≤ k := by
          rcases ordSeqL_mb_cases _ _ _ _ _ hL with hmb | ⟨a2, ha2, hamem⟩
          · rw [hmb] at ha; exact hk.1 a (by simp [ha])
          · rw [ha2] at ha
            have he2 : a2 = a := by simpa using ha
            exact he2 ▸ intFindPos_take vs a2 hamem
        have hxa := ordSeqL_keys_ub h _ _ _ _ _ hL
          (fun d hd => hc d (List.take_subset _ _ hd)) x hx a (by simp [ha])
        omega
      have hsuf : ∀ y ∈ keysList (cs.drop (intFindPos vs k + 1)), k < y := by
        cases hV2 : vs.drop (intFindPos vs k) with
        | nil =>
            intro y hy
            have h1 : vs.length ≤ intFindPos vs k := by
              have := congrArg List.length hV2
              rw [List.length_drop] at this
              simp at this
              omega
            have h2 : cs.drop (intFindPos vs k + 1) = [] :=
              List.eq_nil_of_length_eq_zero (by rw [List.length_drop]; omega)
            rw [h2, keysList] at hy
            simp at hy
        | cons s V2x =>
            intro y hy
            have hks : k < s := intFindPos_drop vs s V2x hV2
            rw [hV2] at hR
            have := ordSeq_tail_keys_lb h hR
              (fun d hd => hc d (List.drop_subset _ _ hd)) y hy
            omega
      have hkeys_t : keysList cs = keysList (cs.take (intFindPos vs k)) ++
          ((cs[intFindPos vs k]).keys ++ keysList (cs.drop (intFindPos vs k + 1))) := by
        conv_lhs => rw [hcs_eq]
        rw [keysList_append, keysList]
      rcases haddE : addElem N cs[intFindPos vs k] k with ⟨c2, msg2⟩
      have hchild := ih cs[intFindPos vs k] k mb (hdBound (vs.drop (intFindPos vs k)) ub)
        (hc _ hcmem) hoc hkc (fillB_size hfc).2 (fillB_childrenFill hfc) c2 msg2 haddE
      have haddc : addChild N cs (intFindPos vs k) k =
          (cs.take (intFindPos vs k) ++ c2 :: cs.drop (intFindPos vs k + 1), msg2) := by
        have h0 := addChild_eq N k (cs.take (intFindPos vs k)) cs[intFindPos vs k]
          (cs.drop (intFindPos vs k + 1))
        rw [haddE] at h0
        simp only at h0
        rw [hC1len] at h0
        rw [← hcs_eq] at h0
        exact h0
      rw [addElem] at heval
      simp only [haddc] at heval
      cases msg2 with
      | EXISTS =>
          obtain ⟨hceq, hkmem⟩ := hchild.1 rfl
          subst hceq
          simp only at heval
          injection heval with hr hm
          subst hm
          replace hr : r = .intl vs (cs.take (intFindPos vs k) ++
            cs[intFindPos vs k] :: cs.drop (intFindPos vs k + 1)) := hr.symm
          refine ⟨fun _ => ⟨by rw [hr, ← hcs_eq], ?_⟩, fun hx => absurd hx (by decide), fun hx => absurd hx (by decide)⟩
          simp only [Node.keys]
          rw [hkeys_t]
          simp [hkmem]
      | SUCCESS =>
          obtain ⟨hknotin, hckeys, hcbal, hcord, hcsz, hcszge, hccf⟩ := hchild.2.1 rfl
          simp only at heval
          injection heval with hr hm
          subst hm
          replace hr : r = .intl vs (cs.take (intFindPos vs k) ++
            c2 :: cs.drop (intFindPos vs k + 1)) := hr.symm
          refine ⟨fun hx => absurd hx (by decide), fun _ => ?_, fun hx => absurd hx (by decide)⟩
          have hknott : k ∉ Node.keys (.intl vs cs) := by
            simp only [Node.keys]
            rw [hkeys_t]
            intro hmem
            rcases List.mem_append.mp hmem with hmem | hmem
            · exact absurd rfl (ne_of_lt (hpre k hmem))
            rcases List.mem_append.mp hmem with hmem | hmem
            · exact hknotin hmem
            · exact absurd rfl (ne_of_gt (hsuf k hmem))
          have hkeys_r : r.keys = insort k (Node.keys (.intl vs cs)) := by
            rw [hr]
            simp only [Node.keys]
            rw [keysList_append, keysList, hkeys_t]

            rw [insort_append_left _ _ (fun a ha => by have := hpre a ha; omega)]
            rw [insort_append_right _ _ hsuf, hckeys]
          have hfc2 : FillB N c2 := by
            refine fillB_of_parts ?_ hcsz hccf
            have := (fillB_size hfc).1
            omega
          refine ⟨hknott, hkeys_r, ?_, ?_, ?_, ?_, ?_⟩
          · rw [hr]
            refine Bal.intl h _ _ ?_ ?_
            · have := congrArg List.length hcs_eq
              simp at this ⊢
              omega
            · intro d hd
              rcases List.mem_append.mp hd with hd | hd
              · exact hc d (List.take_subset _ _ hd)
              rcases List.mem_cons.mp hd with hd | hd
              · exact hd ▸ hcbal
              · exact hc d (List.drop_subset _ _ hd)
          · rw [hr, Ordered]
            conv_lhs => rw [hvs_eq]
            rw [← hC1len] at hV1len
            exact ordSeqL_comp _ _ _ _ mb _ _ hL (ordSeq_set_head hR hcord)
          · rw [hr, Node.size]; omega
          · rw [hr, Node.size, Node.size]
          · rw [hr, ChildrenFill]
            intro d hd
            rcases List.mem_append.mp hd with hd | hd
            · exact hcf d (List.take_subset _ _ hd)
            rcases List.mem_cons.mp hd with hd | hd
            · exact hd ▸ hfc2
            · exact hcf d (List.drop_subset _ _ hd)
      | SPLIT =>
          obtain ⟨hknotin, hckeys, hcbal, hcord, hcover⟩ := hchild.2.2 rfl
          have hR2 : OrdSeq mb ub (vs.drop (intFindPos vs k))
              (c2 :: cs.drop (intFindPos vs k + 1)) := ordSeq_set_head hR hcord
          obtain ⟨l, r2, m, heq, hord2, hball, hbalr, hfilll, hfillr, hkeyslr⟩ :=
            splitAt_spec hN hL hR2 hcover hcbal
          rw [hC1len] at heq
          simp only at heval
          rw [← hvs_eq] at heq
          rw [heq] at heval
          have hlennew : (vs.take (intFindPos vs k) ++ m :: vs.drop (intFindPos vs k)).length =
              vs.length + 1 := by
            simp
            omega
          have hknott : k ∉ Node.keys (.intl vs cs) := by
            simp only [Node.keys]
            rw [hkeys_t]
            intro hmem
            rcases List.mem_append.mp hmem with hmem | hmem
            · exact absurd rfl (ne_of_lt (hpre k hmem))
            rcases List.mem_append.mp hmem with hmem | hmem
            · exact hknotin hmem
            · exact absurd rfl (ne_of_gt (hsuf k hmem))
          have hkeys_r : keysList (cs.take (intFindPos vs k) ++ l :: r2 ::
              cs.drop (intFindPos vs k + 1)) = insort k (Node.keys (.intl vs cs)) := by
            simp only [Node.keys]
            rw [keysList_append, keysList, keysList, hkeys_t]
            rw [insort_append_left _ _ (fun a ha => by have := hpre a ha; omega)]
            rw [insort_append_right _ _ hsuf, ← hckeys, ← hkeyslr]
            simp
          have hbal_r : Bal (h + 1) (.intl
              (vs.take (intFindPos vs k) ++ m :: vs.drop (intFindPos vs k))
              (cs.take (intFindPos vs k) ++ l :: r2 :: cs.drop (intFindPos vs k + 1))) := by
            refine Bal.intl h _ _ ?_ ?_
            · have := congrArg List.length hcs_eq
              simp at this ⊢
              omega
            · intro d hd
              rcases List.mem_append.mp hd with hd | hd
              · exact hc d (List.take_subset _ _ hd)
              rcases List.mem_cons.mp hd with hd | hd
              · exact hd ▸ hball
              rcases List.mem_cons.mp hd with hd | hd
              · exact hd ▸ hbalr
              · exact hc d (List.drop_subset _ _ hd)
          have hord_r : Ordered lb ub (.intl
              (vs.take (intFindPos vs k) ++ m :: vs.drop (intFindPos vs k))
              (cs.take (intFindPos vs k) ++ l :: r2 :: cs.drop (intFindPos vs k + 1))) := by
            rw [Ordered]
            exact hord2
          by_cases hsp : vs.length + 1 ≤ 2 * N
          · rw [if_pos (by rw [hlennew, maxSize]; omega)] at heval
            simp only at heval
            injection heval with hr hm
            subst hm
            replace hr := hr.symm
            refine ⟨fun hx => absurd hx (by decide), fun _ => ?_, fun hx => absurd hx (by decide)⟩
            subst hr
            refine ⟨hknott, by simpa [Node.keys] using hkeys_r, hbal_r, hord_r, ?_, ?_, ?_⟩
            · rw [Node.size, hlennew]; omega
            · rw [Node.size, Node.size, hlennew]; omega
            · rw [ChildrenFill]
              intro d hd
              rcases List.mem_append.mp hd with hd | hd
              · exact hcf d (List.take_subset _ _ hd)
              rcases List.mem_cons.mp hd with hd | hd
              · exact hd ▸ hfilll
              rcases List.mem_cons.mp hd with hd | hd
              · exact hd ▸ hfillr
              · exact hcf d (List.drop_subset _ _ hd)
          · rw [if_neg (by rw [hlennew, maxSize]; omega)] at heval
            simp only at heval
            injection heval with hr hm
            subst hm
            replace hr := hr.symm
            refine ⟨fun hx => absurd hx (by decide), fun hx => absurd hx (by decide), fun _ => ?_⟩
            subst hr
            refine ⟨hknott, by simpa [Node.keys] using hkeys_r, hbal_r, hord_r, ?_⟩
            rw [Over]
            constructor
            · rw [hlennew]; omega
            · intro d hd
              rcases List.mem_append.mp hd with hd | hd
              · exact hcf d (List.take_subset _ _ hd)
              rcases List.mem_cons.mp hd with hd | hd
              · exact hd ▸ hfilll
              rcases List.mem_cons.mp hd with hd | hd
              · exact hd ▸ hfillr
              · exact hcf d (List.drop_subset _ _ hd)

/-! ### Container-level well-formedness -/

/-- Fill constraints at the root (the root alone may hold fewer than `N`
values; an internal root holds at least one separator). -/
def RootFill (N : Nat) : Node → Prop
  | .ext vs => vs.length ≤ 2 * N
  | .intl vs cs => 1 ≤ vs.length ∧ vs.length ≤ 2 * N ∧ ∀ c ∈ cs, FillB N c

/-- Well-formed container state: balanced, ordered, root-fill, and the
element counter agrees with the number of stored keys. -/
def WF (N : Nat) (s : BSet) : Prop :=
  ∃ hgt, Bal hgt s.root ∧ Ordered none none s.root ∧ RootFill N s.root ∧
    s.sz = s.root.keys.length

theorem rootFill_size {N : Nat} {t : Node} (h : RootFill N t) : t.size ≤ 2 * N := by
  cases t with
  | ext vs => rw [RootFill] at h; rw [Node.size]; exact h
  | intl vs cs => rw [RootFill] at h; rw [Node.size]; exact h.2.1

theorem rootFill_childrenFill {N : Nat} {t : Node} (h : RootFill N t) : ChildrenFill N t := by
  cases t with
  | ext vs => rw [ChildrenFill]; trivial
  | intl vs cs => rw [RootFill] at h; rw [ChildrenFill]; exact h.2.2

theorem okey_none (k : Int) : OKey none none k := ⟨by simp, by simp⟩

theorem addElem_ext_shape (N : Nat) (vs : List Int) (k : Int) :
    ∃ vs2, (addElem N (.ext vs) k).1 = .ext vs2 := by
  rw [addElem]
  exact ⟨_, rfl⟩

theorem wf_empty (N : Nat) : WF N BSet.empty := by
  refine ⟨0, Bal.ext [], ?_, ?_, ?_⟩
  · rw [BSet.empty]
    rw [Ordered]
    simp
  · rw [BSet.empty]
    rw [RootFill]
    simp
  · rw [BSet.empty]
    simp [Node.keys]

theorem insertKey_eval_exists {N : Nat} {s : BSet} {k : Int} {t : Node}
    (h : addElem N s.root k = (t, .EXISTS)) : insertKey N s k = (⟨s.sz, t⟩, false) := by
  rw [insertKey]
  split
  all_goals rename_i heq2
  all_goals rw [h] at heq2
  all_goals injection heq2 with h1 h2
  · subst h1; rfl
  · injection h2
  · injection h2

theorem insertKey_eval_success {N : Nat} {s : BSet} {k : Int} {t : Node}
    (h : addElem N s.root k = (t, .SUCCESS)) : insertKey N s k = (⟨s.sz + 1, t⟩, true) := by
  rw [insertKey]
  split
  all_goals rename_i heq2
  all_goals rw [h] at heq2
  all_goals injection heq2 with h1 h2
  · injection h2
  · subst h1; rfl
  · injection h2

theorem insertKey_eval_split {N : Nat} {s : BSet} {k : Int} {t : Node}
    (h : addElem N s.root k = (t, .SPLIT)) :
    insertKey N s k = (⟨s.sz + 1, .intl (splitAt [] [t] 0).1 (splitAt [] [t] 0).2⟩, true) := by
  rw [insertKey]
  split
  all_goals rename_i heq2
  all_goals rw [h] at heq2
  all_goals injection heq2 with h1 h2
  · injection h2
  · injection h2
  · subst h1; rfl

/-- Specification of `ADS_set::insert`: preservation of well-formedness and
the caller-visible contract of the returned flag. -/
theorem insertKey_spec {N : Nat} (hN : 1 ≤ N) {s : BSet} (k : Int) (hwf : WF N s) :
    WF N (insertKey N s k).1 ∧
    ((insertKey N s k).2 = true ↔ k ∉ s.root.keys) ∧
    ((insertKey N s k).2 = true →
      (insertKey N s k).1.root.keys = insort k s.root.keys ∧
      (insertKey N s k).1.sz = s.sz + 1) ∧
    ((insertKey N s k).2 = false → (insertKey N s k).1 = s ∧ k ∈ s.root.keys) := by
  obtain ⟨hgt, hbal, hord, hrf, hsz⟩ := hwf
  rcases s with ⟨sz, root⟩
  simp only at hbal hord hrf hsz
  rcases haddE : addElem N root k with ⟨t, msg⟩
  have hspec := addElem_spec N hN hgt root k none none hbal hord (okey_none k)
    (rootFill_size hrf) (rootFill_childrenFill hrf) t msg haddE
  cases msg with
  | EXISTS =>
      obtain ⟨hteq, hkmem⟩ := hspec.1 rfl
      subst hteq
      have heval : insertKey N ⟨sz, t⟩ k = (⟨sz, t⟩, false) :=
        insertKey_eval_exists (s := ⟨sz, t⟩) haddE
      rw [heval]
      exact ⟨⟨hgt, hbal, hord, hrf, hsz⟩, by simp [hkmem], fun hx => by simp at hx,
        fun _ => ⟨rfl, hkmem⟩⟩
  | SUCCESS =>
      obtain ⟨hknot, htkeys, htbal, htord, htsz, htszge, htcf⟩ := hspec.2.1 rfl
      have heval : insertKey N ⟨sz, root⟩ k = (⟨sz + 1, t⟩, true) :=
        insertKey_eval_success (s := ⟨sz, root⟩) haddE
      rw [heval]
      refine ⟨⟨hgt, htbal, htord, ?_, ?_⟩, by simp [hknot], fun _ => ⟨htkeys, rfl⟩,
        fun hx => by simp at hx⟩
      · cases ht : t with
        | ext vs2 => rw [RootFill]; rw [ht, Node.size] at htsz; exact htsz
        | intl vs2 cs2 =>
            rw [RootFill]
            rw [ht, Node.size] at htsz
            rw [ht, ChildrenFill] at htcf
            refine ⟨?_, htsz, htcf⟩
            cases root with
            | ext vs3 =>
                obtain ⟨vs4, hshape⟩ := addElem_ext_shape N vs3 k
                rw [haddE] at hshape
                simp at hshape
                rw [ht] at hshape
                exact absurd hshape (by simp)
            | intl vs3 cs3 =>
                rw [RootFill] at hrf
                rw [Node.size] at htszge
                rw [ht, Node.size] at htszge
                omega
      · simp only
        rw [htkeys, length_insort, hsz]
  | SPLIT =>
      obtain ⟨hknot, htkeys, htbal, htord, htover⟩ := hspec.2.2 rfl
      have hL0 : OrdSeqL none none none ([] : List Int) ([] : List Node) := by
        rw [OrdSeqL]
      have hR0 : OrdSeq none none ([] : List Int) [t] := by
        rw [OrdSeq]
        exact htord
      obtain ⟨l, r2, m, heq, hord2, hball, hbalr, hfilll, hfillr, hkeyslr⟩ :=
        splitAt_spec hN hL0 hR0 htover htbal
      simp only [List.nil_append, List.length_nil] at heq hord2
      have heval : insertKey N ⟨sz, root⟩ k = (⟨sz + 1, .intl [m] [l, r2]⟩, true) := by
        rw [insertKey_eval_split (s := ⟨sz, root⟩) haddE]
        rw [show splitAt [] [t] 0 = ([m], [l, r2]) from heq]
      rw [heval]
      have hkeysnew : (Node.intl [m] [l, r2]).keys = insort k root.keys := by
        simp only [Node.keys, keysList]
        rw [← htkeys, ← hkeyslr]
        simp
      refine ⟨⟨hgt + 1, ?_, ?_, ?_, ?_⟩, by simp [hknot], fun _ => ?_, fun hx => by simp at hx⟩
      · refine Bal.intl hgt [m] [l, r2] (by simp) ?_
        intro d hd
        rcases List.mem_cons.mp hd with hd | hd
        · exact hd ▸ hball
        rcases List.mem_cons.mp hd with hd | hd
        · exact hd ▸ hbalr
        · simp at hd
      · rw [Ordered]
        exact hord2
      · rw [RootFill]
        refine ⟨by simp, by simp; omega, ?_⟩
        intro d hd
        rcases List.mem_cons.mp hd with hd | hd
        · exact hd ▸ hfilll
        rcases List.mem_cons.mp hd with hd | hd
        · exact hd ▸ hfillr
        · simp at hd
      · simp only
        rw [hkeysnew, length_insort, hsz]
      · exact ⟨hkeysnew, rfl⟩

/-! ### Facts about descending into the child chosen by find_pos -/

/-- Bundled facts about the decomposition of an internal node at the position
`find_pos` chooses for a key: the window containing the key, and strict
separation of the key from all keys stored under the other children. -/
theorem descend_facts (hgt : Nat) {vs : List Int} {cs : List Node} {lb ub : Option Int}
    (k : Int) (hposc : intFindPos vs k < cs.length)
    (hc : ∀ c ∈ cs, Bal hgt c) (ho : OrdSeq lb ub vs cs) (hk : OKey lb ub k) :
    ∃ mb, OrdSeqL lb ub mb (vs.take (intFindPos vs k)) (cs.take (intFindPos vs k)) ∧
      OrdSeq mb ub (vs.drop (intFindPos vs k))
        (cs[intFindPos vs k] :: cs.drop (intFindPos vs k + 1)) ∧
      OKey mb (hdBound (vs.drop (intFindPos vs k)) ub) k ∧
      (∀ x ∈ keysList (cs.take (intFindPos vs k)), x < k) ∧
      (∀ y ∈ keysList (cs.drop (intFindPos vs k + 1)), k < y) := by
  have hpos : intFindPos vs k ≤ vs.length := intFindPos_le_length vs k
  have hlen : cs.length = vs.length + 1 := ordSeq_length vs cs lb ub ho
  obtain ⟨mb, hL, hR⟩ := ordSeq_decomp (intFindPos vs k) vs cs lb ub ho hpos
  have hdropc : cs.drop (intFindPos vs k) =
      cs[intFindPos vs k] :: cs.drop (intFindPos vs k + 1) :=
    List.drop_eq_getElem_cons hposc
  rw [hdropc] at hR
  have hC1len : (cs.take (intFindPos vs k)).length = intFindPos vs k := by
    rw [List.length_take]; omega
  refine ⟨mb, hL, hR, ⟨?_, ?_⟩, ?_, ?_⟩
  · intro a ha
    rcases ordSeqL_mb_cases _ _ _ _ _ hL with hmb | ⟨a2, ha2, hamem⟩
    · rw [hmb] at ha; exact hk.1 a ha
    · rw [ha2] at ha
      simp at ha
      subst ha
      exact intFindPos_take vs a2 hamem
  · intro b hb
    cases hV2 : vs.drop (intFindPos vs k) with
    | nil => rw [hV2] at hb; rw [hdBound] at hb; exact hk.2 b hb
    | cons s V2x =>
        rw [hV2] at hb
        rw [hdBound] at hb
        simp at hb
        exact hb ▸ intFindPos_drop vs s V2x hV2
  · intro x hx
    have hC1ne : cs.take (intFindPos vs k) ≠ [] := by
      intro h0; rw [h0, keysList] at hx; simp at hx
    have hV1ne : vs.take (intFindPos vs k) ≠ [] := by
      intro h0
      have h1 := ordSeqL_length _ _ _ _ _ hL
      rw [h0] at h1
      simp only [List.length_nil] at h1
      exact hC1ne (List.eq_nil_of_length_eq_zero h1)
    obtain ⟨s0, hs0⟩ : ∃ s0, s0 ∈ vs.take (intFindPos vs k) := by
      match h0 : vs.take (intFindPos vs k) with
      | [] => exact absurd h0 hV1ne
      | s :: _ => exact ⟨s, by simp⟩
    obtain ⟨a, ha, hsa⟩ := ordSeqL_le_mb _ _ _ _ _ hL s0 hs0
    have hak : a ≤ k := by
      rcases ordSeqL_mb_cases _ _ _ _ _ hL with hmb | ⟨a2, ha2, hamem⟩
      · rw [hmb] at ha; exact hk.1 a (by simp [ha])
      · rw [ha2] at ha
        have he2 : a2 = a := by simpa using ha
        exact he2 ▸ intFindPos_take vs a2 hamem
    have hxa := ordSeqL_keys_ub hgt _ _ _ _ _ hL
      (fun d hd => hc d (List.take_subset _ _ hd)) x hx a (by simp [ha])
    omega
  · cases hV2 : vs.drop (intFindPos vs k) with
    | nil =>
        intro y hy
        have h1 : vs.length ≤ intFindPos vs k := by
          have := congrArg List.length hV2
          rw [List.length_drop] at this
          simp at this
          omega
        have h2 : cs.drop (intFindPos vs k + 1) = [] :=
          List.eq_nil_of_length_eq_zero (by rw [List.length_drop]; omega)
        rw [h2, keysList] at hy
        simp at hy
    | cons s V2x =>
        intro y hy
        have hks : k < s := intFindPos_drop vs s V2x hV2
        rw [hV2] at hR
        have := ordSeq_tail_keys_lb hgt hR
          (fun d hd => hc d (List.drop_subset _ _ hd)) y hy
        omega

theorem keysList_decomp {cs : List Node} (pos : Nat) (hposc : pos < cs.length) :
    keysList cs = keysList (cs.take pos) ++
      ((cs[pos]).keys ++ keysList (cs.drop (pos + 1))) := by
  conv_lhs => rw [show cs = cs.take pos ++ cs[pos] :: cs.drop (pos + 1) by
    conv_lhs => rw [← List.take_append_drop pos cs]
    rw [List.drop_eq_getElem_cons hposc]]
  rw [keysList_append, keysList]

/-! ### count correctness -/

theorem countChild_eq (k : Int) : ∀ (C1 : List Node) (c : Node) (C2 : List Node),
    countChild (C1 ++ c :: C2) C1.length k = countNode c k := by
  intro C1
  induction C1 with
  | nil => intro c C2; simp [countChild]
  | cons a C1 ih => intro c C2; simp [countChild, ih]

/-- `Node::count` decides membership in the stored key set. -/
theorem countNode_spec : ∀ (hgt : Nat) (t : Node) (k : Int) (lb ub : Option Int),
    Bal hgt t → Ordered lb ub t → OKey lb ub k →
    (countNode t k = true ↔ k ∈ t.keys) := by
  intro hgt
  induction hgt with
  | zero =>
      intro t k lb ub hb ho hk
      cases hb with
      | ext vs =>
          rw [Ordered] at ho
          rw [countNode]
          simp only [Node.keys]
          constructor
          · intro hb2
            by_contra hmem
            rw [(extFindPos_neg1_iff ho.1).mpr hmem] at hb2
            simp at hb2
          · intro hmem
            have hne : extFindPos vs k ≠ -1 := fun h0 => (extFindPos_neg1_iff ho.1).mp h0 hmem
            simp [hne]
  | succ h ih =>
      intro t k lb ub hb ho hk
      cases hb with
      | intl h vs cs hlen hc =>
      rw [Ordered] at ho
      have hpos : intFindPos vs k ≤ vs.length := intFindPos_le_length vs k
      have hposc : intFindPos vs k < cs.length := by omega
      obtain ⟨mb, hL, hR, hkc, hpre, hsuf⟩ := descend_facts h k hposc hc ho hk
      have hcmem : cs[intFindPos vs k] ∈ cs := List.getElem_mem _
      have hoc : Ordered mb (hdBound (vs.drop (intFindPos vs k)) ub) cs[intFindPos vs k] :=
        ordSeq_head_ordered hR
      have hcount : countNode (Node.intl vs cs) k = countNode cs[intFindPos vs k] k := by
        rw [countNode]
        have h0 := countChild_eq k (cs.take (intFindPos vs k)) cs[intFindPos vs k]
          (cs.drop (intFindPos vs k + 1))
        rw [show (cs.take (intFindPos vs k)).length = intFindPos vs k by
          rw [List.length_take]; omega] at h0
        rw [show cs.take (intFindPos vs k) ++ cs[intFindPos vs k] ::
            cs.drop (intFindPos vs k + 1) = cs by
          conv_rhs => rw [← List.take_append_drop (intFindPos vs k) cs]
          rw [List.drop_eq_getElem_cons hposc]] at h0
        exact h0
      rw [hcount]
      rw [ih cs[intFindPos vs k] k mb (hdBound (vs.drop (intFindPos vs k)) ub)
        (hc _ hcmem) hoc hkc]
      simp only [Node.keys]
      rw [keysList_decomp (intFindPos vs k) hposc]
      constructor
      · intro hmem
        simp [hmem]
      · intro hmem
        rcases List.mem_append.mp hmem with hmem | hmem
        · exact absurd rfl (ne_of_lt (hpre k hmem))
        rcases List.mem_append.mp hmem with hmem | hmem
        · exact hmem
        · exact absurd rfl (ne_of_gt (hsuf k hmem))

/-! ### OrdSeq algebra for merge -/

/-- A node in the transient undersize state right after a removal: `N - 1`
values, all strict descendants within fill bounds. -/
def UnderFill (N : Nat) : Node → Prop
  | .ext vs => vs.length + 1 = N
  | .intl vs cs => vs.length + 1 = N ∧ ∀ c ∈ cs, FillB N c

theorem bal_zero_ext {t : Node} (h : Bal 0 t) : ∃ vs, t = .ext vs := by
  cases h with
  | ext vs => exact ⟨vs, rfl⟩

theorem bal_succ_intl {h2 : Nat} {t : Node} (h : Bal (h2 + 1) t) :
    ∃ vs cs, t = .intl vs cs ∧ cs.length = vs.length + 1 ∧ ∀ c ∈ cs, Bal h2 c := by
  cases h with
  | intl h vs cs hlen hc => exact ⟨vs, cs, rfl, hlen, hc⟩

/-- Replacing the first child of a tail sequence, possibly strengthening the
lower bound of the window. -/
theorem ordSeq_head_strengthen {lbOld lbNew ub : Option Int} {V : List Int} {c c2 : Node}
    {C : List Node} (h : OrdSeq lbOld ub V (c :: C)) (hc : Ordered lbNew (hdBound V ub) c2)
    (hsep : ∀ s V2, V = s :: V2 → ∀ a ∈ lbNew, a < s) :
    OrdSeq lbNew ub V (c2 :: C) := by
  cases V with
  | nil =>
      match C with
      | [] => rw [OrdSeq]; rw [hdBound] at hc; exact hc
      | d :: C => exact absurd h (by rw [OrdSeq]; simp)
  | cons s V2 =>
      rw [OrdSeq] at h ⊢
      rw [hdBound] at hc
      exact ⟨⟨hsep s V2 rfl, h.1.2⟩, hc, h.2.2⟩

/-- Appending a separator and a child at the right end of a sequence,
extending the window upper bound. -/
theorem ordSeq_snoc : ∀ (V : List Int) (C : List Node) (lb : Option Int) (s : Int)
    (ub2 : Option Int) (cNew : Node),
    OrdSeq lb (some s) V C → (∀ a ∈ lb, a < s) → (∀ b ∈ ub2, s < b) →
    Ordered (some s) ub2 cNew →
    OrdSeq lb ub2 (V ++ [s]) (C ++ [cNew]) := by
  intro V
  induction V with
  | nil =>
      intro C lb s ub2 cNew h hlbs hsub hnew
      match C with
      | [] => exact absurd h (by rw [OrdSeq]; simp)
      | [c0] =>
          rw [OrdSeq] at h
          rw [List.nil_append, List.cons_append, List.nil_append, OrdSeq]
          exact ⟨⟨hlbs, hsub⟩, h, by rw [OrdSeq]; exact hnew⟩
      | c0 :: c1 :: C => exact absurd h (by rw [OrdSeq]; simp)
  | cons s0 V ih =>
      intro C lb s ub2 cNew h hlbs hsub hnew
      match C with
      | [] => exact absurd h (by rw [OrdSeq]; simp)
      | c0 :: C =>
          rw [OrdSeq] at h
          rw [List.cons_append, List.cons_append, OrdSeq]
          refine ⟨⟨h.1.1, fun b hb => lt_trans (h.1.2 s (by simp)) (hsub b hb)⟩, h.2.1, ?_⟩
          exact ih C (some s0) s ub2 cNew h.2.2 (fun a ha => by
            simp at ha
            exact ha ▸ h.1.2 s (by simp)) hsub hnew

/-- Fusing two adjacent sequences around a dropped-down separator. -/
theorem ordSeq_fuse : ∀ (V1 : List Int) (C1 : List Node) (lb : Option Int) (s : Int)
    (ub : Option Int) (V2 : List Int) (C2 : List Node),
    OrdSeq lb (some s) V1 C1 → (∀ a ∈ lb, a < s) → (∀ b ∈ ub, s < b) →
    OrdSeq (some s) ub V2 C2 →
    OrdSeq lb ub (V1 ++ s :: V2) (C1 ++ C2) := by
  intro V1
  induction V1 with
  | nil =>
      intro C1 lb s ub V2 C2 h hlbs hsub h2
      match C1 with
      | [] => exact absurd h (by rw [OrdSeq]; simp)
      | [c0] =>
          rw [OrdSeq] at h
          rw [List.nil_append, List.cons_append, List.nil_append, OrdSeq]
          exact ⟨⟨hlbs, hsub⟩, h, h2⟩
      | c0 :: c1 :: C => exact absurd h (by rw [OrdSeq]; simp)
  | cons s0 V ih =>
      intro C1 lb s ub V2 C2 h hlbs hsub h2
      match C1 with
      | [] => exact absurd h (by rw [OrdSeq]; simp)
      | c0 :: C =>
          rw [OrdSeq] at h
          rw [List.cons_append, List.cons_append, OrdSeq]
          refine ⟨⟨h.1.1, fun b hb => lt_trans (h.1.2 s (by simp)) (hsub b hb)⟩, h.2.1, ?_⟩
          exact ih C (some s0) s ub V2 C2 h.2.2 (fun a ha => by
            simp at ha
            exact ha ▸ h.1.2 s (by simp)) hsub h2

/-- Splitting off the last separator/child pair of a consumed prefix. -/
theorem ordSeqL_snoc_inv : ∀ (V : List Int) (C : List Node) (lb ub mb : Option Int)
    (s : Int) (ln : Node),
    OrdSeqL lb ub mb (V ++ [s]) (C ++ [ln]) →
    ∃ mb2, OrdSeqL lb ub mb2 V C ∧ OSep mb2 ub s ∧ Ordered mb2 (some s) ln ∧ mb = some s := by
  intro V
  induction V with
  | nil =>
      intro C lb ub mb s ln h
      match C with
      | [] =>
          rw [List.nil_append, List.nil_append, OrdSeqL] at h
          rw [OrdSeqL] at h
          exact ⟨lb, by rw [OrdSeqL], h.1, h.2.1, h.2.2⟩
      | c0 :: C =>
          have := ordSeqL_length (([] : List Int) ++ [s]) ((c0 :: C) ++ [ln]) lb ub mb h
          simp at this
  | cons s0 V ih =>
      intro C lb ub mb s ln h
      match C with
      | [] =>
          have := ordSeqL_length ((s0 :: V) ++ [s]) (([] : List Node) ++ [ln]) lb ub mb h
          simp at this
      | c0 :: C =>
          rw [List.cons_append, List.cons_append, OrdSeqL] at h
          obtain ⟨mb2, h1, h2, h3, h4⟩ := ih C (some s0) ub mb s ln h.2.2
          exact ⟨mb2, by rw [OrdSeqL]; exact ⟨h.1, h.2.1, h1⟩, h2, h3, h4⟩

/-- Appending a separator/child pair at the right end of a consumed prefix. -/
theorem ordSeqL_snoc : ∀ (V : List Int) (C : List Node) (lb ub mb : Option Int)
    (s : Int) (ln : Node),
    OrdSeqL lb ub mb V C → OSep mb ub s → Ordered mb (some s) ln →
    OrdSeqL lb ub (some s) (V ++ [s]) (C ++ [ln]) := by
  intro V
  induction V with
  | nil =>
      intro C lb ub mb s ln h hsep hln
      match C with
      | [] =>
          rw [OrdSeqL] at h
          subst h
          rw [List.nil_append, List.nil_append, OrdSeqL]
          rw [OrdSeqL]
          exact ⟨hsep, hln, rfl⟩
      | c0 :: C => exact absurd h (by rw [OrdSeqL]; simp)
  | cons s0 V ih =>
      intro C lb ub mb s ln h hsep hln
      match C with
      | [] => exact absurd h (by rw [OrdSeqL]; simp)
      | c0 :: C =>
          rw [OrdSeqL] at h
          rw [List.cons_append, List.cons_append, OrdSeqL]
          exact ⟨h.1, h.2.1, ih C (some s0) ub mb s ln h.2.2 hsep hln⟩

theorem sorted_take_lt_getD {vs : List Int} (hs : List.Sorted (· < ·) vs) {n : Nat}
    (hn : n < vs.length) : ∀ x ∈ vs.take n, x < vs.getD n 0 := by
  intro x hx
  obtain ⟨j, hj, hje⟩ := List.mem_iff_getElem.mp hx
  have hjn : j < n := by rw [List.length_take] at hj; omega
  rw [List.getElem_take] at hje
  subst hje
  have h2 := sorted_getD_lt hs hjn hn
  rw [List.getD_eq_getElem _ 0 (by omega)] at h2
  exact h2

theorem sorted_getD_le_drop {vs : List Int} (hs : List.Sorted (· < ·) vs) {n : Nat}
    (hn : n < vs.length) : ∀ x ∈ vs.drop n, vs.getD n 0 ≤ x := by
  intro x hx
  obtain ⟨j, hj, hje⟩ := List.mem_iff_getElem.mp hx
  have hjlen : n + j < vs.length := by rw [List.length_drop] at hj; omega
  rw [List.getElem_drop] at hje
  subst hje
  rcases Nat.eq_zero_or_pos j with hj0 | hj0
  · subst hj0
    rw [List.getD_eq_getElem _ 0 hn]
    simp
  · have h2 := sorted_getD_lt hs (show n < n + j by omega) hjlen
    rw [List.getD_eq_getElem _ 0 hn, List.getD_eq_getElem _ 0 hjlen] at h2
    rw [List.getD_eq_getElem _ 0 hn]
    omega

theorem getD_mem {vs : List Int} {n : Nat} (hn : n < vs.length) : vs.getD n 0 ∈ vs := by
  rw [List.getD_eq_getElem _ 0 hn]
  exact List.getElem_mem _

/-! ### The redistribution sub-lemmas (leaf siblings) -/

theorem mem_some_eq {α : Type} {a b : α} (h : a ∈ (some b : Option α)) : a = b :=
  (Option.mem_some_iff.mp h).symm

theorem mem_some_self {α : Type} (a : α) : a ∈ (some a : Option α) :=
  Option.mem_some_iff.mpr rfl

/-- Redistribution from the right leaf sibling (merge lines 332-344). -/
theorem stealRightExt_spec {N : Nat} (hN : 1 ≤ N) {lb ub mb : Option Int}
    {V1 V2 : List Int} {s : Int} {C1 C2 : List Node} {cvs rvs : List Int}
    (hL : OrdSeqL lb ub mb V1 C1)
    (hseq : OrdSeq mb ub (s :: V2) (.ext cvs :: .ext rvs :: C2))
    (hrsz : rvs.length > N) :
    stealRightExt (V1 ++ s :: V2) (C1 ++ .ext cvs :: .ext rvs :: C2) C1.length =
      (V1 ++ ((rvs.drop 1).getD 0 0) :: V2,
       C1 ++ .ext (cvs ++ [rvs.getD 0 0]) :: .ext (rvs.drop 1) :: C2) ∧
    OrdSeq lb ub (V1 ++ ((rvs.drop 1).getD 0 0) :: V2)
      (C1 ++ .ext (cvs ++ [rvs.getD 0 0]) :: .ext (rvs.drop 1) :: C2) := by
  have hV1len : V1.length = C1.length := (ordSeqL_length V1 C1 lb ub mb hL).symm
  rw [OrdSeq] at hseq
  obtain ⟨hsep, hoc, hrest⟩ := hseq
  have hor : Ordered (some s) (hdBound V2 ub) (.ext rvs) := ordSeq_head_ordered hrest
  rw [Ordered] at hoc hor
  obtain ⟨hcsort, hcb⟩ := hoc
  obtain ⟨hrsort, hrb⟩ := hor
  have hr1 : 1 < rvs.length := by omega
  have hr0mem : rvs.getD 0 0 ∈ rvs := getD_mem (by omega)
  have hs2g : (rvs.drop 1).getD 0 0 = rvs.getD 1 0 := by
    rw [List.getD_eq_getElem _ 0 (by rw [List.length_drop]; omega),
      List.getD_eq_getElem _ 0 hr1, List.getElem_drop]
  have hs2mem : (rvs.drop 1).getD 0 0 ∈ rvs := by rw [hs2g]; exact getD_mem hr1
  have f1 : s ≤ rvs.getD 0 0 := (hrb _ hr0mem).1 s (mem_some_self s)
  have f2 : rvs.getD 0 0 < (rvs.drop 1).getD 0 0 := by
    rw [hs2g]; exact sorted_getD_lt hrsort (by omega) hr1
  have f4 : ∀ b ∈ hdBound V2 ub, (rvs.drop 1).getD 0 0 < b := (hrb _ hs2mem).2
  have f5 : ∀ a ∈ mb, a < s := hsep.1
  constructor
  · rw [stealRightExt]
    rw [getD_append_length, getD_append_length_succ]
    simp only
    rw [← hV1len, set_append_length V1 s _ V2, hV1len]
    rw [set_append_length C1 _ _ (Node.ext rvs :: C2), set_append_length_succ]
  · refine ordSeqL_comp V1 C1 lb ub mb _ _ hL ?_
    rw [OrdSeq]
    have hs2ub : ∀ b ∈ ub, (rvs.drop 1).getD 0 0 < b := by
      intro b hb
      cases hV2 : V2 with
      | nil => exact f4 b (by rw [hV2, hdBound]; exact hb)
      | cons s3 V2x =>
          have hs3 : (rvs.drop 1).getD 0 0 < s3 :=
            f4 s3 (by rw [hV2, hdBound]; exact mem_some_self s3)
          rw [hV2] at hrest
          rw [OrdSeq] at hrest
          exact lt_trans hs3 (hrest.1.2 b hb)
    refine ⟨⟨fun a ha => lt_trans (lt_of_lt_of_le (f5 a ha) f1) f2, hs2ub⟩, ?_, ?_⟩
    · rw [Ordered]
      constructor
      · refine List.pairwise_append.mpr ⟨hcsort, by simp, ?_⟩
        intro x hx y hy
        rw [List.mem_singleton] at hy
        subst hy
        exact lt_of_lt_of_le ((hcb x hx).2 s (mem_some_self s)) f1
      · intro x hx
        rcases List.mem_append.mp hx with hx | hx
        · refine ⟨(hcb x hx).1, fun b hb => ?_⟩
          rw [mem_some_eq hb]
          exact lt_trans (lt_of_lt_of_le ((hcb x hx).2 s (mem_some_self s)) f1) f2
        · rw [List.mem_singleton] at hx
          subst hx
          refine ⟨fun a ha => le_of_lt (lt_of_lt_of_le (f5 a ha) f1), fun b hb => ?_⟩
          rw [mem_some_eq hb]
          exact f2
    · refine ordSeq_head_strengthen hrest ?_ ?_
      · rw [Ordered]
        refine ⟨sorted_drop 1 hrsort, fun x hx => ?_⟩
        refine ⟨fun b hb => ?_, (hrb x (List.drop_subset 1 rvs hx)).2⟩
        rw [mem_some_eq hb]
        exact sorted_getD_le_drop (sorted_drop 1 hrsort) (n := 0)
          (by rw [List.length_drop]; omega) x (by rw [List.drop_zero]; exact hx)
      · intro s3 V2x hV2 a ha
        rw [mem_some_eq ha]
        exact f4 s3 (by rw [hV2, hdBound]; exact mem_some_self s3)

/-- Redistribution from the left leaf sibling (merge lines 345-357). -/
theorem stealLeftExt_spec {N : Nat} (hN : 1 ≤ N) {lb ub mb2 : Option Int}
    {V1 V2 : List Int} {s : Int} {C1 C2 : List Node} {lvs cvs : List Int}
    (hL : OrdSeqL lb ub mb2 V1 C1)
    (hsepS : OSep mb2 ub s) (hln : Ordered mb2 (some s) (.ext lvs))
    (hseq : OrdSeq (some s) ub V2 (.ext cvs :: C2))
    (hlsz : lvs.length > N) :
    stealLeftExt (V1 ++ s :: V2) (C1 ++ .ext lvs :: .ext cvs :: C2)
        (C1.length + 1) =
      (V1 ++ (lvs.getD (lvs.length - 1) 0) :: V2,
       C1 ++ .ext (lvs.take (lvs.length - 1)) ::
         .ext (lvs.getD (lvs.length - 1) 0 :: cvs) :: C2) ∧
    OrdSeq lb ub (V1 ++ (lvs.getD (lvs.length - 1) 0) :: V2)
      (C1 ++ .ext (lvs.take (lvs.length - 1)) ::
        .ext (lvs.getD (lvs.length - 1) 0 :: cvs) :: C2) := by
  have hV1len : V1.length = C1.length := (ordSeqL_length V1 C1 lb ub mb2 hL).symm
  rw [Ordered] at hln
  obtain ⟨hlsort, hlb⟩ := hln
  have hoc : Ordered (some s) (hdBound V2 ub) (.ext cvs) := ordSeq_head_ordered hseq
  rw [Ordered] at hoc
  obtain ⟨hcsort, hcb⟩ := hoc
  have hlast_mem : lvs.getD (lvs.length - 1) 0 ∈ lvs := getD_mem (by omega)
  have f1 : lvs.getD (lvs.length - 1) 0 < s := (hlb _ hlast_mem).2 s (mem_some_self s)
  have f2 : ∀ a ∈ mb2, a < lvs.getD (lvs.length - 1) 0 := by
    intro a ha
    have h0 : lvs.getD 0 0 ∈ lvs := getD_mem (by omega)
    have h1 := (hlb _ h0).1 a ha
    have h2 : lvs.getD 0 0 < lvs.getD (lvs.length - 1) 0 :=
      sorted_getD_lt hlsort (by omega) (by omega)
    omega
  have f3 : ∀ x ∈ lvs.take (lvs.length - 1), x < lvs.getD (lvs.length - 1) 0 :=
    sorted_take_lt_getD hlsort (by omega)
  have fub : ∀ b ∈ hdBound V2 ub, lvs.getD (lvs.length - 1) 0 < b := by
    intro b hb
    cases hV2 : V2 with
    | nil =>
        rw [hV2, hdBound] at hb
        exact lt_trans f1 (hsepS.2 b hb)
    | cons s3 V2x =>
        rw [hV2, hdBound] at hb
        rw [mem_some_eq hb]
        rw [hV2, OrdSeq] at hseq
        exact lt_trans f1 (hseq.1.1 s (mem_some_self s))
  constructor
  · rw [stealLeftExt]
    rw [Nat.add_sub_cancel]
    rw [getD_append_length, getD_append_length_succ]
    simp only
    rw [← hV1len, set_append_length V1 s _ V2, hV1len]
    rw [set_append_length_succ C1 _ _ _ C2, set_append_length C1 _ _ _]
  · refine ordSeqL_comp V1 C1 lb ub mb2 _ _ hL ?_
    rw [OrdSeq]
    refine ⟨⟨f2, fun b hb => lt_trans f1 (hsepS.2 b hb)⟩, ?_, ?_⟩
    · rw [Ordered]
      refine ⟨sorted_take (lvs.length - 1) hlsort, fun x hx => ?_⟩
      refine ⟨fun a ha => (hlb x (List.take_subset _ _ hx)).1 a ha, fun b hb => ?_⟩
      rw [mem_some_eq hb]
      exact f3 x hx
    · refine ordSeq_head_strengthen hseq ?_ ?_
      · rw [Ordered]
        constructor
        · refine List.Pairwise.cons ?_ hcsort
          intro y hy
          exact lt_of_lt_of_le f1 ((hcb y hy).1 s (mem_some_self s))
        · intro x hx
          rcases List.mem_cons.mp hx with hx | hx
          · subst hx
            refine ⟨fun a ha => by rw [mem_some_eq ha], fun b hb => fub b hb⟩
          · refine ⟨fun a ha => ?_, (hcb x hx).2⟩
            rw [mem_some_eq ha]
            exact le_of_lt (lt_of_lt_of_le f1 ((hcb x hx).1 s (mem_some_self s)))
      · intro s3 V2x hV2 a ha
        rw [mem_some_eq ha]
        rw [hV2, OrdSeq] at hseq
        exact lt_trans f1 (hseq.1.1 s (mem_some_self s))

/-! ### Decomposition helpers for merge -/

/-- Splitting off the last separator/child pair of a full sequence. -/
theorem ordSeq_snoc_inv : ∀ (V : List Int) (C : List Node) (lb ub : Option Int)
    (s : Int) (cl : Node),
    OrdSeq lb ub (V ++ [s]) (C ++ [cl]) →
    OrdSeq lb (some s) V C ∧ OSep lb ub s ∧ Ordered (some s) ub cl := by
  intro V
  induction V with
  | nil =>
      intro C lb ub s cl h
      match C with
      | [] =>
          have := ordSeq_length (([] : List Int) ++ [s]) (([] : List Node) ++ [cl]) lb ub h
          simp at this
      | [c0] =>
          rw [List.nil_append, List.cons_append, List.nil_append, OrdSeq] at h
          rw [OrdSeq] at h
          exact ⟨by rw [OrdSeq]; exact h.2.1, h.1, h.2.2⟩
      | c0 :: c1 :: C =>
          have := ordSeq_length (([] : List Int) ++ [s]) ((c0 :: c1 :: C) ++ [cl]) lb ub h
          simp at this
  | cons v1 V ih =>
      intro C lb ub s cl h
      match C with
      | [] =>
          have := ordSeq_length ((v1 :: V) ++ [s]) (([] : List Node) ++ [cl]) lb ub h
          simp at this
      | c1 :: C =>
          rw [List.cons_append, List.cons_append, OrdSeq] at h
          obtain ⟨h1, h2, h3⟩ := ih C (some v1) ub s cl h.2.2
          refine ⟨?_, ⟨fun a ha => lt_trans (h.1.1 a ha) (h2.1 v1 (mem_some_self v1)), h2.2⟩, h3⟩
          rw [OrdSeq]
          exact ⟨⟨h.1.1, fun b hb => by
            rw [mem_some_eq hb]
            exact h2.1 v1 (mem_some_self v1)⟩, h.2.1, h1⟩

theorem take_append_length {α : Type} (A : List α) (x : α) (B : List α) :
    (A ++ x :: B).take A.length = A := by
  rw [List.take_append_of_le_length (le_refl A.length), List.take_length]

/-- Any list splits at a valid position into a prefix, the element there, and
the remaining suffix. -/
theorem list_decomp_at {α : Type} (l : List α) (pos : Nat) (d : α) (h : pos < l.length) :
    l = l.take pos ++ l.getD pos d :: l.drop (pos + 1) := by
  rw [List.getD_eq_getElem _ _ h, ← List.drop_eq_getElem_cons, List.take_append_drop]

theorem length_take_of_lt {α : Type} {l : List α} {pos : Nat} (h : pos < l.length) :
    (l.take pos).length = pos := by
  rw [List.length_take]; omega

/-- Replacing two adjacent children preserves a pointwise property. -/
theorem forall_mem_two_set {P : Node → Prop} {C1 C2 : List Node} {a b a2 b2 : Node}
    (h : ∀ c ∈ C1 ++ a :: b :: C2, P c) (h2 : P a2) (h3 : P b2) :
    ∀ c ∈ C1 ++ a2 :: b2 :: C2, P c := by
  intro c hc
  rcases List.mem_append.mp hc with hc | hc
  · exact h c (List.mem_append.mpr (Or.inl hc))
  rcases List.mem_cons.mp hc with hc | hc
  · exact hc ▸ h2
  rcases List.mem_cons.mp hc with hc | hc
  · exact hc ▸ h3
  · exact h c (List.mem_append.mpr (Or.inr (by simp [hc])))

/-- Fusing two adjacent children into one preserves a pointwise property. -/
theorem forall_mem_fuse {P : Node → Prop} {C1 C2 : List Node} {a b m : Node}
    (h : ∀ c ∈ C1 ++ a :: b :: C2, P c) (hm : P m) :
    ∀ c ∈ C1 ++ m :: C2, P c := by
  intro c hc
  rcases List.mem_append.mp hc with hc | hc
  · exact h c (List.mem_append.mpr (Or.inl hc))
  rcases List.mem_cons.mp hc with hc | hc
  · exact hc ▸ hm
  · exact h c (List.mem_append.mpr (Or.inr (by simp [hc])))

/-! ### The redistribution sub-lemmas (internal siblings) -/

/-- Redistribution from the right internal sibling (merge lines 359-379). -/
theorem stealRightInt_spec {lb ub mb : Option Int}
    {V1 V2 : List Int} {s : Int} {C1 C2 : List Node}
    {cvs : List Int} {ccs : List Node} {r0 : Int} {rtail : List Int}
    {rc0 : Node} {rcrest : List Node}
    (hL : OrdSeqL lb ub mb V1 C1)
    (hseq : OrdSeq mb ub (s :: V2)
      (.intl cvs ccs :: .intl (r0 :: rtail) (rc0 :: rcrest) :: C2)) :
    stealRightInt (V1 ++ s :: V2)
        (C1 ++ .intl cvs ccs :: .intl (r0 :: rtail) (rc0 :: rcrest) :: C2) C1.length =
      (V1 ++ r0 :: V2,
       C1 ++ .intl (cvs ++ [s]) (ccs ++ [rc0]) :: .intl rtail rcrest :: C2) ∧
    OrdSeq lb ub (V1 ++ r0 :: V2)
      (C1 ++ .intl (cvs ++ [s]) (ccs ++ [rc0]) :: .intl rtail rcrest :: C2) := by
  have hV1len : V1.length = C1.length := (ordSeqL_length V1 C1 lb ub mb hL).symm
  rw [OrdSeq] at hseq
  obtain ⟨hsep, hoc, hrest⟩ := hseq
  rw [Ordered] at hoc
  have hor := ordSeq_head_ordered hrest
  rw [Ordered, OrdSeq] at hor
  obtain ⟨hsepR, hrc0, hrtail⟩ := hor
  have f1 : s < r0 := hsepR.1 s (mem_some_self s)
  have fub : ∀ b ∈ ub, r0 < b := by
    intro b hb
    cases hV2 : V2 with
    | nil => exact hsepR.2 b (by rw [hV2, hdBound]; exact hb)
    | cons s3 V2x =>
        have hs3 : r0 < s3 := hsepR.2 s3 (by rw [hV2, hdBound]; exact mem_some_self s3)
        rw [hV2] at hrest
        rw [OrdSeq] at hrest
        exact lt_trans hs3 (hrest.1.2 b hb)
  constructor
  · rw [stealRightInt]
    rw [getD_append_length, getD_append_length_succ]
    simp only
    simp only [List.getD_cons_zero, List.drop_one, List.tail_cons]
    rw [← hV1len, set_append_length V1 s _ V2, getD_append_length V1 s V2 0, hV1len]
    rw [set_append_length C1 _ _ _, set_append_length_succ C1 _ _ _ _]
  · refine ordSeqL_comp V1 C1 lb ub mb _ _ hL ?_
    rw [OrdSeq]
    refine ⟨⟨fun a ha => lt_trans (hsep.1 a ha) f1, fub⟩, ?_, ?_⟩
    · rw [Ordered]
      exact ordSeq_snoc cvs ccs mb s (some r0) rc0 hoc hsep.1
        (fun b hb => by rw [mem_some_eq hb]; exact f1) hrc0
    · refine ordSeq_head_strengthen hrest ?_ ?_
      · rw [Ordered]
        exact hrtail
      · intro s3 V2x hV2 a ha
        rw [mem_some_eq ha]
        exact hsepR.2 s3 (by rw [hV2, hdBound]; exact mem_some_self s3)

/-- Redistribution from the left internal sibling (merge lines 381-401). -/
theorem stealLeftInt_spec {lb ub mb2 : Option Int}
    {V1 V2 : List Int} {s : Int} {C1 C2 : List Node}
    {lvs0 : List Int} {ls : Int} {lcs0 : List Node} {lcl : Node}
    {cvs : List Int} {ccs : List Node}
    (hL : OrdSeqL lb ub mb2 V1 C1)
    (hsepS : OSep mb2 ub s)
    (hln : Ordered mb2 (some s) (.intl (lvs0 ++ [ls]) (lcs0 ++ [lcl])))
    (hseq : OrdSeq (some s) ub V2 (.intl cvs ccs :: C2)) :
    stealLeftInt (V1 ++ s :: V2)
        (C1 ++ .intl (lvs0 ++ [ls]) (lcs0 ++ [lcl]) :: .intl cvs ccs :: C2)
        (C1.length + 1) =
      (V1 ++ ls :: V2,
       C1 ++ .intl lvs0 lcs0 :: .intl (s :: cvs) (lcl :: ccs) :: C2) ∧
    OrdSeq lb ub (V1 ++ ls :: V2)
      (C1 ++ .intl lvs0 lcs0 :: .intl (s :: cvs) (lcl :: ccs) :: C2) := by
  have hV1len : V1.length = C1.length := (ordSeqL_length V1 C1 lb ub mb2 hL).symm
  rw [Ordered] at hln
  obtain ⟨hpre, hsepL, hlcl⟩ := ordSeq_snoc_inv lvs0 lcs0 mb2 (some s) ls lcl hln
  have f1 : ls < s := hsepL.2 s (mem_some_self s)
  have hoc := ordSeq_head_ordered hseq
  rw [Ordered] at hoc
  have hsub : ∀ b ∈ hdBound V2 ub, s < b := by
    intro b hb
    cases hV2 : V2 with
    | nil =>
        rw [hV2, hdBound] at hb
        exact hsepS.2 b hb
    | cons s3 V2x =>
        rw [hV2, hdBound] at hb
        rw [mem_some_eq hb]
        rw [hV2, OrdSeq] at hseq
        exact hseq.1.1 s (mem_some_self s)
  constructor
  · rw [stealLeftInt]
    rw [Nat.add_sub_cancel]
    rw [getD_append_length, getD_append_length_succ]
    simp only
    rw [show (lvs0 ++ [ls]).length - 1 = lvs0.length by simp]
    rw [show (lcs0 ++ [lcl]).length - 1 = lcs0.length by simp]
    rw [getD_append_length lvs0 ls [] 0, getD_append_length lcs0 lcl [] (.ext [])]
    rw [take_append_length lvs0 ls [], take_append_length lcs0 lcl []]
    rw [← hV1len, set_append_length V1 s _ V2, getD_append_length V1 s V2 0, hV1len]
    rw [set_append_length_succ C1 _ _ _ C2, set_append_length C1 _ _ _]
  · refine ordSeqL_comp V1 C1 lb ub mb2 _ _ hL ?_
    rw [OrdSeq]
    refine ⟨⟨hsepL.1, fun b hb => lt_trans f1 (hsepS.2 b hb)⟩, ?_, ?_⟩
    · rw [Ordered]
      exact hpre
    · refine ordSeq_head_strengthen hseq ?_ ?_
      · rw [Ordered]
        rw [OrdSeq]
        exact ⟨⟨fun a ha => by rw [mem_some_eq ha]; exact f1, hsub⟩, hlcl, hoc⟩
      · intro s3 V2x hV2 a ha
        rw [mem_some_eq ha]
        rw [hV2, OrdSeq] at hseq
        exact lt_trans f1 (hseq.1.1 s (mem_some_self s))

/-! ### The fuse sub-lemmas -/

/-- Fusing the right leaf sibling into the underfull leaf (merge lines
468-487, 514-520). -/
theorem fuseRightExt_spec {lb ub mb : Option Int}
    {V1 V2 : List Int} {s : Int} {C1 C2 : List Node} {cvs rvs : List Int}
    (hL : OrdSeqL lb ub mb V1 C1)
    (hseq : OrdSeq mb ub (s :: V2) (.ext cvs :: .ext rvs :: C2)) :
    fuseRight (V1 ++ s :: V2) (C1 ++ .ext cvs :: .ext rvs :: C2) C1.length =
      (V1 ++ V2, C1 ++ .ext (cvs ++ rvs) :: C2) ∧
    OrdSeq lb ub (V1 ++ V2) (C1 ++ .ext (cvs ++ rvs) :: C2) := by
  have hV1len : V1.length = C1.length := (ordSeqL_length V1 C1 lb ub mb hL).symm
  rw [OrdSeq] at hseq
  obtain ⟨hsep, hoc, hrest⟩ := hseq
  have hor := ordSeq_head_ordered hrest
  rw [Ordered] at hoc hor
  have hsub : ∀ b ∈ hdBound V2 ub, s < b := by
    intro b hb
    cases hV2 : V2 with
    | nil =>
        rw [hV2, hdBound] at hb
        exact hsep.2 b hb
    | cons s3 V2x =>
        rw [hV2, hdBound] at hb
        rw [mem_some_eq hb]
        rw [hV2, OrdSeq] at hrest
        exact hrest.1.1 s (mem_some_self s)
  have hmerged : Ordered mb (hdBound V2 ub) (.ext (cvs ++ rvs)) := by
    rw [Ordered]
    constructor
    · refine List.pairwise_append.mpr ⟨hoc.1, hor.1, ?_⟩
      intro x hx y hy
      exact lt_of_lt_of_le ((hoc.2 x hx).2 s (mem_some_self s))
        ((hor.2 y hy).1 s (mem_some_self s))
    · intro k hk
      rcases List.mem_append.mp hk with hk | hk
      · exact ⟨(hoc.2 k hk).1,
          fun b hb => lt_trans ((hoc.2 k hk).2 s (mem_some_self s)) (hsub b hb)⟩
      · exact ⟨fun a ha => le_trans (le_of_lt (hsep.1 a ha))
            ((hor.2 k hk).1 s (mem_some_self s)), (hor.2 k hk).2⟩
  constructor
  · simp only [fuseRight]
    rw [getD_append_length, getD_append_length_succ]
    simp only
    rw [← hV1len, eraseIdx_append_length V1 s V2, hV1len]
    rw [set_append_length C1 _ _ _, eraseIdx_append_length_succ C1 _ _ C2]
  · refine ordSeqL_comp V1 C1 lb ub mb _ _ hL ?_
    refine ordSeq_head_strengthen hrest hmerged ?_
    intro s3 V2x hV2 a ha
    rw [hV2, OrdSeq] at hrest
    exact lt_trans (hsep.1 a ha) (hrest.1.1 s (mem_some_self s))

/-- Fusing the right internal sibling into the underfull node (merge lines
488-503, 514-520): the parent separator is pulled down between the value
runs. -/
theorem fuseRightInt_spec {lb ub mb : Option Int}
    {V1 V2 : List Int} {s : Int} {C1 C2 : List Node}
    {cvs rvs : List Int} {ccs rcs : List Node}
    (hL : OrdSeqL lb ub mb V1 C1)
    (hseq : OrdSeq mb ub (s :: V2) (.intl cvs ccs :: .intl rvs rcs :: C2)) :
    fuseRight (V1 ++ s :: V2) (C1 ++ .intl cvs ccs :: .intl rvs rcs :: C2) C1.length =
      (V1 ++ V2, C1 ++ .intl (cvs ++ s :: rvs) (ccs ++ rcs) :: C2) ∧
    OrdSeq lb ub (V1 ++ V2) (C1 ++ .intl (cvs ++ s :: rvs) (ccs ++ rcs) :: C2) := by
  have hV1len : V1.length = C1.length := (ordSeqL_length V1 C1 lb ub mb hL).symm
  rw [OrdSeq] at hseq
  obtain ⟨hsep, hoc, hrest⟩ := hseq
  have hor := ordSeq_head_ordered hrest
  rw [Ordered] at hoc hor
  have hsub : ∀ b ∈ hdBound V2 ub, s < b := by
    intro b hb
    cases hV2 : V2 with
    | nil =>
        rw [hV2, hdBound] at hb
        exact hsep.2 b hb
    | cons s3 V2x =>
        rw [hV2, hdBound] at hb
        rw [mem_some_eq hb]
        rw [hV2, OrdSeq] at hrest
        exact hrest.1.1 s (mem_some_self s)
  have hmerged : Ordered mb (hdBound V2 ub) (.intl (cvs ++ s :: rvs) (ccs ++ rcs)) := by
    rw [Ordered]
    exact ordSeq_fuse cvs ccs mb s (hdBound V2 ub) rvs rcs hoc hsep.1 hsub hor
  constructor
  · simp only [fuseRight]
    rw [getD_append_length, getD_append_length_succ]
    simp only
    rw [← hV1len, eraseIdx_append_length V1 s V2, getD_append_length V1 s V2 0, hV1len]
    rw [set_append_length C1 _ _ _, eraseIdx_append_length_succ C1 _ _ C2]
  · refine ordSeqL_comp V1 C1 lb ub mb _ _ hL ?_
    refine ordSeq_head_strengthen hrest hmerged ?_
    intro s3 V2x hV2 a ha
    rw [hV2, OrdSeq] at hrest
    exact lt_trans (hsep.1 a ha) (hrest.1.1 s (mem_some_self s))

/-- Fusing the last (leaf) child into its left sibling (merge lines 409-428,
444-460); only reachable with `pos = node_size`, where the parent
reorganisation is a plain removal of the last separator. -/
theorem fuseLeftExt_spec {lb ub mb2 : Option Int}
    {V1 : List Int} {s : Int} {C1 : List Node} {lvs cvs : List Int}
    (hL : OrdSeqL lb ub mb2 V1 C1)
    (hsepS : OSep mb2 ub s)
    (hln : Ordered mb2 (some s) (.ext lvs))
    (hc : Ordered (some s) ub (.ext cvs)) :
    fuseLeft (V1 ++ [s]) (C1 ++ .ext lvs :: .ext cvs :: []) (C1.length + 1) =
      (V1, C1 ++ [.ext (lvs ++ cvs)]) ∧
    OrdSeq lb ub V1 (C1 ++ [.ext (lvs ++ cvs)]) := by
  have hV1len : V1.length = C1.length := (ordSeqL_length V1 C1 lb ub mb2 hL).symm
  rw [Ordered] at hln hc
  have hmerged : Ordered mb2 ub (.ext (lvs ++ cvs)) := by
    rw [Ordered]
    constructor
    · refine List.pairwise_append.mpr ⟨hln.1, hc.1, ?_⟩
      intro x hx y hy
      exact lt_of_lt_of_le ((hln.2 x hx).2 s (mem_some_self s))
        ((hc.2 y hy).1 s (mem_some_self s))
    · intro k hk
      rcases List.mem_append.mp hk with hk | hk
      · exact ⟨(hln.2 k hk).1,
          fun b hb => lt_trans ((hln.2 k hk).2 s (mem_some_self s)) (hsepS.2 b hb)⟩
      · exact ⟨fun a ha => le_trans (le_of_lt (hsepS.1 a ha))
            ((hc.2 k hk).1 s (mem_some_self s)), (hc.2 k hk).2⟩
  constructor
  · simp only [fuseLeft]
    rw [if_pos (show C1.length + 1 = (V1 ++ [s]).length by simp [hV1len])]
    rw [Nat.add_sub_cancel]
    rw [← hV1len, eraseIdx_append_length V1 s [], hV1len]
    rw [getD_append_length, getD_append_length_succ]
    simp only
    rw [set_append_length C1 _ _ _, eraseIdx_append_length_succ C1 _ _ []]
    rw [List.append_nil]
  · have h9 := ordSeqL_comp V1 C1 lb ub mb2 [] [.ext (lvs ++ cvs)] hL
      (by rw [OrdSeq]; exact hmerged)
    simpa using h9

/-- Fusing the last (internal) child into its left sibling (merge lines
430-443, 444-460), pulling the last parent separator down between the runs;
only reachable with `pos = node_size`. -/
theorem fuseLeftInt_spec {lb ub mb2 : Option Int}
    {V1 : List Int} {s : Int} {C1 : List Node}
    {lvs cvs : List Int} {lcs ccs : List Node}
    (hL : OrdSeqL lb ub mb2 V1 C1)
    (hsepS : OSep mb2 ub s)
    (hln : Ordered mb2 (some s) (.intl lvs lcs))
    (hc : Ordered (some s) ub (.intl cvs ccs)) :
    fuseLeft (V1 ++ [s]) (C1 ++ .intl lvs lcs :: .intl cvs ccs :: []) (C1.length + 1) =
      (V1, C1 ++ [.intl (lvs ++ s :: cvs) (lcs ++ ccs)]) ∧
    OrdSeq lb ub V1 (C1 ++ [.intl (lvs ++ s :: cvs) (lcs ++ ccs)]) := by
  have hV1len : V1.length = C1.length := (ordSeqL_length V1 C1 lb ub mb2 hL).symm
  rw [Ordered] at hln hc
  have hmerged : Ordered mb2 ub (.intl (lvs ++ s :: cvs) (lcs ++ ccs)) := by
    rw [Ordered]
    exact ordSeq_fuse lvs lcs mb2 s ub cvs ccs hln hsepS.1 hsepS.2 hc
  constructor
  · simp only [fuseLeft]
    rw [if_pos (show C1.length + 1 = (V1 ++ [s]).length by simp [hV1len])]
    rw [Nat.add_sub_cancel]
    rw [← hV1len, eraseIdx_append_length V1 s [], hV1len]
    rw [getD_append_length, getD_append_length_succ]
    simp only
    rw [← hV1len, getD_append_length V1 s [] 0, hV1len]
    rw [set_append_length C1 _ _ _, eraseIdx_append_length_succ C1 _ _ []]
    rw [List.append_nil]
  · have h9 := ordSeqL_comp V1 C1 lb ub mb2 [] [.intl (lvs ++ s :: cvs) (lcs ++ ccs)] hL
      (by rw [OrdSeq]; exact hmerged)
    simpa using h9

/-! ### Assembling the merge master lemma -/

theorem getD_mem_any {α : Type} {l : List α} {n : Nat} (d : α) (hn : n < l.length) :
    l.getD n d ∈ l := by
  rw [List.getD_eq_getElem _ _ hn]
  exact List.getElem_mem _

theorem drop_getD_cons {α : Type} {l : List α} {pos : Nat} (d : α) (h : pos < l.length) :
    l.drop pos = l.getD pos d :: l.drop (pos + 1) := by
  rw [List.getD_eq_getElem _ _ h, ← List.drop_eq_getElem_cons]

theorem drop_append_length_succ {α : Type} (C1 : List α) (x y : α) (C2 : List α) :
    (C1 ++ x :: y :: C2).drop (C1.length + 1) = y :: C2 := by
  rw [show C1 ++ x :: y :: C2 = (C1 ++ [x]) ++ y :: C2 by simp,
      show C1.length + 1 = (C1 ++ [x]).length by simp]
  exact List.drop_left _ _

theorem drop_append_length_cons {α : Type} (C1 : List α) (x : α) (C2 : List α) :
    (C1 ++ x :: C2).drop (C1.length + 1) = C2 := by
  rw [show C1 ++ x :: C2 = (C1 ++ [x]) ++ C2 by simp,
      show C1.length + 1 = (C1 ++ [x]).length by simp]
  exact List.drop_left _ _

theorem getD_take_eq {α : Type} {l : List α} {i n : Nat} (d : α) (hi : i < n)
    (hn : n ≤ l.length) : (l.take n).getD i d = l.getD i d := by
  rw [List.getD_eq_getElem _ _ (by rw [List.length_take]; omega),
      List.getD_eq_getElem _ _ (by omega), List.getElem_take]

theorem forall_mem_build2 {P : Node → Prop} {C1 C2 : List Node} {a2 b2 : Node}
    (h1 : ∀ c ∈ C1, P c) (h2 : P a2) (h3 : P b2) (h4 : ∀ c ∈ C2, P c) :
    ∀ c ∈ C1 ++ a2 :: b2 :: C2, P c := by
  intro c hc
  rcases List.mem_append.mp hc with hc | hc
  · exact h1 c hc
  rcases List.mem_cons.mp hc with hc | hc
  · exact hc ▸ h2
  rcases List.mem_cons.mp hc with hc | hc
  · exact hc ▸ h3
  · exact h4 c hc

theorem forall_mem_build1 {P : Node → Prop} {C1 C2 : List Node} {m : Node}
    (h1 : ∀ c ∈ C1, P c) (h2 : P m) (h4 : ∀ c ∈ C2, P c) :
    ∀ c ∈ C1 ++ m :: C2, P c := by
  intro c hc
  rcases List.mem_append.mp hc with hc | hc
  · exact h1 c hc
  rcases List.mem_cons.mp hc with hc | hc
  · exact hc ▸ h2
  · exact h4 c hc

/-- Everything `remove_elem` needs from a finished `merge(pos)` call: the
stored keys are unchanged, ordering holds in the original window, every child
is balanced at the original height and within fill bounds, and at most one
separator disappeared. -/
def MergeOK (N h2 vslen : Nat) (lb ub : Option Int) (cs : List Node)
    (r : List Int × List Node) : Prop :=
  keysList r.2 = keysList cs ∧ OrdSeq lb ub r.1 r.2 ∧
  (∀ c ∈ r.2, Bal h2 c) ∧ (∀ c ∈ r.2, FillB N c) ∧
  (r.1.length + 1 = vslen ∨ r.1.length = vslen)


theorem list_decomp_two {α : Type} (l : List α) (pos : Nat) (d : α) (h : pos + 1 < l.length) :
    l = l.take pos ++ l.getD pos d :: l.getD (pos + 1) d :: l.drop (pos + 2) := by
  conv_lhs => rw [← List.take_append_drop pos l]
  rw [drop_getD_cons d (show pos < l.length by omega)]
  rw [drop_getD_cons d h]

/-- Decomposition of the parent at the underfull child's position, for the
right-sibling operations of `merge`. -/
theorem merge_decomp_right {vs : List Int} {cs : List Node} {lb ub : Option Int}
    {pos : Nat} (hseq : OrdSeq lb ub vs cs) (hplt : pos < vs.length) :
    ∃ (V1 : List Int) (s : Int) (V2 : List Int) (C1 : List Node) (cc sib : Node)
      (C2 : List Node) (mb : Option Int),
      vs = V1 ++ s :: V2 ∧ cs = C1 ++ cc :: sib :: C2 ∧
      C1.length = pos ∧ V1.length = pos ∧
      cc = cs.getD pos (.ext []) ∧ sib = cs.getD (pos + 1) (.ext []) ∧
      OrdSeqL lb ub mb V1 C1 ∧ OrdSeq mb ub (s :: V2) (cc :: sib :: C2) := by
  have hcl : cs.length = vs.length + 1 := ordSeq_length vs cs lb ub hseq
  obtain ⟨mb, hL, hrest⟩ := ordSeq_decomp pos vs cs lb ub hseq (by omega)
  have hdv := drop_getD_cons (0 : Int) (show pos < vs.length by omega)
  have hdc := drop_getD_cons (Node.ext []) (show pos < cs.length by omega)
  rw [drop_getD_cons (Node.ext []) (show pos + 1 < cs.length by omega)] at hdc
  rw [hdv, hdc] at hrest
  have hvq := list_decomp_at vs pos 0 (by omega)
  have hcq := list_decomp_two cs pos (.ext []) (by omega)
  exact ⟨vs.take pos, vs.getD pos 0, vs.drop (pos + 1), cs.take pos,
    cs.getD pos (.ext []), cs.getD (pos + 1) (.ext []), cs.drop (pos + 2), mb,
    hvq, hcq, length_take_of_lt (by omega), length_take_of_lt (by omega),
    rfl, rfl, hL, hrest⟩

/-- Decomposition of the parent at the position left of the underfull child,
for the left-sibling operations of `merge`. -/
theorem merge_decomp_left {vs : List Int} {cs : List Node} {lb ub : Option Int}
    {pos : Nat} (hseq : OrdSeq lb ub vs cs) (hp1 : 1 ≤ pos) (hple : pos ≤ vs.length)
    (hv1 : 1 ≤ vs.length) :
    ∃ (V1 : List Int) (s : Int) (V2 : List Int) (C1 : List Node) (ln cc : Node)
      (C2 : List Node) (mb2 : Option Int),
      vs = V1 ++ s :: V2 ∧ cs = C1 ++ ln :: cc :: C2 ∧
      C1.length = pos - 1 ∧ V1.length = pos - 1 ∧
      ln = cs.getD (pos - 1) (.ext []) ∧ cc = cs.getD pos (.ext []) ∧
      V2 = vs.drop pos ∧ C2 = cs.drop (pos + 1) ∧
      OrdSeqL lb ub mb2 V1 C1 ∧ OrdSeq mb2 ub (s :: V2) (ln :: cc :: C2) := by
  have hcl : cs.length = vs.length + 1 := ordSeq_length vs cs lb ub hseq
  obtain ⟨mb2, hL, hrest⟩ := ordSeq_decomp (pos - 1) vs cs lb ub hseq (by omega)
  have hdv := drop_getD_cons (0 : Int) (show pos - 1 < vs.length by omega)
  rw [show pos - 1 + 1 = pos by omega] at hdv
  have hdc := drop_getD_cons (Node.ext []) (show pos - 1 < cs.length by omega)
  rw [show pos - 1 + 1 = pos by omega] at hdc
  rw [drop_getD_cons (Node.ext []) (show pos < cs.length by omega)] at hdc
  rw [hdv, hdc] at hrest
  have hvq := list_decomp_at vs (pos - 1) 0 (by omega)
  rw [show pos - 1 + 1 = pos by omega] at hvq
  have hcq := list_decomp_at cs (pos - 1) (.ext []) (by omega)
  rw [show pos - 1 + 1 = pos by omega] at hcq
  rw [drop_getD_cons (Node.ext []) (show pos < cs.length by omega)] at hcq
  exact ⟨vs.take (pos - 1), vs.getD (pos - 1) 0, vs.drop pos, cs.take (pos - 1),
    cs.getD (pos - 1) (.ext []), cs.getD pos (.ext []), cs.drop (pos + 1), mb2,
    hvq, hcq, length_take_of_lt (by omega), length_take_of_lt (by omega),
    rfl, rfl, rfl, rfl, hL, hrest⟩

/-- `InternalNode::merge(pos)` master lemma: called on a parent whose child at
`pos` just became undersize while all other children are within bounds, it
restores the fill invariant, preserves the stored keys and the ordering, keeps
every child balanced at its height, and removes at most one separator;
the recovery split of lines 461-465/521-524 is never taken. -/
theorem mergeAt_spec {N : Nat} (hN : 1 ≤ N) (h2 : Nat) (vs : List Int) (cs : List Node)
    (lb ub : Option Int) (pos : Nat)
    (hv1 : 1 ≤ vs.length) (hpos : pos ≤ vs.length)
    (hseq : OrdSeq lb ub vs cs)
    (hbal : ∀ c ∈ cs, Bal h2 c)
    (hfillL : ∀ c ∈ cs.take pos, FillB N c)
    (hfillR : ∀ c ∈ cs.drop (pos + 1), FillB N c)
    (hunder : UnderFill N (cs.getD pos (.ext []))) :
    MergeOK N h2 vs.length lb ub cs (mergeAt N vs cs pos) := by
  have hcl : cs.length = vs.length + 1 := ordSeq_length vs cs lb ub hseq
  by_cases hsr : canStealRight N vs cs pos
  · -- redistribute from the right sibling
    have hplt : pos < vs.length := by
      rcases hsr.1 with h0 | h0
      · omega
      · exact h0.2
    obtain ⟨V1, s, V2, C1, cc, sib, C2, mb, hvsq, hcsq, hC1, hV1, hccq, hsibq, hL, hrest⟩ :=
      merge_decomp_right hseq hplt
    have hsibsz : sib.size > N := by
      have h9 := hsr.2
      rw [← hsibq] at h9
      simpa [minSize] using h9
    have hundercc : UnderFill N cc := by rw [hccq]; exact hunder
    have hfC1 : ∀ c ∈ C1, FillB N c := by
      rw [hcsq, ← hC1, take_append_length] at hfillL
      exact hfillL
    have hfR : ∀ c ∈ sib :: C2, FillB N c := by
      rw [hcsq, ← hC1, drop_append_length_succ] at hfillR
      exact hfillR
    have hfsib : FillB N sib := hfR sib (by simp)
    have hfC2 : ∀ c ∈ C2, FillB N c := fun c hc => hfR c (by simp [hc])
    rw [hcsq] at hbal
    have hbcc : Bal h2 cc := hbal cc (by simp)
    have hbsib : Bal h2 sib := hbal sib (by simp)
    have hbC1 : ∀ c ∈ C1, Bal h2 c := fun c hc => hbal c (by simp [hc])
    have hbC2 : ∀ c ∈ C2, Bal h2 c := fun c hc => hbal c (by simp [hc])
    rw [hvsq, hcsq, ← hC1] at hsr ⊢
    cases h2 with
    | zero =>
        obtain ⟨cvs, hcve⟩ := bal_zero_ext hbcc
        obtain ⟨rvs, hrve⟩ := bal_zero_ext hbsib
        subst hcve hrve
        have hrlen : rvs.length > N := by simpa [Node.size] using hsibsz
        have hclen : cvs.length + 1 = N := by simpa [UnderFill] using hundercc
        obtain ⟨hfs1, hfs2⟩ := fillB_size hfsib
        simp only [Node.size] at hfs1 hfs2
        simp only [mergeAt]
        rw [getD_append_length]
        simp only
        rw [if_pos hsr]
        obtain ⟨heq, hord⟩ := stealRightExt_spec hN hL hrest hrlen
        rw [heq]
        rw [MergeOK]
        have hrvs_eq : rvs = rvs.getD 0 0 :: rvs.drop 1 := by
          have h9 := drop_getD_cons (0 : Int) (show 0 < rvs.length by omega)
          rwa [List.drop_zero] at h9
        refine ⟨?_, hord, ?_, ?_, ?_⟩
        · conv_rhs => rw [hrvs_eq]
          simp [keysList_append, keysList, Node.keys]
        · exact forall_mem_build2 hbC1 (Bal.ext _) (Bal.ext _) hbC2
        · refine forall_mem_build2 hfC1 ?_ ?_ hfC2
          · exact FillB.ext _ (by simp; omega) (by simp; omega)
          · exact FillB.ext _ (by simp; omega) (by simp; omega)
        · right
          simp
    | succ h =>
        obtain ⟨cvs, ccs, hcve, hccl, hccb⟩ := bal_succ_intl hbcc
        obtain ⟨rvs, rcs, hrve, hrcl, hrcb⟩ := bal_succ_intl hbsib
        subst hcve hrve
        have hrlen : rvs.length > N := by simpa [Node.size] using hsibsz
        have hclen : cvs.length + 1 = N ∧ ∀ c ∈ ccs, FillB N c := by
          simpa [UnderFill] using hundercc
        obtain ⟨hclen1, hccF⟩ := hclen
        obtain ⟨r0, rtail, rfl⟩ : ∃ r0 rtail, rvs = r0 :: rtail := by
          cases rvs with
          | nil => simp at hrlen
          | cons a b => exact ⟨a, b, rfl⟩
        obtain ⟨rc0, rcrest, rfl⟩ : ∃ rc0 rcrest, rcs = rc0 :: rcrest := by
          cases rcs with
          | nil => simp at hrcl
          | cons a b => exact ⟨a, b, rfl⟩
        obtain ⟨hfs1, hfs2⟩ := fillB_size hfsib
        simp only [Node.size] at hfs1 hfs2
        simp only [mergeAt]
        rw [getD_append_length]
        simp only
        rw [if_pos hsr]
        obtain ⟨heq, hord⟩ := stealRightInt_spec hL hrest
        rw [heq]
        rw [MergeOK]
        refine ⟨?_, hord, ?_, ?_, ?_⟩
        · simp [keysList_append, keysList, Node.keys]
        · refine forall_mem_build2 hbC1 ?_ ?_ hbC2
          · refine Bal.intl h (cvs ++ [s]) (ccs ++ [rc0]) (by simp; omega) ?_
            intro c hc
            rcases List.mem_append.mp hc with hc | hc
            · exact hccb c hc
            · rw [List.mem_singleton] at hc
              exact hc ▸ hrcb rc0 (by simp)
          · refine Bal.intl h rtail rcrest (by simp at hrcl ⊢; omega) ?_
            intro c hc
            exact hrcb c (by simp [hc])
        · refine forall_mem_build2 hfC1 ?_ ?_ hfC2
          · refine FillB.intl _ _ (by simp; omega) (by simp; omega) ?_
            intro c hc
            rcases List.mem_append.mp hc with hc | hc
            · exact hccF c hc
            · rw [List.mem_singleton] at hc
              rw [hc]
              cases hfsib with
              | intl _ _ ha hb h3 => exact h3 rc0 (by simp)
          · cases hfsib with
            | intl _ _ ha hb h3 =>
                refine FillB.intl _ _ (by simp at hrlen ⊢; omega)
                  (by simp at hb ⊢; omega) ?_
                intro c hc
                exact h3 c (by simp [hc])
        · right
          simp
  by_cases hsl : canStealLeft N vs cs pos
  · -- redistribute from the left sibling
    have hp1 : 1 ≤ pos := by
      rcases hsl.1 with h0 | h0
      · omega
      · omega
    obtain ⟨V1, s, V2, C1, ln, cc, C2, mb2, hvsq, hcsq, hC1, hV1, hlnq, hccq,
      hV2q, hC2q, hL, hrest⟩ := merge_decomp_left hseq hp1 hpos hv1
    have hlnsz : ln.size > N := by
      have h9 := hsl.2
      rw [← hlnq] at h9
      simpa [minSize] using h9
    have hundercc : UnderFill N cc := by rw [hccq]; exact hunder
    have hposC : pos = C1.length + 1 := by omega
    have htake : cs.take pos = C1 ++ [ln] := by
      rw [hcsq, hposC, show C1 ++ ln :: cc :: C2 = (C1 ++ [ln]) ++ cc :: C2 by simp,
          show C1.length + 1 = (C1 ++ [ln]).length by simp, take_append_length]
    have hfC1ln : ∀ c ∈ C1 ++ [ln], FillB N c := by
      rw [htake] at hfillL
      exact hfillL
    have hfC1 : ∀ c ∈ C1, FillB N c := fun c hc => hfC1ln c (by simp [hc])
    have hfln : FillB N ln := hfC1ln ln (by simp)
    have hfC2 : ∀ c ∈ C2, FillB N c := by
      rw [hC2q]
      exact hfillR
    rw [hcsq] at hbal
    have hbln : Bal h2 ln := hbal ln (by simp)
    have hbcc : Bal h2 cc := hbal cc (by simp)
    have hbC1 : ∀ c ∈ C1, Bal h2 c := fun c hc => hbal c (by simp [hc])
    have hbC2 : ∀ c ∈ C2, Bal h2 c := fun c hc => hbal c (by simp [hc])
    rw [OrdSeq] at hrest
    obtain ⟨hsepS, hlnO, hseq2⟩ := hrest
    rw [hvsq, hcsq, hposC] at hsr hsl ⊢
    cases h2 with
    | zero =>
        obtain ⟨lvs, hlve⟩ := bal_zero_ext hbln
        obtain ⟨cvs, hcve⟩ := bal_zero_ext hbcc
        subst hlve hcve
        have hllen : lvs.length > N := by simpa [Node.size] using hlnsz
        have hclen : cvs.length + 1 = N := by simpa [UnderFill] using hundercc
        obtain ⟨hfs1, hfs2⟩ := fillB_size hfln
        simp only [Node.size] at hfs1 hfs2
        simp only [mergeAt]
        rw [getD_append_length_succ]
        simp only
        rw [if_neg hsr, if_pos hsl]
        obtain ⟨heq, hord⟩ := stealLeftExt_spec hN hL hsepS hlnO hseq2 hllen
        rw [heq]
        rw [MergeOK]
        have hlvs_eq : lvs.take (lvs.length - 1) ++ [lvs.getD (lvs.length - 1) 0] = lvs := by
          have h9 := drop_getD_cons (0 : Int) (show lvs.length - 1 < lvs.length by omega)
          have h10 : lvs.drop (lvs.length - 1 + 1) = [] := List.drop_eq_nil_of_le (by omega)
          rw [h10] at h9
          calc lvs.take (lvs.length - 1) ++ [lvs.getD (lvs.length - 1) 0]
              = lvs.take (lvs.length - 1) ++ lvs.drop (lvs.length - 1) := by rw [h9]
            _ = lvs := List.take_append_drop _ _
        refine ⟨?_, hord, ?_, ?_, ?_⟩
        · simp only [keysList_append, keysList, Node.keys]
          conv_rhs => rw [← hlvs_eq]
          simp
        · exact forall_mem_build2 hbC1 (Bal.ext _) (Bal.ext _) hbC2
        · refine forall_mem_build2 hfC1 ?_ ?_ hfC2
          · exact FillB.ext _ (by simp; omega) (by simp; omega)
          · exact FillB.ext _ (by simp; omega) (by simp; omega)
        · right
          simp
    | succ h =>
        obtain ⟨lvs, lcs, hlve, hlcl, hlcb⟩ := bal_succ_intl hbln
        obtain ⟨cvs, ccs, hcve, hccl, hccb⟩ := bal_succ_intl hbcc
        subst hlve hcve
        have hllen : lvs.length > N := by simpa [Node.size] using hlnsz
        have hclen : cvs.length + 1 = N ∧ ∀ c ∈ ccs, FillB N c := by
          simpa [UnderFill] using hundercc
        obtain ⟨hclen1, hccF⟩ := hclen
        obtain ⟨lvs0, ls, rfl⟩ : ∃ lvs0 ls, lvs = lvs0 ++ [ls] := by
          rcases List.eq_nil_or_concat lvs with h9 | ⟨L, b, h9⟩
          · rw [h9] at hllen
            simp at hllen
          · exact ⟨L, b, by rw [h9, List.concat_eq_append]⟩
        obtain ⟨lcs0, lcl, rfl⟩ : ∃ lcs0 lcl, lcs = lcs0 ++ [lcl] := by
          rcases List.eq_nil_or_concat lcs with h9 | ⟨L, b, h9⟩
          · rw [h9] at hlcl
            simp at hlcl
          · exact ⟨L, b, by rw [h9, List.concat_eq_append]⟩
        obtain ⟨hfs1, hfs2⟩ := fillB_size hfln
        simp only [Node.size] at hfs1 hfs2
        simp only [mergeAt]
        rw [getD_append_length_succ]
        simp only
        rw [if_neg hsr, if_pos hsl]
        obtain ⟨heq, hord⟩ := stealLeftInt_spec hL hsepS hlnO hseq2
        rw [heq]
        rw [MergeOK]
        refine ⟨?_, hord, ?_, ?_, ?_⟩
        · simp [keysList_append, keysList, Node.keys]
        · refine forall_mem_build2 hbC1 ?_ ?_ hbC2
          · refine Bal.intl h lvs0 lcs0 (by simp at hlcl ⊢; omega) ?_
            intro c hc
            exact hlcb c (by simp [hc])
          · refine Bal.intl h (s :: cvs) (lcl :: ccs) (by simp at hccl ⊢; omega) ?_
            intro c hc
            rcases List.mem_cons.mp hc with hc | hc
            · exact hc ▸ hlcb lcl (by simp)
            · exact hccb c hc
        · refine forall_mem_build2 hfC1 ?_ ?_ hfC2
          · cases hfln with
            | intl _ _ ha hb h3 =>
                refine FillB.intl _ _ (by simp at hllen ⊢; omega)
                  (by simp at hb ⊢; omega) ?_
                intro c hc
                exact h3 c (by simp [hc])
          · refine FillB.intl _ _ (by simp; omega) (by simp; omega) ?_
            intro c hc
            rcases List.mem_cons.mp hc with hc | hc
            · rw [hc]
              cases hfln with
              | intl _ _ ha hb h3 => exact h3 lcl (by simp)
            · exact hccF c hc
        · right
          simp
  -- no redistribution possible: fuse
  cases hdir : mergeDir vs cs pos with
  | LEFT =>
      have hpe : pos = vs.length := by
        by_contra hne
        have hplt : pos < vs.length := by omega
        have hP : pos = vs.length ∨
            (pos ≠ 0 ∧ (cs.getD (pos - 1) (.ext [])).size <
              (cs.getD (pos + 1) (.ext [])).size) := by
          by_contra hnp
          rw [mergeDir, if_neg hnp] at hdir
          simp at hdir
        rcases hP with h9 | ⟨hp0, hlr⟩
        · omega
        have hrle : ¬((cs.getD (pos + 1) (.ext [])).size > minSize N) :=
          fun hgt => hsr ⟨Or.inr ⟨hdir, hplt⟩, hgt⟩
        have hmem : cs.getD (pos - 1) (.ext []) ∈ cs.take pos := by
          rw [← getD_take_eq (Node.ext []) (show pos - 1 < pos by omega)
            (show pos ≤ cs.length by omega)]
          exact getD_mem_any _ (by rw [List.length_take]; omega)
        have hf9 := (fillB_size (hfillL _ hmem)).1
        simp only [minSize] at hrle
        omega
      have hp1 : 1 ≤ pos := by omega
      obtain ⟨V1, s, V2, C1, ln, cc, C2, mb2, hvsq, hcsq, hC1, hV1, hlnq, hccq,
        hV2q, hC2q, hL, hrest⟩ := merge_decomp_left hseq hp1 hpos hv1
      have hV2nil : V2 = [] := by
        rw [hV2q]
        exact List.drop_eq_nil_of_le (by omega)
      have hC2nil : C2 = [] := by
        rw [hC2q]
        exact List.drop_eq_nil_of_le (by omega)
      subst hV2nil hC2nil
      have hlle : ¬(ln.size > N) := by
        intro hgt
        refine hsl ⟨Or.inl hpe, ?_⟩
        rw [← hlnq]
        simpa [minSize] using hgt
      have hundercc : UnderFill N cc := by rw [hccq]; exact hunder
      have hposC : pos = C1.length + 1 := by omega
      have htake : cs.take pos = C1 ++ [ln] := by
        rw [hcsq, hposC, show C1 ++ ln :: cc :: [] = (C1 ++ [ln]) ++ cc :: [] by simp,
            show C1.length + 1 = (C1 ++ [ln]).length by simp, take_append_length]
      have hfC1ln : ∀ c ∈ C1 ++ [ln], FillB N c := by
        rw [htake] at hfillL
        exact hfillL
      have hfC1 : ∀ c ∈ C1, FillB N c := fun c hc => hfC1ln c (by simp [hc])
      have hfln : FillB N ln := hfC1ln ln (by simp)
      rw [hcsq] at hbal
      have hbln : Bal h2 ln := hbal ln (by simp)
      have hbcc : Bal h2 cc := hbal cc (by simp)
      have hbC1 : ∀ c ∈ C1, Bal h2 c := fun c hc => hbal c (by simp [hc])
      rw [OrdSeq] at hrest
      obtain ⟨hsepS, hlnO, hseq2⟩ := hrest
      rw [OrdSeq] at hseq2
      rw [hvsq, hcsq, hposC] at hsr hsl hdir ⊢
      cases h2 with
      | zero =>
          obtain ⟨lvs, hlve⟩ := bal_zero_ext hbln
          obtain ⟨cvs, hcve⟩ := bal_zero_ext hbcc
          subst hlve hcve
          have hlleE : lvs.length ≤ N := by
            simp only [Node.size] at hlle
            omega
          have hclen : cvs.length + 1 = N := by simpa [UnderFill] using hundercc
          obtain ⟨hfs1, hfs2⟩ := fillB_size hfln
          simp only [Node.size] at hfs1 hfs2
          simp only [mergeAt]
          rw [getD_append_length_succ]
          simp only
          rw [if_neg hsr, if_neg hsl]
          rw [hdir]
          simp only
          obtain ⟨heq, hord⟩ := fuseLeftExt_spec hL hsepS hlnO hseq2
          rw [heq]
          simp only
          rw [Nat.add_sub_cancel, getD_append_length]
          rw [if_neg (by simp only [Node.size, maxSize, List.length_append]; omega)]
          rw [MergeOK]
          refine ⟨?_, hord, ?_, ?_, ?_⟩
          · simp [keysList_append, keysList, Node.keys]
          · exact forall_mem_build1 hbC1 (Bal.ext _) (by simp)
          · refine forall_mem_build1 hfC1 ?_ (by simp)
            exact FillB.ext _ (by simp; omega) (by simp; omega)
          · left
            simp
      | succ h =>
          obtain ⟨lvs, lcs, hlve, hlcl, hlcb⟩ := bal_succ_intl hbln
          obtain ⟨cvs, ccs, hcve, hccl, hccb⟩ := bal_succ_intl hbcc
          subst hlve hcve
          have hlleE : lvs.length ≤ N := by
            simp only [Node.size] at hlle
            omega
          have hclen : cvs.length + 1 = N ∧ ∀ c ∈ ccs, FillB N c := by
            simpa [UnderFill] using hundercc
          obtain ⟨hclen1, hccF⟩ := hclen
          obtain ⟨hfs1, hfs2⟩ := fillB_size hfln
          simp only [Node.size] at hfs1 hfs2
          simp only [mergeAt]
          rw [getD_append_length_succ]
          simp only
          rw [if_neg hsr, if_neg hsl]
          rw [hdir]
          simp only
          obtain ⟨heq, hord⟩ := fuseLeftInt_spec hL hsepS hlnO hseq2
          rw [heq]
          simp only
          rw [Nat.add_sub_cancel, getD_append_length]
          rw [if_neg (by
            simp only [Node.size, maxSize, List.length_append, List.length_cons]
            omega)]
          rw [MergeOK]
          refine ⟨?_, hord, ?_, ?_, ?_⟩
          · simp [keysList_append, keysList, Node.keys]
          · refine forall_mem_build1 hbC1 ?_ (by simp)
            refine Bal.intl h _ _ (by simp at hlcl hccl ⊢; omega) ?_
            intro c hc
            rcases List.mem_append.mp hc with hc | hc
            · exact hlcb c hc
            · exact hccb c hc
          · refine forall_mem_build1 hfC1 ?_ (by simp)
            refine FillB.intl _ _ (by simp; omega) (by simp; omega) ?_
            intro c hc
            rcases List.mem_append.mp hc with hc | hc
            · cases hfln with
              | intl _ _ ha hb h3 => exact h3 c hc
            · exact hccF c hc
          · left
            simp
  | RIGHT =>
      have hP : ¬(pos = vs.length ∨
          (pos ≠ 0 ∧ (cs.getD (pos - 1) (.ext [])).size <
            (cs.getD (pos + 1) (.ext [])).size)) := by
        intro hp
        rw [mergeDir, if_pos hp] at hdir
        simp at hdir
      have hplt : pos < vs.length := by
        have : pos ≠ vs.length := fun h9 => hP (Or.inl h9)
        omega
      have hrleN : (cs.getD (pos + 1) (.ext [])).size ≤ N := by
        rcases Nat.eq_zero_or_pos pos with hp0 | hp0
        · by_contra hgt
          exact hsr ⟨Or.inl hp0, by simp only [minSize]; omega⟩
        · have hlr : ¬((cs.getD (pos - 1) (.ext [])).size <
              (cs.getD (pos + 1) (.ext [])).size) :=
            fun h9 => hP (Or.inr ⟨by omega, h9⟩)
          have hlle : ¬((cs.getD (pos - 1) (.ext [])).size > minSize N) :=
            fun hgt => hsl ⟨Or.inr ⟨hdir, hp0⟩, hgt⟩
          simp only [minSize] at hlle
          omega
      obtain ⟨V1, s, V2, C1, cc, sib, C2, mb, hvsq, hcsq, hC1, hV1, hccq, hsibq, hL, hrest⟩ :=
        merge_decomp_right hseq hplt
      have hsible : sib.size ≤ N := by
        rw [hsibq]
        exact hrleN
      have hundercc : UnderFill N cc := by rw [hccq]; exact hunder
      have hfC1 : ∀ c ∈ C1, FillB N c := by
        rw [hcsq, ← hC1, take_append_length] at hfillL
        exact hfillL
      have hfR : ∀ c ∈ sib :: C2, FillB N c := by
        rw [hcsq, ← hC1, drop_append_length_succ] at hfillR
        exact hfillR
      have hfsib : FillB N sib := hfR sib (by simp)
      have hfC2 : ∀ c ∈ C2, FillB N c := fun c hc => hfR c (by simp [hc])
      rw [hcsq] at hbal
      have hbcc : Bal h2 cc := hbal cc (by simp)
      have hbsib : Bal h2 sib := hbal sib (by simp)
      have hbC1 : ∀ c ∈ C1, Bal h2 c := fun c hc => hbal c (by simp [hc])
      have hbC2 : ∀ c ∈ C2, Bal h2 c := fun c hc => hbal c (by simp [hc])
      rw [hvsq, hcsq, ← hC1] at hsr hsl hdir ⊢
      cases h2 with
      | zero =>
          obtain ⟨cvs, hcve⟩ := bal_zero_ext hbcc
          obtain ⟨rvs, hrve⟩ := bal_zero_ext hbsib
          subst hcve hrve
          have hrlenle : rvs.length ≤ N := by simpa [Node.size] using hsible
          have hclen : cvs.length + 1 = N := by simpa [UnderFill] using hundercc
          obtain ⟨hfs1, hfs2⟩ := fillB_size hfsib
          simp only [Node.size] at hfs1 hfs2
          simp only [mergeAt]
          rw [getD_append_length]
          simp only
          rw [if_neg hsr, if_neg hsl]
          rw [hdir]
          simp only
          obtain ⟨heq, hord⟩ := fuseRightExt_spec hL hrest
          rw [heq]
          simp only
          rw [getD_append_length]
          rw [if_neg (by simp only [Node.size, maxSize, List.length_append]; omega)]
          rw [MergeOK]
          refine ⟨?_, hord, ?_, ?_, ?_⟩
          · simp [keysList_append, keysList, Node.keys]
          · exact forall_mem_build1 hbC1 (Bal.ext _) hbC2
          · refine forall_mem_build1 hfC1 ?_ hfC2
            exact FillB.ext _ (by simp; omega) (by simp; omega)
          · left
            simp
            omega
      | succ h =>
          obtain ⟨cvs, ccs, hcve, hccl, hccb⟩ := bal_succ_intl hbcc
          obtain ⟨rvs, rcs, hrve, hrcl, hrcb⟩ := bal_succ_intl hbsib
          subst hcve hrve
          have hrlenle : rvs.length ≤ N := by simpa [Node.size] using hsible
          have hclen : cvs.length + 1 = N ∧ ∀ c ∈ ccs, FillB N c := by
            simpa [UnderFill] using hundercc
          obtain ⟨hclen1, hccF⟩ := hclen
          obtain ⟨hfs1, hfs2⟩ := fillB_size hfsib
          simp only [Node.size] at hfs1 hfs2
          simp only [mergeAt]
          rw [getD_append_length]
          simp only
          rw [if_neg hsr, if_neg hsl]
          rw [hdir]
          simp only
          obtain ⟨heq, hord⟩ := fuseRightInt_spec hL hrest
          rw [heq]
          simp only
          rw [getD_append_length]
          rw [if_neg (by
            simp only [Node.size, maxSize, List.length_append, List.length_cons]
            omega)]
          rw [MergeOK]
          refine ⟨?_, hord, ?_, ?_, ?_⟩
          · simp [keysList_append, keysList, Node.keys]
          · refine forall_mem_build1 hbC1 ?_ hbC2
            refine Bal.intl h _ _ (by simp at hccl hrcl ⊢; omega) ?_
            intro c hc
            rcases List.mem_append.mp hc with hc | hc
            · exact hccb c hc
            · exact hrcb c hc
          · refine forall_mem_build1 hfC1 ?_ hfC2
            refine FillB.intl _ _ (by simp; omega) (by simp; omega) ?_
            intro c hc
            rcases List.mem_append.mp hc with hc | hc
            · exact hccF c hc
            · cases hfsib with
              | intl _ _ ha hb h3 => exact h3 c hc
          · left
            simp
            omega

/-! ### The erase master lemma -/

theorem removeChild_eq (N : Nat) (k : Int) : ∀ (C1 : List Node) (c : Node) (C2 : List Node),
    removeChild N (C1 ++ c :: C2) C1.length k =
      (C1 ++ (removeElem N c k).1 :: C2, (removeElem N c k).2) := by
  intro C1
  induction C1 with
  | nil => intro c C2; simp [removeChild]
  | cons a C1 ih => intro c C2; simp [removeChild, ih]

/-- Master specification of `Node::remove_elem`: behaviour of `removeElem` on
a balanced, ordered subtree whose children satisfy the fill invariant and
whose internal nodes are not separator-less.  NOT_EXISTENT reports a miss and
leaves the tree untouched; SUCCESS removes the key keeping the node within
bounds; MERGE removes the key leaving the node itself undersize. -/
theorem removeElem_spec (N : Nat) (hN : 1 ≤ N) :
    ∀ (hgt : Nat) (t : Node) (k : Int) (lb ub : Option Int),
    Bal hgt t → Ordered lb ub t → OKey lb ub k →
    (∀ vs2 cs2, t = .intl vs2 cs2 → 1 ≤ vs2.length) → ChildrenFill N t →
    ∀ r msg, removeElem N t k = (r, msg) →
      (msg = .NOT_EXISTENT → r = t ∧ k ∉ t.keys) ∧
      (msg = .SUCCESS → k ∈ t.keys ∧ r.keys = t.keys.erase k ∧
        Bal hgt r ∧ Ordered lb ub r ∧ ChildrenFill N r ∧
        (r.size = t.size ∨ (N ≤ r.size ∧ r.size + 1 = t.size))) ∧
      (msg = .MERGE → k ∈ t.keys ∧ r.keys = t.keys.erase k ∧
        Bal hgt r ∧ Ordered lb ub r ∧ ChildrenFill N r ∧
        r.size < N ∧ (r.size = t.size ∨ r.size + 1 = t.size)) := by
  intro hgt
  induction hgt with
  | zero =>
      intro t k lb ub hb ho hk hone hcf r msg heval
      cases hb with
      | ext vs =>
      rw [Ordered] at ho
      by_cases hmem : k ∈ vs
      · rw [removeElem] at heval
        rw [extRemoveElem_mem (N := N) ho.1 hmem] at heval
        have hlen1 : 1 ≤ vs.length := List.length_pos.mpr (by rintro rfl; simp at hmem)
        have hlerase : (vs.erase k).length + 1 = vs.length := by
          rw [List.length_erase_of_mem hmem]
          omega
        have hoerase : Ordered lb ub (.ext (vs.erase k)) := by
          rw [Ordered]
          exact ⟨sorted_erase k ho.1, fun x hx => ho.2 x (mem_of_mem_erase hx)⟩
        by_cases hmrg : vs.length - 1 < N
        · rw [if_pos hmrg] at heval
          simp only at heval
          injection heval with hr hm
          subst hm
          replace hr : r = .ext (vs.erase k) := hr.symm
          subst hr
          refine ⟨fun hx => absurd hx (by decide), fun hx => absurd hx (by decide), fun _ => ?_⟩
          refine ⟨by simpa [Node.keys] using hmem, by simp [Node.keys], Bal.ext _, hoerase,
            by rw [ChildrenFill]; trivial, ?_, ?_⟩
          · rw [Node.size]; omega
          · right
            rw [Node.size, Node.size]; omega
        · rw [if_neg hmrg] at heval
          simp only at heval
          injection heval with hr hm
          subst hm
          replace hr : r = .ext (vs.erase k) := hr.symm
          subst hr
          refine ⟨fun hx => absurd hx (by decide), fun _ => ?_, fun hx => absurd hx (by decide)⟩
          refine ⟨by simpa [Node.keys] using hmem, by simp [Node.keys], Bal.ext _, hoerase,
            by rw [ChildrenFill]; trivial, ?_⟩
          right
          constructor
          · rw [Node.size]; omega
          · rw [Node.size, Node.size]; omega
      · rw [removeElem] at heval
        rw [extRemoveElem_not_mem (N := N) ho.1 hmem] at heval
        simp only at heval
        injection heval with hr hm
        subst hm
        refine ⟨fun _ => ⟨hr.symm, by simpa [Node.keys] using hmem⟩,
          fun hx => absurd hx (by decide), fun hx => absurd hx (by decide)⟩
  | succ h ih =>
      intro t k lb ub hb ho hk hone hcf r msg heval
      cases hb with
      | intl h vs cs hlen hc =>
      rw [Ordered] at ho
      rw [ChildrenFill] at hcf
      have hvs1 : 1 ≤ vs.length := hone vs cs rfl
      have hpos : intFindPos vs k ≤ vs.length := intFindPos_le_length vs k
      have hposc : intFindPos vs k < cs.length := by omega
      obtain ⟨mb, hL, hR⟩ := ordSeq_decomp (intFindPos vs k) vs cs lb ub ho hpos
      have hdropc : cs.drop (intFindPos vs k) =
          cs[intFindPos vs k] :: cs.drop (intFindPos vs k + 1) :=
        List.drop_eq_getElem_cons hposc
      rw [hdropc] at hR
      have hvs_eq : vs = vs.take (intFindPos vs k) ++ vs.drop (intFindPos vs k) :=
        (List.take_append_drop _ vs).symm
      have hcs_eq : cs = cs.take (intFindPos vs k) ++
          cs[intFindPos vs k] :: cs.drop (intFindPos vs k + 1) := by
        conv_lhs => rw [← List.take_append_drop (intFindPos vs k) cs]
        rw [hdropc]
      have hC1len : (cs.take (intFindPos vs k)).length = intFindPos vs k := by
        rw [List.length_take]; omega
      have hcmem : cs[intFindPos vs k] ∈ cs := List.getElem_mem _
      have hfc : FillB N cs[intFindPos vs k] := hcf _ hcmem
      have hoc : Ordered mb (hdBound (vs.drop (intFindPos vs k)) ub) cs[intFindPos vs k] :=
        ordSeq_head_ordered hR
      have hkc : OKey mb (hdBound (vs.drop (intFindPos vs k)) ub) k := by
        constructor
        · intro a ha
          rcases ordSeqL_mb_cases _ _ _ _ _ hL with hmb | ⟨a2, ha2, hamem⟩
          · rw [hmb] at ha; exact hk.1 a ha
          · rw [ha2] at ha
            simp at ha
            subst ha
            exact intFindPos_take vs a2 hamem
        · intro b hb
          cases hV2 : vs.drop (intFindPos vs k) with
          | nil => rw [hV2] at hb; rw [hdBound] at hb; exact hk.2 b hb
          | cons s V2x =>
              rw [hV2] at hb
              rw [hdBound] at hb
              simp at hb
              exact hb ▸ intFindPos_drop vs s V2x hV2
      have hpre : ∀ x ∈ keysList (cs.take (intFindPos vs k)), x < k := by
        intro x hx
        have hC1ne : cs.take (intFindPos vs k) ≠ [] := by
          intro h0; rw [h0, keysList] at hx; simp at hx
        have hV1ne : vs.take (intFindPos vs k) ≠ [] := by
          intro h0
          have h1 := ordSeqL_length _ _ _ _ _ hL
          rw [h0] at h1
          simp only [List.length_nil] at h1
          exact hC1ne (List.eq_nil_of_length_eq_zero h1)
        obtain ⟨s0, hs0⟩ : ∃ s0, s0 ∈ vs.take (intFindPos vs k) := by
          match h0 : vs.take (intFindPos vs k) with
          | [] => exact absurd h0 hV1ne
          | s :: _ => exact ⟨s, by simp⟩
        obtain ⟨a, ha, hsa⟩ := ordSeqL_le_mb _ _ _ _ _ hL s0 hs0
        have hak : a ≤ k := by
          rcases ordSeqL_mb_cases _ _ _ _ _ hL with hmb | ⟨a2, ha2, hamem⟩
          · rw [hmb] at ha; exact hk.1 a (by simp [ha])
          · rw [ha2] at ha
            have he2 : a2 = a := by simpa using ha
            exact he2 ▸ intFindPos_take vs a2 hamem
        have hxa := ordSeqL_keys_ub h _ _ _ _ _ hL
          (fun d hd => hc d (List.take_subset _ _ hd)) x hx a (by simp [ha])
        omega
      have hsuf : ∀ y ∈ keysList (cs.drop (intFindPos vs k + 1)), k < y := by
        cases hV2 : vs.drop (intFindPos vs k) with
        | nil =>
            intro y hy
            have h1 : vs.length ≤ intFindPos vs k := by
              have := congrArg List.length hV2
              rw [List.length_drop] at this
              simp at this
              omega
            have h2 : cs.drop (intFindPos vs k + 1) = [] :=
              List.eq_nil_of_length_eq_zero (by rw [List.length_drop]; omega)
            rw [h2, keysList] at hy
            simp at hy
        | cons s V2x =>
            intro y hy
            have hks : k < s := intFindPos_drop vs s V2x hV2
            rw [hV2] at hR
            have := ordSeq_tail_keys_lb h hR
              (fun d hd => hc d (List.drop_subset _ _ hd)) y hy
            omega
      have hkeys_t : keysList cs = keysList (cs.take (intFindPos vs k)) ++
          ((cs[intFindPos vs k]).keys ++ keysList (cs.drop (intFindPos vs k + 1))) := by
        conv_lhs => rw [hcs_eq]
        rw [keysList_append, keysList]
      have honec : ∀ vs2 cs2, cs[intFindPos vs k] = .intl vs2 cs2 → 1 ≤ vs2.length := by
        intro vs2 cs2 he2
        have := (fillB_size hfc).1
        rw [he2, Node.size] at this
        omega
      rcases hremE : removeElem N cs[intFindPos vs k] k with ⟨c2, msg2⟩
      have hchild := ih cs[intFindPos vs k] k mb (hdBound (vs.drop (intFindPos vs k)) ub)
        (hc _ hcmem) hoc hkc honec (fillB_childrenFill hfc) c2 msg2 hremE
      have hremc : removeChild N cs (intFindPos vs k) k =
          (cs.take (intFindPos vs k) ++ c2 :: cs.drop (intFindPos vs k + 1), msg2) := by
        have h0 := removeChild_eq N k (cs.take (intFindPos vs k)) cs[intFindPos vs k]
          (cs.drop (intFindPos vs k + 1))
        rw [hremE] at h0
        simp only at h0
        rw [hC1len] at h0
        rw [← hcs_eq] at h0
        exact h0
      have hknotpre : k ∉ keysList (cs.take (intFindPos vs k)) :=
        fun hmem => absurd rfl (ne_of_lt (hpre k hmem))
      rw [removeElem] at heval
      simp only [hremc] at heval
      cases msg2 with
      | NOT_EXISTENT =>
          obtain ⟨hceq, hkmem⟩ := hchild.1 rfl
          subst hceq
          simp only at heval
          injection heval with hr hm
          subst hm
          refine ⟨fun _ => ⟨by rw [hr.symm, ← hcs_eq], ?_⟩,
            fun hx => absurd hx (by decide), fun hx => absurd hx (by decide)⟩
          simp only [Node.keys]
          rw [hkeys_t]
          intro hmem
          rcases List.mem_append.mp hmem with hmem | hmem
          · exact hknotpre hmem
          rcases List.mem_append.mp hmem with hmem | hmem
          · exact hkmem hmem
          · exact absurd rfl (ne_of_gt (hsuf k hmem))
      | SUCCESS =>
          obtain ⟨hkmem, hckeys, hcbal, hcord, hccf, hcsz⟩ := hchild.2.1 rfl
          simp only at heval
          injection heval with hr hm
          subst hm
          replace hr : r = .intl vs (cs.take (intFindPos vs k) ++
            c2 :: cs.drop (intFindPos vs k + 1)) := hr.symm
          refine ⟨fun hx => absurd hx (by decide), fun _ => ?_, fun hx => absurd hx (by decide)⟩
          have hfc2 : FillB N c2 := by
            obtain ⟨hf1, hf2⟩ := fillB_size hfc
            refine fillB_of_parts ?_ ?_ hccf
            · rcases hcsz with h9 | h9
              · omega
              · exact h9.1
            · rcases hcsz with h9 | h9
              · omega
              · omega
          refine ⟨?_, ?_, ?_, ?_, ?_, ?_⟩
          · simp only [Node.keys]
            rw [hkeys_t]
            simp [hkmem]
          · rw [hr]
            simp only [Node.keys]
            rw [keysList_append, keysList, hkeys_t]
            rw [List.erase_append_right _ hknotpre, List.erase_append_left _ hkmem, hckeys]
          · rw [hr]
            refine Bal.intl h _ _ ?_ ?_
            · have := congrArg List.length hcs_eq
              simp at this ⊢
              omega
            · intro d hd
              rcases List.mem_append.mp hd with hd | hd
              · exact hc d (List.take_subset _ _ hd)
              rcases List.mem_cons.mp hd with hd | hd
              · exact hd ▸ hcbal
              · exact hc d (List.drop_subset _ _ hd)
          · rw [hr, Ordered]
            conv_lhs => rw [hvs_eq]
            exact ordSeqL_comp _ _ _ _ mb _ _ hL (ordSeq_set_head hR hcord)
          · rw [hr, ChildrenFill]
            intro d hd
            rcases List.mem_append.mp hd with hd | hd
            · exact hcf d (List.take_subset _ _ hd)
            rcases List.mem_cons.mp hd with hd | hd
            · exact hd ▸ hfc2
            · exact hcf d (List.drop_subset _ _ hd)
          · left
            rw [hr, Node.size, Node.size]
      | MERGE =>
          obtain ⟨hkmem, hckeys, hcbal, hcord, hccf, hcub, hcsz⟩ := hchild.2.2 rfl
          have hfcsz := fillB_size hfc
          have hc2sz : c2.size + 1 = N := by
            rcases hcsz with h9 | h9
            · omega
            · omega
          have hu : UnderFill N c2 := by
            cases c2 with
            | ext l =>
                rw [UnderFill]
                rw [Node.size] at hc2sz
                exact hc2sz
            | intl l cl =>
                rw [UnderFill]
                rw [Node.size] at hc2sz
                rw [ChildrenFill] at hccf
                exact ⟨hc2sz, hccf⟩
          have hseq2 : OrdSeq lb ub vs (cs.take (intFindPos vs k) ++
              c2 :: cs.drop (intFindPos vs k + 1)) := by
            conv_lhs => rw [hvs_eq]
            exact ordSeqL_comp _ _ _ _ mb _ _ hL (ordSeq_set_head hR hcord)
          have hbal2 : ∀ d ∈ cs.take (intFindPos vs k) ++
              c2 :: cs.drop (intFindPos vs k + 1), Bal h d := by
            intro d hd
            rcases List.mem_append.mp hd with hd | hd
            · exact hc d (List.take_subset _ _ hd)
            rcases List.mem_cons.mp hd with hd | hd
            · exact hd ▸ hcbal
            · exact hc d (List.drop_subset _ _ hd)
          have htake2 : ∀ (C1 : List Node), C1.length = intFindPos vs k →
              (C1 ++ c2 :: cs.drop (intFindPos vs k + 1)).take (intFindPos vs k) = C1 := by
            intro C1 hc1
            rw [← hc1, take_append_length]
          have hdrop2 : ∀ (C1 : List Node), C1.length = intFindPos vs k →
              (C1 ++ c2 :: cs.drop (intFindPos vs k + 1)).drop (intFindPos vs k + 1) =
              cs.drop (intFindPos vs k + 1) := by
            intro C1 hc1
            rw [← hc1, drop_append_length_cons]
          have hgetD2 : ∀ (C1 : List Node), C1.length = intFindPos vs k →
              (C1 ++ c2 :: cs.drop (intFindPos vs k + 1)).getD (intFindPos vs k)
                (.ext []) = c2 := by
            intro C1 hc1
            rw [← hc1, getD_append_length]
          have hmok := mergeAt_spec hN h vs (cs.take (intFindPos vs k) ++
              c2 :: cs.drop (intFindPos vs k + 1)) lb ub (intFindPos vs k)
            hvs1 hpos hseq2 hbal2
            (by rw [htake2 _ hC1len]; exact fun d hd => hcf d (List.take_subset _ _ hd))
            (by rw [hdrop2 _ hC1len]; exact fun d hd => hcf d (List.drop_subset _ _ hd))
            (by rw [hgetD2 _ hC1len]; exact hu)
          rw [MergeOK] at hmok
          obtain ⟨hmkeys, hmord, hmbal, hmfill, hmlen⟩ := hmok
          have hmcl : (mergeAt N vs (cs.take (intFindPos vs k) ++
              c2 :: cs.drop (intFindPos vs k + 1)) (intFindPos vs k)).2.length =
              (mergeAt N vs (cs.take (intFindPos vs k) ++
              c2 :: cs.drop (intFindPos vs k + 1)) (intFindPos vs k)).1.length + 1 :=
            ordSeq_length _ _ _ _ hmord
          have hkeysm : keysList (mergeAt N vs (cs.take (intFindPos vs k) ++
              c2 :: cs.drop (intFindPos vs k + 1)) (intFindPos vs k)).2 =
              (keysList cs).erase k := by
            rw [hmkeys, keysList_append, keysList, hkeys_t]
            rw [List.erase_append_right _ hknotpre, List.erase_append_left _ hkmem, hckeys]
          have hbalm : Bal (h + 1) (.intl
              (mergeAt N vs (cs.take (intFindPos vs k) ++
                c2 :: cs.drop (intFindPos vs k + 1)) (intFindPos vs k)).1
              (mergeAt N vs (cs.take (intFindPos vs k) ++
                c2 :: cs.drop (intFindPos vs k + 1)) (intFindPos vs k)).2) := by
            exact Bal.intl h _ _ hmcl hmbal
          have hkmemt : k ∈ Node.keys (.intl vs cs) := by
            simp only [Node.keys]
            rw [hkeys_t]
            simp [hkmem]
          simp only at heval
          by_cases hge : (mergeAt N vs (cs.take (intFindPos vs k) ++
              c2 :: cs.drop (intFindPos vs k + 1)) (intFindPos vs k)).1.length ≥ minSize N
          · rw [if_pos hge] at heval
            injection heval with hr hm
            subst hm
            replace hr := hr.symm
            refine ⟨fun hx => absurd hx (by decide), fun _ => ?_, fun hx => absurd hx (by decide)⟩
            subst hr
            refine ⟨hkmemt, by simpa [Node.keys] using hkeysm, hbalm,
              by rw [Ordered]; exact hmord, by rw [ChildrenFill]; exact hmfill, ?_⟩
            simp only [minSize] at hge
            rcases hmlen with h9 | h9
            · right
              rw [Node.size, Node.size]
              omega
            · left
              rw [Node.size, Node.size]
              omega
          · rw [if_neg hge] at heval
            injection heval with hr hm
            subst hm
            replace hr := hr.symm
            refine ⟨fun hx => absurd hx (by decide), fun hx => absurd hx (by decide), fun _ => ?_⟩
            subst hr
            refine ⟨hkmemt, by simpa [Node.keys] using hkeysm, hbalm,
              by rw [Ordered]; exact hmord, by rw [ChildrenFill]; exact hmfill, ?_, ?_⟩
            · simp only [minSize] at hge
              rw [Node.size]
              omega
            · rcases hmlen with h9 | h9
              · right
                rw [Node.size, Node.size]
                omega
              · left
                rw [Node.size, Node.size]
                omega

/-! ### Container-level erase -/

theorem eraseKey_eval_success {N : Nat} {s : BSet} {k : Int} {t : Node}
    (h : removeElem N s.root k = (t, .SUCCESS)) : eraseKey N s k = (1, ⟨s.sz - 1, t⟩) := by
  rw [eraseKey]
  split
  all_goals rename_i heq2
  all_goals rw [h] at heq2
  all_goals injection heq2 with h1 h2
  · subst h1; rfl
  · injection h2
  · injection h2

theorem eraseKey_eval_not {N : Nat} {s : BSet} {k : Int} {t : Node}
    (h : removeElem N s.root k = (t, .NOT_EXISTENT)) : eraseKey N s k = (0, ⟨s.sz, t⟩) := by
  rw [eraseKey]
  split
  all_goals rename_i heq2
  all_goals rw [h] at heq2
  all_goals injection heq2 with h1 h2
  · injection h2
  · subst h1; rfl
  · injection h2

theorem eraseKey_eval_merge_collapse {N : Nat} {s : BSet} {k : Int} {cs : List Node}
    (h : removeElem N s.root k = (.intl [] cs, .MERGE)) :
    eraseKey N s k = (1, ⟨s.sz - 1, cs.getD 0 (.ext [])⟩) := by
  rw [eraseKey]
  split
  all_goals rename_i heq2
  all_goals rw [h] at heq2
  all_goals injection heq2 with h1 h2
  · injection h2
  · injection h2
  · subst h1; rfl

theorem eraseKey_eval_merge_ext {N : Nat} {s : BSet} {k : Int} {l : List Int}
    (h : removeElem N s.root k = (.ext l, .MERGE)) :
    eraseKey N s k = (1, ⟨s.sz - 1, .ext l⟩) := by
  rw [eraseKey]
  split
  all_goals rename_i heq2
  all_goals rw [h] at heq2
  all_goals injection heq2 with h1 h2
  · injection h2
  · injection h2
  · subst h1; rfl

theorem eraseKey_eval_merge_cons {N : Nat} {s : BSet} {k : Int} {v : Int}
    {vl : List Int} {cs : List Node}
    (h : removeElem N s.root k = (.intl (v :: vl) cs, .MERGE)) :
    eraseKey N s k = (1, ⟨s.sz - 1, .intl (v :: vl) cs⟩) := by
  rw [eraseKey]
  split
  all_goals rename_i heq2
  all_goals rw [h] at heq2
  all_goals injection heq2 with h1 h2
  · injection h2
  · injection h2
  · subst h1; rfl

theorem rootFill_of_fillB {N : Nat} (hN : 1 ≤ N) {c : Node} (h : FillB N c) :
    RootFill N c := by
  cases c with
  | ext l => rw [RootFill]; exact (fillB_size h).2
  | intl l cl =>
      rw [RootFill]
      have h1 := fillB_size h
      rw [Node.size] at h1
      refine ⟨by omega, h1.2, ?_⟩
      have h2 := fillB_childrenFill h
      rw [ChildrenFill] at h2
      exact h2

/-- Specification of `ADS_set::erase`: preservation of well-formedness, the
returned count, and the no-mutation-on-miss guarantee. -/
theorem eraseKey_spec {N : Nat} (hN : 1 ≤ N) {s : BSet} (k : Int) (hwf : WF N s) :
    WF N (eraseKey N s k).2 ∧
    ((eraseKey N s k).1 = 1 ↔ k ∈ s.root.keys) ∧
    (k ∈ s.root.keys →
      (eraseKey N s k).2.root.keys = s.root.keys.erase k ∧
      (eraseKey N s k).2.sz + 1 = s.sz) ∧
    (k ∉ s.root.keys → (eraseKey N s k).2 = s ∧ (eraseKey N s k).1 = 0) := by
  obtain ⟨hgt, hbal, hord, hrf, hsz⟩ := hwf
  rcases s with ⟨sz, root⟩
  simp only at hbal hord hrf hsz
  have hone : ∀ vs2 cs2, root = .intl vs2 cs2 → 1 ≤ vs2.length := by
    intro vs2 cs2 he
    rw [he, RootFill] at hrf
    exact hrf.1
  have hszle := rootFill_size hrf
  rcases hremE : removeElem N root k with ⟨t, msg⟩
  have hspec := removeElem_spec N hN hgt root k none none hbal hord (okey_none k) hone
    (rootFill_childrenFill hrf) t msg hremE
  cases msg with
  | NOT_EXISTENT =>
      obtain ⟨hteq, hkn⟩ := hspec.1 rfl
      have heval := eraseKey_eval_not (s := ⟨sz, root⟩) hremE
      rw [heval, hteq]
      exact ⟨⟨hgt, hbal, hord, hrf, hsz⟩, by simp [hkn], fun hmem => absurd hmem hkn,
        fun _ => ⟨rfl, rfl⟩⟩
  | SUCCESS =>
      obtain ⟨hkmem, htkeys, htbal, htord, htcf, htsz⟩ := hspec.2.1 rfl
      have heval := eraseKey_eval_success (s := ⟨sz, root⟩) hremE
      rw [heval]
      have hkl : 1 ≤ root.keys.length := List.length_pos.mpr (by
        rintro he
        rw [he] at hkmem
        simp at hkmem)
      have hlen2 : t.keys.length + 1 = root.keys.length := by
        rw [htkeys, List.length_erase_of_mem hkmem]
        omega
      refine ⟨⟨hgt, htbal, htord, ?_, by simp only; omega⟩,
        by simp [hkmem], fun _ => ⟨htkeys, by simp only; omega⟩,
        fun hx => absurd hkmem hx⟩
      cases ht2 : t with
      | ext l =>
          rw [RootFill]
          rw [ht2, Node.size] at htsz
          rcases htsz with h9 | h9
          · omega
          · omega
      | intl mv mc =>
          obtain ⟨h0, rfl⟩ : ∃ h0, hgt = h0 + 1 := by
            cases hgt with
            | zero => rw [ht2] at htbal; cases htbal
            | succ h0 => exact ⟨h0, rfl⟩
          obtain ⟨rvs, rcs, hre, _, _⟩ := bal_succ_intl hbal
          have hr1 : 1 ≤ rvs.length := hone rvs rcs hre
          rw [RootFill]
          rw [ht2] at htcf
          rw [ChildrenFill] at htcf
          rw [ht2, Node.size] at htsz
          rw [hre, Node.size] at htsz hszle
          refine ⟨?_, ?_, htcf⟩
          · rcases htsz with h9 | h9
            · omega
            · omega
          · rcases htsz with h9 | h9
            · omega
            · omega
  | MERGE =>
      obtain ⟨hkmem, htkeys, htbal, htord, htcf, htub, htsz⟩ := hspec.2.2 rfl
      have hkl : 1 ≤ root.keys.length := List.length_pos.mpr (by
        rintro he
        rw [he] at hkmem
        simp at hkmem)
      have hlen2 : t.keys.length + 1 = root.keys.length := by
        rw [htkeys, List.length_erase_of_mem hkmem]
        omega
      cases ht2 : t with
      | ext l =>
          subst ht2
          have heval := eraseKey_eval_merge_ext (s := ⟨sz, root⟩) hremE
          rw [heval]
          refine ⟨⟨hgt, htbal, htord, ?_, by simp only; omega⟩,
            by simp [hkmem], fun _ => ⟨htkeys, by simp only; omega⟩,
            fun hx => absurd hkmem hx⟩
          rw [RootFill]
          rw [Node.size] at htub
          omega
      | intl mv mc =>
          subst ht2
          obtain ⟨h0, rfl⟩ : ∃ h0, hgt = h0 + 1 := by
            cases hgt with
            | zero => cases htbal
            | succ h0 => exact ⟨h0, rfl⟩
          obtain ⟨rvs, rcs, hre, _, _⟩ := bal_succ_intl hbal
          have hr1 : 1 ≤ rvs.length := hone rvs rcs hre
          rw [ChildrenFill] at htcf
          cases hmv : mv with
          | nil =>
              subst hmv
              have hlen3 : mc.length = 1 := by
                cases htbal with
                | intl _ _ _ hlen3 _ => simpa using hlen3
              obtain ⟨c0, rfl⟩ : ∃ c0, mc = [c0] := by
                cases mc with
                | nil => simp at hlen3
                | cons a b =>
                    cases b with
                    | nil => exact ⟨a, rfl⟩
                    | cons x y => simp at hlen3
              have hbc0 : Bal h0 c0 := by
                cases htbal with
                | intl _ _ _ _ hcb => exact hcb c0 (by simp)
              have heval := eraseKey_eval_merge_collapse (s := ⟨sz, root⟩) hremE
              rw [heval]
              have hget : ([c0] : List Node).getD 0 (.ext []) = c0 := rfl
              rw [hget]
              have hkc0 : c0.keys = Node.keys (.intl [] [c0]) := by
                simp [Node.keys, keysList]
              have htordc : Ordered none none c0 := by
                rw [Ordered, OrdSeq] at htord
                exact htord
              have hc0len : c0.keys.length + 1 = root.keys.length := by
                rw [hkc0]
                exact hlen2
              refine ⟨⟨h0, hbc0, htordc, ?_, by simp only; omega⟩,
                by simp [hkmem], fun _ => ⟨by rw [hkc0]; exact htkeys, by simp only; omega⟩,
                fun hx => absurd hkmem hx⟩
              exact rootFill_of_fillB hN (htcf c0 (by simp))
          | cons v vl =>
              subst hmv
              have heval := eraseKey_eval_merge_cons (s := ⟨sz, root⟩) hremE
              rw [heval]
              rw [Node.size] at htub htsz
              rw [hre, Node.size] at hszle
              refine ⟨⟨h0 + 1, htbal, htord, ?_, by simp only; omega⟩,
                by simp [hkmem], fun _ => ⟨htkeys, by simp only; omega⟩,
                fun hx => absurd hkmem hx⟩
              rw [RootFill]
              refine ⟨by simp, ?_, htcf⟩
              rw [hre, Node.size] at htsz
              simp at htsz ⊢
              omega

/-! ### Reachable states -/

/-- Container states reachable through the public mutating interface
(default construction, `insert`, `erase`, `clear`). -/
inductive Reachable (N : Nat) : BSet → Prop where
  | empty : Reachable N BSet.empty
  | ins (s : BSet) (k : Int) : Reachable N s → Reachable N (insertKey N s k).1
  | ers (s : BSet) (k : Int) : Reachable N s → Reachable N (eraseKey N s k).2
  | clr (s : BSet) : Reachable N s → Reachable N (clearSet s)

theorem reachable_wf {N : Nat} (hN : 1 ≤ N) {s : BSet} (h : Reachable N s) : WF N s := by
  induction h with
  | empty => exact wf_empty N
  | ins s k hr ih => exact (insertKey_spec hN k ih).1
  | ers s k hr ih => exact (eraseKey_spec hN k ih).1
  | clr s hr ih => rw [clearSet]; exact wf_empty N

/-! ### Iteration -/

theorem mem_leavesList : ∀ (cs : List Node) (l : List Int),
    l ∈ leavesList cs → ∃ c ∈ cs, l ∈ c.leaves := by
  intro cs
  induction cs with
  | nil => intro l hl; rw [leavesList] at hl; simp at hl
  | cons c cs ih =>
      intro l hl
      rw [leavesList] at hl
      rcases List.mem_append.mp hl with hl | hl
      · exact ⟨c, by simp, hl⟩
      · obtain ⟨d, hd, hld⟩ := ih l hl
        exact ⟨d, by simp [hd], hld⟩

theorem leaves_ne_nil {N : Nat} (hN : 1 ≤ N) : ∀ (hgt : Nat) (t : Node), Bal hgt t →
    FillB N t → ∀ l ∈ t.leaves, l ≠ [] := by
  intro hgt
  induction hgt with
  | zero =>
      intro t hb hf l hl
      cases hb with
      | ext vs =>
      rw [Node.leaves] at hl
      rw [List.mem_singleton] at hl
      subst hl
      cases hf with
      | ext _ h1 h2 =>
          intro he
          rw [he] at h1
          simp at h1
          omega
  | succ h ih =>
      intro t hb hf l hl
      cases hb with
      | intl h vs cs hlen hc =>
      rw [Node.leaves] at hl
      obtain ⟨c, hcmem, hlc⟩ := mem_leavesList cs l hl
      cases hf with
      | intl _ _ h1 h2 h3 => exact ih c (hc c hcmem) (h3 c hcmem) l hlc

/-- Advancing through one leaf and on into the rest of the chain. -/
theorem iterToList_drop : ∀ (fuel : Nat) (l : List Int) (rest : List (List Int)) (i : Nat),
    l.length - i ≤ fuel → i < l.length →
    iterToList ⟨l :: rest, i⟩ = l.drop i ++ iterToList ⟨rest, 0⟩ := by
  intro fuel
  induction fuel with
  | zero => intro l rest i hfuel hi; omega
  | succ f ih =>
      intro l rest i hfuel hi
      rw [iterToList]
      simp only [Iter.next]
      by_cases hend : i + 1 ≥ l.length
      · rw [if_pos hend]
        have h9 := drop_getD_cons (0 : Int) hi
        have h10 : l.drop (i + 1) = [] := List.drop_eq_nil_of_le (by omega)
        rw [h10] at h9
        rw [h9]
        simp
      · rw [if_neg hend]
        rw [ih l rest (i + 1) (by omega) (by omega)]
        have h9 := drop_getD_cons (0 : Int) hi
        rw [h9]
        simp

theorem iterToList_flatten : ∀ (chain : List (List Int)), (∀ l ∈ chain, l ≠ []) →
    iterToList ⟨chain, 0⟩ = chain.flatten := by
  intro chain
  induction chain with
  | nil => intro _; rw [iterToList]; simp
  | cons l rest ih =>
      intro hne
      have hl0 : 0 < l.length := List.length_pos.mpr (hne l (by simp))
      rw [iterToList_drop l.length l rest 0 (by omega) hl0]
      rw [ih (fun m hm => hne m (by simp [hm]))]
      simp

/-- Iterating a well-formed container from `begin()` visits exactly the
stored keys in order. -/
theorem iter_eq_keys {N : Nat} (hN : 1 ≤ N) {s : BSet} (hwf : WF N s) :
    iterToList (beginIter s) = s.root.keys := by
  obtain ⟨hgt, hbal, hord, hrf, hsz⟩ := hwf
  rcases s with ⟨sz, root⟩
  simp only at hbal hord hrf hsz ⊢
  rw [beginIter]
  simp only
  by_cases h0 : sz = 0
  · rw [if_pos h0]
    have hkl : root.keys.length = 0 := by omega
    rw [List.eq_nil_of_length_eq_zero hkl]
    rw [iterToList]
  · rw [if_neg h0]
    have hne : ∀ l ∈ root.leaves, l ≠ [] := by
      cases hbal with
      | ext vs =>
          intro l hl
          rw [Node.leaves] at hl
          rw [List.mem_singleton] at hl
          subst hl
          intro he
          rw [he] at hsz
          simp [Node.keys] at hsz
          omega
      | intl h vs cs hlen hc =>
          intro l hl
          rw [Node.leaves] at hl
          obtain ⟨c, hcmem, hlc⟩ := mem_leavesList cs l hl
          rw [RootFill] at hrf
          exact leaves_ne_nil hN h c (hc c hcmem) (hrf.2.2 c hcmem) l hlc
  
    rw [iterToList_flatten _ hne, ← keys_eq_join_leaves]

/-! ### Ascending bulk insertion -/

theorem insort_gt_all {k : Int} {vs : List Int} (h : ∀ x ∈ vs, x < k) :
    insort k vs = vs ++ [k] := by
  have h2 := insort_append_left vs [] (fun a ha => not_lt.mpr (le_of_lt (h a ha)))
  simpa [insort] using h2

/-- Inserting a key above every stored key of a non-full leaf root appends it
at the end. -/
theorem insertKey_ascending_step {N : Nat} {sz : Nat} {vs : List Int} {k : Int}
    (hsort : List.Sorted (· < ·) vs) (hlt : ∀ x ∈ vs, x < k) (hlen : vs.length < 2 * N) :
    insertKey N ⟨sz, .ext vs⟩ k = (⟨sz + 1, .ext (vs ++ [k])⟩, true) := by
  have hmem : k ∉ vs := fun hm => absurd (hlt k hm) (lt_irrefl k)
  have haddE : addElem N (.ext vs) k = (.ext (vs ++ [k]), .SUCCESS) := by
    rw [addElem]
    rw [extAddElem_not_mem hsort hmem]
    rw [insort_gt_all hlt]
    rw [if_neg (by omega)]
  exact insertKey_eval_success (s := ⟨sz, .ext vs⟩) haddE

theorem insertList_ext_ascending {N : Nat} : ∀ (ks : List Int) (sz : Nat) (vs : List Int),
    List.Sorted (· < ·) (vs ++ ks) → vs.length + ks.length ≤ 2 * N →
    insertList N ⟨sz, .ext vs⟩ ks = ⟨sz + ks.length, .ext (vs ++ ks)⟩ := by
  intro ks
  induction ks with
  | nil => intro sz vs _ _; simp [insertList]
  | cons k ks ih =>
      intro sz vs hsort hlen
      obtain ⟨hsv, hsk, hrel⟩ := List.pairwise_append.mp hsort
      have hstep := @insertKey_ascending_step N sz vs k
        hsv (fun x hx => hrel x hx k (by simp)) (by simp at hlen; omega)
      simp only [insertList, List.foldl_cons]
      rw [hstep]
      simp only
      have hih := ih (sz + 1) (vs ++ [k]) (by simpa using hsort) (by simp at hlen ⊢; omega)
      simp only [insertList] at hih
      rw [hih]
      simp only [List.append_assoc, List.singleton_append, List.length_cons]
      congr 1
      omega

/-- Evaluating the root split of a leaf holding `2N + 1` values. -/
theorem splitAt_root_ext {N : Nat} (ks2 : List Int) (hlen2 : ks2.length = 2 * N + 1) :
    splitAt [] [.ext ks2] 0 =
      ([ks2.getD N 0], [.ext (ks2.take N), .ext (ks2.drop N)]) := by
  have hdiv : ks2.length / 2 = N := by omega
  have hgd : (ks2.drop N).getD 0 0 = ks2.getD N 0 := by
    rw [List.getD_eq_getElem _ 0 (by rw [List.length_drop]; omega),
      List.getD_eq_getElem _ 0 (by omega), List.getElem_drop]
    simp
  simp only [splitAt]
  rw [show ([Node.ext ks2].getD 0 (.ext [])) = .ext ks2 from rfl]
  simp only
  rw [hdiv]
  rw [List.take_of_length_le (by rw [List.length_drop]; omega)]
  rw [hgd]
  rfl

/-- Inserting `2N + 1` strictly increasing keys into an empty container: the
first `2N` fill the root leaf, the last one forces the root split, leaving an
internal root with one separator and two leaves. -/
theorem insertList_ascending_full {N : Nat} (hN : 1 ≤ N) (ks : List Int)
    (hsort : List.Sorted (· < ·) ks) (hlen : ks.length = 2 * N + 1) :
    insertList N BSet.empty ks =
      ⟨2 * N + 1, .intl [ks.getD N 0] [.ext (ks.take N), .ext (ks.drop N)]⟩ := by
  rcases List.eq_nil_or_concat ks with h9 | ⟨A, kl, h9⟩
  · rw [h9] at hlen
    simp at hlen
  rw [List.concat_eq_append] at h9
  subst h9
  have hAlen : A.length = 2 * N := by
    simp at hlen
    omega
  obtain ⟨hsA, hskl, hrel⟩ := List.pairwise_append.mp hsort
  simp only [insertList, List.foldl_append]
  have hA := insertList_ext_ascending (N := N) A 0 [] (by simpa using hsA) (by simp; omega)
  simp only [insertList] at hA
  rw [show (BSet.empty : BSet) = ⟨0, .ext []⟩ from rfl]
  rw [hA]
  simp only [List.nil_append, List.foldl_cons, List.foldl_nil]
  have haddE : addElem N (.ext A) kl = (.ext (A ++ [kl]), .SPLIT) := by
    have hlt : ∀ x ∈ A, x < kl := fun x hx => hrel x hx kl (by simp)
    have hmem : kl ∉ A := fun hm => absurd (hlt kl hm) (lt_irrefl kl)
    rw [addElem]
    rw [extAddElem_not_mem hsA hmem]
    rw [insort_gt_all hlt]
    rw [if_pos (by omega)]
  have heval := insertKey_eval_split (s := (⟨0 + A.length, .ext A⟩ : BSet)) haddE
  rw [heval]
  simp only
  rw [splitAt_root_ext (N := N) (A ++ [kl]) (by simp; omega)]
  simp only
  congr 1
  simp
  omega

/-! ### Claim theorems -/

/-- C10: self-assignment leaves the container empty: `operator=` clears the
destination first and then bulk-inserts from the source's iterator range,
which aliases the already-cleared container, so every stored key is lost. -/
theorem C10_self_assignment (N : Nat) (s : BSet) :
    selfAssign N s = BSet.empty ∧ (selfAssign N s).sz = 0 ∧
    (selfAssign N s).root.keys = [] := by
  have h0 : selfAssign N s = BSet.empty := by
    rw [selfAssign]
    rw [show clearSet s = BSet.empty from rfl]
    rw [show beginIter BSet.empty = ⟨[], 0⟩ from rfl]
    rw [iterToList]
    rw [insertList]
    rfl
  rw [h0]
  exact ⟨rfl, rfl, rfl⟩

/-- C2: every container state reachable through the public interface
satisfies the fill invariant: each node other than the root holds between `N`
and `2N` keys (recursively, via `FillB`), while the root holds at most `2N`. -/
theorem C2_fill_invariant (N : Nat) (hN : 1 ≤ N) (s : BSet) (h : Reachable N s) :
    ChildrenFill N s.root ∧ s.root.size ≤ 2 * N := by
  obtain ⟨hgt, hb, ho, hrf, hsz⟩ := reachable_wf hN h
  exact ⟨rootFill_childrenFill hrf, rootFill_size hrf⟩

/-- C2 witness: the invariant at a concrete reachable state. -/
theorem C2_fill_invariant_witness :
    ChildrenFill 3 (insertKey 3 BSet.empty 5).1.root ∧
    (insertKey 3 BSet.empty 5).1.root.size ≤ 2 * 3 :=
  C2_fill_invariant 3 (by decide) _ (Reachable.ins BSet.empty 5 Reachable.empty)

/-- C3: iterating a reachable container from `begin()` to `end()` visits
exactly the stored keys, in strictly increasing order, and the number of
visited elements equals `size()`. -/
theorem C3_iteration (N : Nat) (hN : 1 ≤ N) (s : BSet) (h : Reachable N s) :
    iterToList (beginIter s) = s.root.keys ∧
    List.Sorted (· < ·) (iterToList (beginIter s)) ∧
    (iterToList (beginIter s)).length = s.sz := by
  have hwf := reachable_wf hN h
  have h1 := iter_eq_keys hN hwf
  obtain ⟨hgt, hb, ho, hrf, hsz⟩ := hwf
  refine ⟨h1, ?_, ?_⟩
  · rw [h1]
    exact (ordered_keys hgt s.root none none hb ho).1
  · rw [h1]
    omega

/-- C3 witness: iteration of a concrete reachable state. -/
theorem C3_iteration_witness :
    iterToList (beginIter (insertKey 3 BSet.empty 5).1) =
      (insertKey 3 BSet.empty 5).1.root.keys ∧
    List.Sorted (· < ·) (iterToList (beginIter (insertKey 3 BSet.empty 5).1)) ∧
    (iterToList (beginIter (insertKey 3 BSet.empty 5).1)).length =
      (insertKey 3 BSet.empty 5).1.sz :=
  C3_iteration 3 (by decide) _ (Reachable.ins BSet.empty 5 Reachable.empty)

/-- C8: inserting the same key twice is idempotent: the second `insert`
returns `inserted = false`, performs no mutation, and leaves `size()`
unchanged. -/
theorem C8_insert_idempotent (N : Nat) (hN : 1 ≤ N) (s : BSet) (k : Int)
    (h : Reachable N s) :
    (insertKey N (insertKey N s k).1 k).1 = (insertKey N s k).1 ∧
    (insertKey N (insertKey N s k).1 k).2 = false ∧
    (insertKey N (insertKey N s k).1 k).1.sz = (insertKey N s k).1.sz := by
  have hwf := reachable_wf hN h
  have hspec1 := insertKey_spec hN k hwf
  have hwf1 : WF N (insertKey N s k).1 := hspec1.1
  have hmem : k ∈ (insertKey N s k).1.root.keys := by
    rcases hflag : (insertKey N s k).2 with _ | _
    · obtain ⟨heq, hmem⟩ := hspec1.2.2.2 hflag
      rw [heq]
      exact hmem
    · obtain ⟨hkeys, _⟩ := hspec1.2.2.1 hflag
      rw [hkeys]
      exact mem_insort.mpr (Or.inl rfl)
  have hspec2 := insertKey_spec hN k hwf1
  have hflag2 : (insertKey N (insertKey N s k).1 k).2 = false := by
    rcases hflag2 : (insertKey N (insertKey N s k).1 k).2 with _ | _
    · rfl
    · exact absurd hmem (hspec2.2.1.mp hflag2)
  obtain ⟨heq2, _⟩ := hspec2.2.2.2 hflag2
  exact ⟨heq2, hflag2, by rw [heq2]⟩

/-- C8 witness: double insertion at a concrete state. -/
theorem C8_insert_idempotent_witness :
    (insertKey 3 (insertKey 3 BSet.empty 5).1 5).1 = (insertKey 3 BSet.empty 5).1 ∧
    (insertKey 3 (insertKey 3 BSet.empty 5).1 5).2 = false ∧
    (insertKey 3 (insertKey 3 BSet.empty 5).1 5).1.sz = (insertKey 3 BSet.empty 5).1.sz :=
  C8_insert_idempotent 3 (by decide) BSet.empty 5 Reachable.empty

/-- C7: the erase contract on every reachable tree: `erase(k)` returns 1 and
decrements `size()` when `k` is stored, returns 0 and leaves the container
entirely unchanged when it is not, never returns anything else, and on the
empty tree returns 0 leaving the empty leaf root. -/
theorem C7_erase_contract (N : Nat) (hN : 1 ≤ N) (s : BSet) (k : Int)
    (h : Reachable N s) :
    ((eraseKey N s k).1 = 1 ∨ (eraseKey N s k).1 = 0) ∧
    (k ∈ s.root.keys → (eraseKey N s k).1 = 1 ∧
      (eraseKey N s k).2.sz + 1 = s.sz ∧
      (eraseKey N s k).2.root.keys = s.root.keys.erase k) ∧
    (k ∉ s.root.keys → (eraseKey N s k).1 = 0 ∧ (eraseKey N s k).2 = s) ∧
    eraseKey N BSet.empty k = (0, BSet.empty) := by
  have hwf := reachable_wf hN h
  have hspec := eraseKey_spec hN k hwf
  have hempty : eraseKey N BSet.empty k = (0, BSet.empty) := by
    have h0 : removeElem N BSet.empty.root k = (.ext [], .NOT_EXISTENT) := by
      rw [show BSet.empty.root = .ext [] from rfl]
      rw [removeElem]
      rw [extRemoveElem_not_mem (by simp) (by simp)]
    have h1 := eraseKey_eval_not (s := BSet.empty) h0
    rw [h1]
    rfl
  refine ⟨?_, ?_, ?_, hempty⟩
  · by_cases hmem : k ∈ s.root.keys
    · exact Or.inl (hspec.2.1.mpr hmem)
    · exact Or.inr (hspec.2.2.2 hmem).2
  · intro hmem
    obtain ⟨hkeys, hsz⟩ := hspec.2.2.1 hmem
    exact ⟨hspec.2.1.mpr hmem, hsz, hkeys⟩
  · intro hmem
    obtain ⟨heq, h1⟩ := hspec.2.2.2 hmem
    exact ⟨h1, heq⟩

/-- C7 witness: erasing from a concrete reachable state. -/
theorem C7_erase_contract_witness :
    ((eraseKey 3 BSet.empty 4).1 = 1 ∨ (eraseKey 3 BSet.empty 4).1 = 0) ∧
    ((4 : Int) ∈ BSet.empty.root.keys → (eraseKey 3 BSet.empty 4).1 = 1 ∧
      (eraseKey 3 BSet.empty 4).2.sz + 1 = BSet.empty.sz ∧
      (eraseKey 3 BSet.empty 4).2.root.keys = BSet.empty.root.keys.erase 4) ∧
    ((4 : Int) ∉ BSet.empty.root.keys → (eraseKey 3 BSet.empty 4).1 = 0 ∧
      (eraseKey 3 BSet.empty 4).2 = BSet.empty) ∧
    eraseKey 3 BSet.empty 4 = (0, BSet.empty) :=
  C7_erase_contract 3 (by decide) BSet.empty 4 Reachable.empty

/-- C6: when an erase leaves an internal root with zero separators, the root
is replaced by its lone remaining child, the height drops by one, the erase
returns 1 and decrements `size()`, and the result is well-formed. -/
theorem C6_root_collapse (N : Nat) (hN : 1 ≤ N) (s : BSet) (k : Int) (hwf : WF N s)
    (cs : List Node) (hrem : removeElem N s.root k = (.intl [] cs, .MERGE)) :
    eraseKey N s k = (1, ⟨s.sz - 1, cs.getD 0 (.ext [])⟩) ∧
    cs.length = 1 ∧
    (∃ h0, Bal (h0 + 1) s.root ∧ Bal h0 (cs.getD 0 (.ext []))) ∧
    WF N ⟨s.sz - 1, cs.getD 0 (.ext [])⟩ ∧
    1 ≤ s.sz := by
  obtain ⟨hgt, hbal, hord, hrf, hsz⟩ := hwf
  have hone : ∀ vs2 cs2, s.root = .intl vs2 cs2 → 1 ≤ vs2.length := by
    intro vs2 cs2 he
    rw [he, RootFill] at hrf
    exact hrf.1
  have hspec := removeElem_spec N hN hgt s.root k none none hbal hord (okey_none k) hone
    (rootFill_childrenFill hrf) _ _ hrem
  obtain ⟨hkmem, htkeys, htbal, htord, htcf, htub, htsz⟩ := hspec.2.2 rfl
  have heval := eraseKey_eval_merge_collapse hrem
  have hcsl : cs.length = 1 := by
    cases htbal with
    | intl _ _ _ hlen3 _ => simpa using hlen3
  obtain ⟨h0, rfl⟩ : ∃ h0, hgt = h0 + 1 := by
    cases hgt with
    | zero => cases htbal
    | succ h0 => exact ⟨h0, rfl⟩
  have hbc0 : Bal h0 (cs.getD 0 (.ext [])) := by
    cases htbal with
    | intl _ _ _ _ hcb => exact hcb _ (getD_mem_any _ (by omega))
  have hwf2 := (eraseKey_spec hN k ⟨h0 + 1, hbal, hord, hrf, hsz⟩).1
  rw [heval] at hwf2
  have hkl : 1 ≤ s.root.keys.length := List.length_pos.mpr (by
    rintro he
    rw [he] at hkmem
    simp at hkmem)
  exact ⟨heval, hcsl, ⟨h0, hbal, hbc0⟩, hwf2, by omega⟩

/-- C6 witness helper: the stored state before the collapsing erase is
well-formed. -/
theorem wf_c6_state : WF 3 ⟨6, .intl [4] [.ext [1, 2, 3], .ext [4, 5, 6]]⟩ := by
  refine ⟨1, ?_, ?_, ?_, ?_⟩
  · refine Bal.intl 0 _ _ (by decide) ?_
    intro c hc
    simp at hc
    rcases hc with rfl | rfl
    · exact Bal.ext _
    · exact Bal.ext _
  · rw [Ordered]
    rw [OrdSeq]
    refine ⟨⟨by simp, by simp⟩, ?_, ?_⟩
    · rw [Ordered]
      refine ⟨by decide, ?_⟩
      intro k2 hk2
      refine ⟨by simp, fun b hb => ?_⟩
      rw [mem_some_eq hb]
      simp at hk2
      rcases hk2 with rfl | rfl | rfl
      · decide
      · decide
      · decide
    · rw [OrdSeq]
      rw [Ordered]
      refine ⟨by decide, ?_⟩
      intro k2 hk2
      refine ⟨fun a ha => ?_, by simp⟩
      rw [mem_some_eq ha]
      simp at hk2
      rcases hk2 with rfl | rfl | rfl
      · decide
      · decide
      · decide
  · rw [RootFill]
    refine ⟨by decide, by decide, ?_⟩
    intro c hc
    simp at hc
    rcases hc with rfl | rfl
    · exact FillB.ext _ (by decide) (by decide)
    · exact FillB.ext _ (by decide) (by decide)
  · rfl

/-- C6 witness helper: the erase of 6 reaches the leaf, reports MERGE, the
root fuses its two leaves and is left separator-less. -/
theorem removeElem_c6_eval :
    removeElem 3 (Node.intl [4] [.ext [1, 2, 3], .ext [4, 5, 6]]) 6 =
      (.intl [] [.ext [1, 2, 3, 4, 5]], .MERGE) := by
  have hstep1 : removeElem 3 (.ext [4, 5, 6]) 6 = (.ext [4, 5], .MERGE) := by
    rw [removeElem]
    rw [extRemoveElem_mem (by decide) (by decide)]
    rfl
  have hstep2 : removeChild 3 [Node.ext [1, 2, 3], Node.ext [4, 5, 6]] 1 6 =
      ([Node.ext [1, 2, 3], Node.ext [4, 5]], .MERGE) := by
    have h0 := removeChild_eq 3 6 [Node.ext [1, 2, 3]] (.ext [4, 5, 6]) []
    rw [hstep1] at h0
    simpa using h0
  rw [removeElem]
  rw [show intFindPos [4] 6 = 1 from rfl]
  rw [hstep2]
  rw [show mergeAt 3 [4] [Node.ext [1, 2, 3], Node.ext [4, 5]] 1 =
    ([], [Node.ext [1, 2, 3, 4, 5]]) from rfl]
  rfl

/-- C6 witness: erasing 6 from a six-element tree of height two leaves the
root separator-less and collapses it onto the fused leaf. -/
theorem C6_root_collapse_witness :
    eraseKey 3 ⟨6, .intl [4] [.ext [1, 2, 3], .ext [4, 5, 6]]⟩ 6 =
      (1, ⟨(6 : Nat) - 1, ([Node.ext [1, 2, 3, 4, 5]] : List Node).getD 0 (.ext [])⟩) ∧
    ([Node.ext [1, 2, 3, 4, 5]] : List Node).length = 1 ∧
    (∃ h0, Bal (h0 + 1) (⟨6, .intl [4] [.ext [1, 2, 3], .ext [4, 5, 6]]⟩ : BSet).root ∧
      Bal h0 (([Node.ext [1, 2, 3, 4, 5]] : List Node).getD 0 (.ext []))) ∧
    WF 3 ⟨(6 : Nat) - 1, ([Node.ext [1, 2, 3, 4, 5]] : List Node).getD 0 (.ext [])⟩ ∧
    1 ≤ (⟨6, .intl [4] [.ext [1, 2, 3], .ext [4, 5, 6]]⟩ : BSet).sz :=
  C6_root_collapse 3 (by decide) ⟨6, .intl [4] [.ext [1, 2, 3], .ext [4, 5, 6]]⟩ 6
    wf_c6_state [Node.ext [1, 2, 3, 4, 5]] removeElem_c6_eval

/-- C5: inserting `2N + 1` strictly increasing keys into an empty container
yields an internal root over two leaves (height two): the lower `N` keys in
the left leaf, the upper `N + 1` in the right, the median promoted as the
lone separator, and iteration visits all keys in order. -/
theorem C5_ascending_inserts (N : Nat) (hN : 1 ≤ N) (ks : List Int)
    (hsort : List.Sorted (· < ·) ks) (hlen : ks.length = 2 * N + 1) :
    insertList N BSet.empty ks =
      ⟨2 * N + 1, .intl [ks.getD N 0] [.ext (ks.take N), .ext (ks.drop N)]⟩ ∧
    (ks.take N).length = N ∧ (ks.drop N).length = N + 1 ∧
    iterToList (beginIter (insertList N BSet.empty ks)) = ks := by
  have hfull := insertList_ascending_full hN ks hsort hlen
  refine ⟨hfull, by simp [List.length_take]; omega, by simp; omega, ?_⟩
  rw [hfull]
  rw [beginIter]
  rw [if_neg (by simp)]
  simp only
  rw [show Node.leaves (.intl [ks.getD N 0] [.ext (ks.take N), .ext (ks.drop N)]) =
    [ks.take N, ks.drop N] from by simp [Node.leaves, leavesList]]
  rw [iterToList_flatten _ ?_]
  · simp [List.take_append_drop]
  · intro l hl
    simp at hl
    rcases hl with rfl | rfl
    · intro he
      have := congrArg List.length he
      rw [List.length_take] at this
      simp only [List.length_nil] at this
      omega
    · intro he
      have := congrArg List.length he
      simp at this
      omega

/-- C5 witness: the concrete `N = 3` scenario with keys 1..7. -/
theorem C5_ascending_inserts_witness :
    insertList 3 BSet.empty [1, 2, 3, 4, 5, 6, 7] =
      ⟨2 * 3 + 1, .intl [([1, 2, 3, 4, 5, 6, 7] : List Int).getD 3 0]
        [.ext (([1, 2, 3, 4, 5, 6, 7] : List Int).take 3),
         .ext (([1, 2, 3, 4, 5, 6, 7] : List Int).drop 3)]⟩ ∧
    (([1, 2, 3, 4, 5, 6, 7] : List Int).take 3).length = 3 ∧
    (([1, 2, 3, 4, 5, 6, 7] : List Int).drop 3).length = 3 + 1 ∧
    iterToList (beginIter (insertList 3 BSet.empty [1, 2, 3, 4, 5, 6, 7])) =
      [1, 2, 3, 4, 5, 6, 7] :=
  C5_ascending_inserts 3 (by decide) [1, 2, 3, 4, 5, 6, 7] (by decide) (by decide)

theorem insertIdx_append_length_cons {α : Type} (C1 : List α) (x y : α) (C2 : List α) :
    (C1 ++ x :: C2).insertIdx (C1.length + 1) y = C1 ++ x :: y :: C2 := by
  have h := insertIdx_append_length (C1 ++ [x]) C2 y
  simpa using h

/-- C4: splitting a leaf child holding `2N + 1` keys leaves the lower `N`
keys in the left leaf, moves the upper `N + 1` into the new right leaf
spliced immediately after it (and hence between the left leaf and its former
right neighbour in the leaf chain), and inserts the right leaf's first key as
the parent separator at the child's position. -/
theorem C4_leaf_split (N : Nat) (vs : List Int) (C1 C2 : List Node) (cvs : List Int)
    (hv : cvs.length = 2 * N + 1) :
    splitAt vs (C1 ++ .ext cvs :: C2) C1.length =
      (vs.insertIdx C1.length (cvs.getD N 0),
       C1 ++ .ext (cvs.take N) :: .ext (cvs.drop N) :: C2) ∧
    cvs.take N ++ cvs.drop N = cvs ∧
    (cvs.take N).length = N ∧ (cvs.drop N).length = N + 1 ∧
    (cvs.drop N).getD 0 0 = cvs.getD N 0 ∧
    leavesList (C1 ++ .ext (cvs.take N) :: .ext (cvs.drop N) :: C2) =
      leavesList C1 ++ cvs.take N :: cvs.drop N :: leavesList C2 := by
  have hdiv : cvs.length / 2 = N := by omega
  have hgd : (cvs.drop N).getD 0 0 = cvs.getD N 0 := by
    rw [List.getD_eq_getElem _ 0 (by rw [List.length_drop]; omega),
      List.getD_eq_getElem _ 0 (by omega), List.getElem_drop]
    simp
  refine ⟨?_, List.take_append_drop N cvs, by rw [List.length_take]; omega,
    by rw [List.length_drop]; omega, hgd, ?_⟩
  · simp only [splitAt]
    rw [getD_append_length]
    simp only
    rw [hdiv]
    rw [List.take_of_length_le (by rw [List.length_drop]; omega)]
    rw [hgd]
    rw [set_append_length C1 _ _ C2]
    rw [insertIdx_append_length_cons C1 _ _ C2]
  · rw [leavesList_append]
    simp [leavesList, Node.leaves]

/-- C4 witness: a concrete split of a three-key leaf for `N = 1`. -/
theorem C4_leaf_split_witness :
    splitAt [10] ([Node.ext [0]] ++ .ext [1, 2, 3] :: []) [Node.ext [0]].length =
      (([10] : List Int).insertIdx [Node.ext [0]].length
        (([1, 2, 3] : List Int).getD 1 0),
       [Node.ext [0]] ++ .ext (([1, 2, 3] : List Int).take 1) ::
         .ext (([1, 2, 3] : List Int).drop 1) :: []) ∧
    ([1, 2, 3] : List Int).take 1 ++ ([1, 2, 3] : List Int).drop 1 = [1, 2, 3] ∧
    (([1, 2, 3] : List Int).take 1).length = 1 ∧
    (([1, 2, 3] : List Int).drop 1).length = 1 + 1 ∧
    (([1, 2, 3] : List Int).drop 1).getD 0 0 = ([1, 2, 3] : List Int).getD 1 0 ∧
    leavesList ([Node.ext [0]] ++ .ext (([1, 2, 3] : List Int).take 1) ::
        .ext (([1, 2, 3] : List Int).drop 1) :: []) =
      leavesList [Node.ext [0]] ++ ([1, 2, 3] : List Int).take 1 ::
        ([1, 2, 3] : List Int).drop 1 :: leavesList [] :=
  C4_leaf_split 1 [10] [Node.ext [0]] [] [1, 2, 3] (by decide)

/-- C1 (amended): the sibling choice of `merge(i)`.  For an interior
underfull child (0 < i < parent key count) the direction is LEFT exactly when
the left sibling is strictly smaller; hence redistribution draws from the
strictly larger sibling with ties going to the LEFT sibling, and fusion (the
fallback when no redistribution is possible) targets the smaller sibling with
ties going to the right.  Edge positions use the only available sibling:
at i = 0 only the right sibling is consulted (for stealing and for the fuse
direction), at i = parent key count only the left one. -/
theorem C1_sibling_choice (N : Nat) (vs : List Int) (cs : List Node) (pos : Nat)
    (hv1 : 1 ≤ vs.length) (hpos : pos ≤ vs.length) :
    (0 < pos → pos < vs.length →
      (mergeDir vs cs pos = .LEFT ↔
        (cs.getD (pos - 1) (.ext [])).size < (cs.getD (pos + 1) (.ext [])).size) ∧
      (canStealRight N vs cs pos ↔
        (cs.getD (pos - 1) (.ext [])).size < (cs.getD (pos + 1) (.ext [])).size ∧
          minSize N < (cs.getD (pos + 1) (.ext [])).size) ∧
      (canStealLeft N vs cs pos ↔
        (cs.getD (pos + 1) (.ext [])).size ≤ (cs.getD (pos - 1) (.ext [])).size ∧
          minSize N < (cs.getD (pos - 1) (.ext [])).size)) ∧
    (pos = 0 →
      mergeDir vs cs pos = .RIGHT ∧
      ¬canStealLeft N vs cs pos ∧
      (canStealRight N vs cs pos ↔ minSize N < (cs.getD (pos + 1) (.ext [])).size)) ∧
    (pos = vs.length →
      mergeDir vs cs pos = .LEFT ∧
      ¬canStealRight N vs cs pos ∧
      (canStealLeft N vs cs pos ↔ minSize N < (cs.getD (pos - 1) (.ext [])).size)) := by
  refine ⟨fun h0 hlen => ?_, fun hp0 => ?_, fun hpe => ?_⟩
  · have hdir : mergeDir vs cs pos = .LEFT ↔
        (cs.getD (pos - 1) (.ext [])).size < (cs.getD (pos + 1) (.ext [])).size := by
      rw [mergeDir]
      constructor
      · intro h9
        by_contra hc
        rw [if_neg ?_] at h9
        · exact absurd h9 (by decide)
        · rintro (h10 | ⟨h10, h11⟩)
          · omega
          · exact hc h11
      · intro hc
        rw [if_pos (Or.inr ⟨by omega, hc⟩)]
    have hdirR : mergeDir vs cs pos = .RIGHT ↔
        ¬((cs.getD (pos - 1) (.ext [])).size < (cs.getD (pos + 1) (.ext [])).size) := by
      constructor
      · intro h9 hc
        rw [hdir.mpr hc] at h9
        exact absurd h9 (by decide)
      · intro hc
        cases h9 : mergeDir vs cs pos with
        | LEFT => exact absurd (hdir.mp h9) hc
        | RIGHT => rfl
    refine ⟨hdir, ?_, ?_⟩
    · unfold canStealRight
      constructor
      · rintro ⟨h9 | ⟨h9, _⟩, h10⟩
        · omega
        · exact ⟨hdir.mp h9, h10⟩
      · rintro ⟨hc, h10⟩
        exact ⟨Or.inr ⟨hdir.mpr hc, hlen⟩, h10⟩
    · unfold canStealLeft
      constructor
      · rintro ⟨h9 | ⟨h9, _⟩, h10⟩
        · omega
        · have := hdirR.mp h9
          exact ⟨by omega, h10⟩
      · rintro ⟨hc, h10⟩
        exact ⟨Or.inr ⟨hdirR.mpr (by omega), h0⟩, h10⟩
  · subst hp0
    have hdR : mergeDir vs cs 0 = .RIGHT := by
      have hcond : ¬((0 : Nat) = vs.length ∨ ((0 : Nat) ≠ 0 ∧
          (cs.getD (0 - 1) (.ext [])).size < (cs.getD (0 + 1) (.ext [])).size)) := by
        rintro (h9 | ⟨h9, _⟩)
        · omega
        · exact h9 rfl
      rw [mergeDir, if_neg hcond]
    refine ⟨hdR, ?_, ?_⟩
    · unfold canStealLeft
      rintro ⟨h9 | ⟨_, h9⟩, _⟩
      · omega
      · omega
    · unfold canStealRight
      constructor
      · rintro ⟨_, h10⟩
        exact h10
      · intro h10
        exact ⟨Or.inl rfl, h10⟩
  · have hdL : mergeDir vs cs pos = .LEFT := by
      rw [mergeDir, if_pos (Or.inl hpe)]
    refine ⟨hdL, ?_, ?_⟩
    · unfold canStealRight
      rintro ⟨h9 | ⟨_, h10⟩, _⟩
      · omega
      · omega
    · unfold canStealLeft
      constructor
      · rintro ⟨_, h10⟩
        exact h10
      · intro h10
        exact ⟨Or.inl hpe, h10⟩

/-- C1 witness: the interior tie configuration with both siblings of size
four, inside a parent with two separators. -/
theorem C1_sibling_choice_witness :
    (0 < 1 → 1 < ([10, 20] : List Int).length →
      (mergeDir [10, 20] [.ext [4, 5, 6, 7], .ext [11, 12], .ext [21, 22, 23, 24]] 1 =
          .LEFT ↔
        (([Node.ext [4, 5, 6, 7], Node.ext [11, 12], Node.ext [21, 22, 23, 24]] :
            List Node).getD 0 (.ext [])).size <
          (([Node.ext [4, 5, 6, 7], Node.ext [11, 12], Node.ext [21, 22, 23, 24]] :
            List Node).getD 2 (.ext [])).size) ∧
      (canStealRight 3 [10, 20]
          [.ext [4, 5, 6, 7], .ext [11, 12], .ext [21, 22, 23, 24]] 1 ↔
        (([Node.ext [4, 5, 6, 7], Node.ext [11, 12], Node.ext [21, 22, 23, 24]] :
            List Node).getD 0 (.ext [])).size <
          (([Node.ext [4, 5, 6, 7], Node.ext [11, 12], Node.ext [21, 22, 23, 24]] :
            List Node).getD 2 (.ext [])).size ∧
          minSize 3 < (([Node.ext [4, 5, 6, 7], Node.ext [11, 12],
            Node.ext [21, 22, 23, 24]] : List Node).getD 2 (.ext [])).size) ∧
      (canStealLeft 3 [10, 20]
          [.ext [4, 5, 6, 7], .ext [11, 12], .ext [21, 22, 23, 24]] 1 ↔
        (([Node.ext [4, 5, 6, 7], Node.ext [11, 12], Node.ext [21, 22, 23, 24]] :
            List Node).getD 2 (.ext [])).size ≤
          (([Node.ext [4, 5, 6, 7], Node.ext [11, 12], Node.ext [21, 22, 23, 24]] :
            List Node).getD 0 (.ext [])).size ∧
          minSize 3 < (([Node.ext [4, 5, 6, 7], Node.ext [11, 12],
            Node.ext [21, 22, 23, 24]] : List Node).getD 0 (.ext [])).size)) ∧
    ((1 : Nat) = 0 →
      mergeDir [10, 20] [.ext [4, 5, 6, 7], .ext [11, 12], .ext [21, 22, 23, 24]] 1 =
        .RIGHT ∧
      ¬canStealLeft 3 [10, 20]
        [.ext [4, 5, 6, 7], .ext [11, 12], .ext [21, 22, 23, 24]] 1 ∧
      (canStealRight 3 [10, 20]
          [.ext [4, 5, 6, 7], .ext [11, 12], .ext [21, 22, 23, 24]] 1 ↔
        minSize 3 < (([Node.ext [4, 5, 6, 7], Node.ext [11, 12],
          Node.ext [21, 22, 23, 24]] : List Node).getD 2 (.ext [])).size)) ∧
    ((1 : Nat) = ([10, 20] : List Int).length →
      mergeDir [10, 20] [.ext [4, 5, 6, 7], .ext [11, 12], .ext [21, 22, 23, 24]] 1 =
        .LEFT ∧
      ¬canStealRight 3 [10, 20]
        [.ext [4, 5, 6, 7], .ext [11, 12], .ext [21, 22, 23, 24]] 1 ∧
      (canStealLeft 3 [10, 20]
          [.ext [4, 5, 6, 7], .ext [11, 12], .ext [21, 22, 23, 24]] 1 ↔
        minSize 3 < (([Node.ext [4, 5, 6, 7], Node.ext [11, 12],
          Node.ext [21, 22, 23, 24]] : List Node).getD 0 (.ext [])).size)) :=
  C1_sibling_choice 3 [10, 20] [.ext [4, 5, 6, 7], .ext [11, 12], .ext [21, 22, 23, 24]]
    1 (by decide) (by decide)

/-- C1 counterexample: with `N = 3` and both siblings holding four keys (a
tie), `merge(1)` redistributes from the LEFT sibling — the left leaf shrinks
to `[4,5,6]`, its last key 7 moves into the underfull middle leaf, and the
parent separator becomes 7 — while the right sibling is untouched, refuting
the claimed tie-break toward the right sibling. -/
theorem C1_tie_counterexample :
    (([Node.ext [4, 5, 6, 7], Node.ext [11, 12], Node.ext [21, 22, 23, 24]] :
        List Node).getD 0 (.ext [])).size =
      (([Node.ext [4, 5, 6, 7], Node.ext [11, 12], Node.ext [21, 22, 23, 24]] :
        List Node).getD 2 (.ext [])).size ∧
    mergeAt 3 [10, 20] [.ext [4, 5, 6, 7], .ext [11, 12], .ext [21, 22, 23, 24]] 1 =
      ([7, 20], [.ext [4, 5, 6], .ext [7, 11, 12], .ext [21, 22, 23, 24]]) :=
  ⟨rfl, rfl⟩

/-- C9: on a parent satisfying the fill invariants whose child at `pos` just
went underfull (`N - 1` keys), if no redistribution is possible the fused
child holds at most `2N - 1` values when it is a leaf and at most `2N` when
it is internal (counting the pulled-down separator), hence stays within
`max_size`, so `merge` returns the fuse result unchanged: the recovery
re-split branch is dead code. -/
theorem C9_fuse_bounds {N : Nat} (hN : 1 ≤ N) (h2 : Nat) (vs : List Int) (cs : List Node)
    (lb ub : Option Int) (pos : Nat)
    (hv1 : 1 ≤ vs.length) (hpos : pos ≤ vs.length)
    (hseq : OrdSeq lb ub vs cs)
    (hbal : ∀ c ∈ cs, Bal h2 c)
    (hfillL : ∀ c ∈ cs.take pos, FillB N c)
    (hfillR : ∀ c ∈ cs.drop (pos + 1), FillB N c)
    (hunder : UnderFill N (cs.getD pos (.ext [])))
    (hsr : ¬canStealRight N vs cs pos) (hsl : ¬canStealLeft N vs cs pos) :
    (mergeDir vs cs pos = .LEFT →
      (∀ l, (fuseLeft vs cs pos).2.getD (pos - 1) (.ext []) = .ext l →
        l.length ≤ 2 * N - 1) ∧
      (∀ l cl, (fuseLeft vs cs pos).2.getD (pos - 1) (.ext []) = .intl l cl →
        l.length ≤ 2 * N) ∧
      ((fuseLeft vs cs pos).2.getD (pos - 1) (.ext [])).size ≤ maxSize N ∧
      mergeAt N vs cs pos = fuseLeft vs cs pos) ∧
    (mergeDir vs cs pos = .RIGHT →
      (∀ l, (fuseRight vs cs pos).2.getD pos (.ext []) = .ext l →
        l.length ≤ 2 * N - 1) ∧
      (∀ l cl, (fuseRight vs cs pos).2.getD pos (.ext []) = .intl l cl →
        l.length ≤ 2 * N) ∧
      ((fuseRight vs cs pos).2.getD pos (.ext [])).size ≤ maxSize N ∧
      mergeAt N vs cs pos = fuseRight vs cs pos) := by
  have hcl : cs.length = vs.length + 1 := ordSeq_length vs cs lb ub hseq
  cases hdir : mergeDir vs cs pos with
  | LEFT =>
      refine ⟨fun _ => ?_, fun h9 => absurd h9 (by decide)⟩
      have hpe : pos = vs.length := by
        by_contra hne
        have hplt : pos < vs.length := by omega
        have hP : pos = vs.length ∨
            (pos ≠ 0 ∧ (cs.getD (pos - 1) (.ext [])).size <
              (cs.getD (pos + 1) (.ext [])).size) := by
          by_contra hnp
          rw [mergeDir, if_neg hnp] at hdir
          simp at hdir
        rcases hP with h9 | ⟨hp0, hlr⟩
        · omega
        have hrle : ¬((cs.getD (pos + 1) (.ext [])).size > minSize N) :=
          fun hgt => hsr ⟨Or.inr ⟨hdir, hplt⟩, hgt⟩
        have hmem : cs.getD (pos - 1) (.ext []) ∈ cs.take pos := by
          rw [← getD_take_eq (Node.ext []) (show pos - 1 < pos by omega)
            (show pos ≤ cs.length by omega)]
          exact getD_mem_any _ (by rw [List.length_take]; omega)
        have hf9 := (fillB_size (hfillL _ hmem)).1
        simp only [minSize] at hrle
        omega
      have hp1 : 1 ≤ pos := by omega
      obtain ⟨V1, s, V2, C1, ln, cc, C2, mb2, hvsq, hcsq, hC1, hV1, hlnq, hccq,
        hV2q, hC2q, hL, hrest⟩ := merge_decomp_left hseq hp1 hpos hv1
      have hV2nil : V2 = [] := by
        rw [hV2q]
        exact List.drop_eq_nil_of_le (by omega)
      have hC2nil : C2 = [] := by
        rw [hC2q]
        exact List.drop_eq_nil_of_le (by omega)
      subst hV2nil hC2nil
      have hlle : ¬(ln.size > N) := by
        intro hgt
        refine hsl ⟨Or.inl hpe, ?_⟩
        rw [← hlnq]
        simpa [minSize] using hgt
      have hundercc : UnderFill N cc := by rw [hccq]; exact hunder
      have hposC : pos = C1.length + 1 := by omega
      rw [hcsq] at hbal
      have hbln : Bal h2 ln := hbal ln (by simp)
      have hbcc : Bal h2 cc := hbal cc (by simp)
      rw [OrdSeq] at hrest
      obtain ⟨hsepS, hlnO, hseq2⟩ := hrest
      rw [OrdSeq] at hseq2
      rw [hvsq, hcsq, hposC] at hsr hsl hdir ⊢
      cases h2 with
      | zero =>
          obtain ⟨lvs, hlve⟩ := bal_zero_ext hbln
          obtain ⟨cvs, hcve⟩ := bal_zero_ext hbcc
          subst hlve hcve
          have hlleE : lvs.length ≤ N := by
            simp only [Node.size] at hlle
            omega
          have hclen : cvs.length + 1 = N := by simpa [UnderFill] using hundercc
          obtain ⟨heq, hord⟩ := fuseLeftExt_spec hL hsepS hlnO hseq2
          rw [heq]
          simp only [mergeAt]
          rw [getD_append_length_succ]
          simp only
          rw [if_neg hsr, if_neg hsl]
          rw [hdir]
          simp only
          rw [heq]
          simp only
          rw [Nat.add_sub_cancel, getD_append_length]
          refine ⟨?_, ?_, ?_, ?_⟩
          · intro l hl
            injection hl with h9
            subst h9
            simp only [List.length_append]
            omega
          · intro l cl hl
            simp at hl
          · simp only [Node.size, maxSize, List.length_append]
            omega
          · rw [if_neg (by simp only [Node.size, maxSize, List.length_append]; omega)]
      | succ h =>
          obtain ⟨lvs, lcs, hlve, hlcl, hlcb⟩ := bal_succ_intl hbln
          obtain ⟨cvs, ccs, hcve, hccl, hccb⟩ := bal_succ_intl hbcc
          subst hlve hcve
          have hlleE : lvs.length ≤ N := by
            simp only [Node.size] at hlle
            omega
          have hclen : cvs.length + 1 = N ∧ ∀ c ∈ ccs, FillB N c := by
            simpa [UnderFill] using hundercc
          obtain ⟨hclen1, hccF⟩ := hclen
          obtain ⟨heq, hord⟩ := fuseLeftInt_spec hL hsepS hlnO hseq2
          rw [heq]
          simp only [mergeAt]
          rw [getD_append_length_succ]
          simp only
          rw [if_neg hsr, if_neg hsl]
          rw [hdir]
          simp only
          rw [heq]
          simp only
          rw [Nat.add_sub_cancel, getD_append_length]
          refine ⟨?_, ?_, ?_, ?_⟩
          · intro l hl
            simp at hl
          · intro l cl hl
            injection hl with h9 h10
            subst h9
            simp only [List.length_append, List.length_cons]
            omega
          · simp only [Node.size, maxSize, List.length_append, List.length_cons]
            omega
          · rw [if_neg (by
              simp only [Node.size, maxSize, List.length_append, List.length_cons]
              omega)]
  | RIGHT =>
      refine ⟨fun h9 => absurd h9 (by decide), fun _ => ?_⟩
      have hP : ¬(pos = vs.length ∨
          (pos ≠ 0 ∧ (cs.getD (pos - 1) (.ext [])).size <
            (cs.getD (pos + 1) (.ext [])).size)) := by
        intro hp
        rw [mergeDir, if_pos hp] at hdir
        simp at hdir
      have hplt : pos < vs.length := by
        have : pos ≠ vs.length := fun h9 => hP (Or.inl h9)
        omega
      have hrleN : (cs.getD (pos + 1) (.ext [])).size ≤ N := by
        rcases Nat.eq_zero_or_pos pos with hp0 | hp0
        · by_contra hgt
          exact hsr ⟨Or.inl hp0, by simp only [minSize]; omega⟩
        · have hlr : ¬((cs.getD (pos - 1) (.ext [])).size <
              (cs.getD (pos + 1) (.ext [])).size) :=
            fun h9 => hP (Or.inr ⟨by omega, h9⟩)
          have hlle : ¬((cs.getD (pos - 1) (.ext [])).size > minSize N) :=
            fun hgt => hsl ⟨Or.inr ⟨hdir, hp0⟩, hgt⟩
          simp only [minSize] at hlle
          omega
      obtain ⟨V1, s, V2, C1, cc, sib, C2, mb, hvsq, hcsq, hC1, hV1, hccq, hsibq, hL, hrest⟩ :=
        merge_decomp_right hseq hplt
      have hsible : sib.size ≤ N := by
        rw [hsibq]
        exact hrleN
      have hundercc : UnderFill N cc := by rw [hccq]; exact hunder
      rw [hcsq] at hbal
      have hbcc : Bal h2 cc := hbal cc (by simp)
      have hbsib : Bal h2 sib := hbal sib (by simp)
      rw [hvsq, hcsq, ← hC1] at hsr hsl hdir ⊢
      cases h2 with
      | zero =>
          obtain ⟨cvs, hcve⟩ := bal_zero_ext hbcc
          obtain ⟨rvs, hrve⟩ := bal_zero_ext hbsib
          subst hcve hrve
          have hrlenle : rvs.length ≤ N := by simpa [Node.size] using hsible
          have hclen : cvs.length + 1 = N := by simpa [UnderFill] using hundercc
          obtain ⟨heq, hord⟩ := fuseRightExt_spec hL hrest
          simp only [mergeAt]
          rw [getD_append_length]
          simp only
          rw [if_neg hsr, if_neg hsl]
          rw [hdir]
          simp only
          rw [heq]
          simp only
          rw [getD_append_length]
          refine ⟨?_, ?_, ?_, ?_⟩
          · intro l hl
            injection hl with h9
            subst h9
            simp only [List.length_append]
            omega
          · intro l cl hl
            simp at hl
          · simp only [Node.size, maxSize, List.length_append]
            omega
          · rw [if_neg (by simp only [Node.size, maxSize, List.length_append]; omega)]
      | succ h =>
          obtain ⟨cvs, ccs, hcve, hccl, hccb⟩ := bal_succ_intl hbcc
          obtain ⟨rvs, rcs, hrve, hrcl, hrcb⟩ := bal_succ_intl hbsib
          subst hcve hrve
          have hrlenle : rvs.length ≤ N := by simpa [Node.size] using hsible
          have hclen : cvs.length + 1 = N ∧ ∀ c ∈ ccs, FillB N c := by
            simpa [UnderFill] using hundercc
          obtain ⟨hclen1, hccF⟩ := hclen
          obtain ⟨heq, hord⟩ := fuseRightInt_spec hL hrest
          simp only [mergeAt]
          rw [getD_append_length]
          simp only
          rw [if_neg hsr, if_neg hsl]
          rw [hdir]
          simp only
          rw [heq]
          simp only
          rw [getD_append_length]
          refine ⟨?_, ?_, ?_, ?_⟩
          · intro l hl
            simp at hl
          · intro l cl hl
            injection hl with h9 h10
            subst h9
            simp only [List.length_append, List.length_cons]
            omega
          · simp only [Node.size, maxSize, List.length_append, List.length_cons]
            omega
          · rw [if_neg (by
              simp only [Node.size, maxSize, List.length_append, List.length_cons]
              omega)]

/-- C9 witness: for `N = 1`, an underfull last leaf fuses into its left
sibling and no recovery split runs. -/
theorem C9_fuse_bounds_witness :
    (mergeDir [10] [Node.ext [1], Node.ext []] 1 = .LEFT →
      (∀ l, (fuseLeft [10] [Node.ext [1], Node.ext []] 1).2.getD (1 - 1) (.ext []) =
        .ext l → l.length ≤ 2 * 1 - 1) ∧
      (∀ l cl, (fuseLeft [10] [Node.ext [1], Node.ext []] 1).2.getD (1 - 1) (.ext []) =
        .intl l cl → l.length ≤ 2 * 1) ∧
      ((fuseLeft [10] [Node.ext [1], Node.ext []] 1).2.getD (1 - 1) (.ext [])).size ≤
        maxSize 1 ∧
      mergeAt 1 [10] [Node.ext [1], Node.ext []] 1 =
        fuseLeft [10] [Node.ext [1], Node.ext []] 1) ∧
    (mergeDir [10] [Node.ext [1], Node.ext []] 1 = .RIGHT →
      (∀ l, (fuseRight [10] [Node.ext [1], Node.ext []] 1).2.getD 1 (.ext []) =
        .ext l → l.length ≤ 2 * 1 - 1) ∧
      (∀ l cl, (fuseRight [10] [Node.ext [1], Node.ext []] 1).2.getD 1 (.ext []) =
        .intl l cl → l.length ≤ 2 * 1) ∧
      ((fuseRight [10] [Node.ext [1], Node.ext []] 1).2.getD 1 (.ext [])).size ≤
        maxSize 1 ∧
      mergeAt 1 [10] [Node.ext [1], Node.ext []] 1 =
        fuseRight [10] [Node.ext [1], Node.ext []] 1) :=
  C9_fuse_bounds (by decide) 0 [10] [Node.ext [1], Node.ext []] none none 1
    (by decide) (by decide)
    (by
      rw [OrdSeq]
      refine ⟨⟨by simp, by simp⟩, ?_, ?_⟩
      · rw [Ordered]
        refine ⟨by decide, ?_⟩
        intro k2 hk2
        simp at hk2
        subst hk2
        exact ⟨by simp, fun b hb => by rw [mem_some_eq hb]; decide⟩
      · rw [OrdSeq]
        rw [Ordered]
        exact ⟨by decide, fun k2 hk2 => by simp at hk2⟩)
    (by
      intro c hc
      simp at hc
      rcases hc with rfl | rfl
      · exact Bal.ext _
      · exact Bal.ext _)
    (by
      intro c hc
      simp at hc
      subst hc
      exact FillB.ext _ (by decide) (by decide))
    (by
      intro c hc
      simp at hc)
    (by simp [UnderFill])
    (by decide)
    (by decide)
